import Mathlib

/-!
Verification of the AI-orchestration core of the AI-Trip-Planner repository
(`src/js/api.js`): the provider fallback chain (`smartAICall`), the provider
adapters (`callGemini`, `callGroq`), the JSON extraction/repair pipeline
(`extractJSON`), and the itinerary chunking loop (`generateItinerary`).

Modelling conventions (shallow embedding of the JavaScript source):
* JS strings are modelled as Lean `String`/`List Char` (sequences of Unicode
  scalar values).  Lone UTF-16 surrogates cannot be represented, so the
  model of `JSON.parse` rejects `\uXXXX` escapes that denote lone
  surrogates; surrogate pairs are combined as in JS.
* JSON numbers are kept as their source lexeme (a string matching the JSON
  number grammar) rather than as IEEE doubles; floating point is outside
  the embedding.  `JSON.stringify` of a number is modelled as emitting the
  lexeme unchanged.
* `JSON.parse` is modelled by a fuel-based recursive-descent parser
  (`parseValue` and friends) implementing the strict JSON grammar,
  including JS's last-wins semantics for duplicate object keys.
* Engine-specific `SyntaxError.message` texts are not modelled; errors of
  the pipeline carry fixed nominal messages.
* Network effects are modelled by oracles: an adapter outcome function for
  `smartAICall`, an HTTP response record for `callGemini`/`callGroq`, and a
  chunk-result oracle for `generateItinerary`.
* JS `Date` values restricted to UTC midnights (as produced by
  `new Date('YYYY-MM-DD')` and `setDate` arithmetic in the source) are
  modelled as integer epoch-day counts.
-/

namespace TripPlanner

/-! ## JSON values -/

/-- The result of `JSON.parse`: null, booleans, numbers (kept as their
source lexeme), strings, arrays and objects (ordered member lists). -/
inductive JValue where
  | null
  | bool (b : Bool)
  | num (lex : String)
  | str (s : String)
  | arr (elems : List JValue)
  | obj (members : List (String × JValue))

/-! ## Character classes -/

/-- Whitespace accepted by `JSON.parse` between tokens. -/
def isJsonWs (c : Char) : Bool := c = ' ' || c = '\t' || c = '\n' || c = '\r'

/-- The ASCII portion of the regex class `\s` used by the repair and fence
regexes in `extractJSON` (Unicode spaces are not exercised by the source's
inputs and are left out of the model). -/
def isRegexWs (c : Char) : Bool :=
  c = ' ' || c = '\t' || c = '\n' || c = '\r' || c = '\x0b' || c = '\x0c'

/-- The regex word class `\w` = `[A-Za-z0-9_]`. -/
def isWordChar (c : Char) : Bool := c.isAlpha || c.isDigit || c = '_'

/-- Characters that can occur in a JSON number lexeme; `JSON.parse` reads a
maximal run of these before validating it against the number grammar. -/
def numChar (c : Char) : Bool :=
  c.isDigit || c = '-' || c = '+' || c = '.' || c = 'e' || c = 'E'

/-- The backtick character (written via its code point throughout). -/
def backtick : Char := Char.ofNat 96

/-! ## JSON number grammar: `-?(0|[1-9][0-9]*)(\.[0-9]+)?([eE][+-]?[0-9]+)?` -/

/-- Consume the integer part `0|[1-9][0-9]*`. -/
def chompInt : List Char → Option (List Char)
  | '0' :: t => some t
  | c :: t => if c.isDigit then some (t.dropWhile Char.isDigit) else none
  | [] => none

/-- Consume an optional fraction part `(\.[0-9]+)?`. -/
def afterFrac : List Char → Option (List Char)
  | '.' :: t =>
    match t with
    | c :: _ => if c.isDigit then some (t.dropWhile Char.isDigit) else none
    | [] => none
  | cs => some cs

/-- Consume an optional exponent part `([eE][+-]?[0-9]+)?`. -/
def afterExp : List Char → Option (List Char)
  | c :: t =>
    if c = 'e' || c = 'E' then
      let t2 := match t with
        | s :: t3 => if s = '+' || s = '-' then t3 else s :: t3
        | [] => []
      match t2 with
      | d :: _ => if d.isDigit then some (t2.dropWhile Char.isDigit) else none
      | [] => none
    else some (c :: t)
  | [] => some []

/-- Whether `cs` is exactly a JSON number literal. -/
def validNumber (cs : List Char) : Bool :=
  let cs1 := match cs with | '-' :: t => t | cs => cs
  match chompInt cs1 with
  | none => false
  | some cs2 =>
    match afterFrac cs2 with
    | none => false
    | some cs3 =>
      match afterExp cs3 with
      | none => false
      | some cs4 => cs4.isEmpty

/-! ## String literals -/

/-- Value of a hexadecimal digit (both cases), as accepted in `\uXXXX`. -/
def hexVal (c : Char) : Option Nat :=
  if c.isDigit then some (c.toNat - 48)
  else if 'a' ≤ c && c ≤ 'f' then some (c.toNat - 87)
  else if 'A' ≤ c && c ≤ 'F' then some (c.toNat - 55)
  else none

/-- Value of a four-digit hexadecimal escape. -/
def hex4 (a b c d : Char) : Option Nat :=
  match hexVal a, hexVal b, hexVal c, hexVal d with
  | some x, some y, some z, some w => some (x * 4096 + y * 256 + z * 16 + w)
  | _, _, _, _ => none

/-- Read four hexadecimal digits, returning their value and the remaining
input. -/
def decodeHex16 : List Char → Option (Nat × List Char)
  | a :: b :: c :: d :: r => (hex4 a b c d).map fun n => (n, r)
  | _ => none

/-- The single-character escapes of JSON string literals. -/
def simpleEscape (e : Char) : Option Char :=
  if e = '"' then some '"'
  else if e = '\\' then some '\\'
  else if e = '/' then some '/'
  else if e = 'b' then some '\x08'
  else if e = 'f' then some '\x0c'
  else if e = 'n' then some '\n'
  else if e = 'r' then some '\r'
  else if e = 't' then some '\t'
  else none

/-- Decode one backslash escape (the backslash already consumed),
returning the decoded character and the remaining input.  `\uXXXX`
surrogate pairs are combined; lone surrogates are rejected (model
restriction). -/
def parseEscape : List Char → Option (Char × List Char)
  | [] => none
  | e :: t2 =>
    match simpleEscape e with
    | some c => some (c, t2)
    | none =>
      if e = 'u' then
        match decodeHex16 t2 with
        | none => none
        | some (n, t3) =>
          if n < 0xD800 || 0xDFFF < n then some (Char.ofNat n, t3)
          else if n ≤ 0xDBFF then
            match t3 with
            | bs :: us :: rest2 =>
              if bs = '\\' && us = 'u' then
                match decodeHex16 rest2 with
                | none => none
                | some (m, t4) =>
                  if 0xDC00 ≤ m && m ≤ 0xDFFF then
                    some (Char.ofNat (0x10000 + (n - 0xD800) * 0x400 + (m - 0xDC00)), t4)
                  else none
              else none
            | _ => none
          else none
      else none

/-- Parse the body of a JSON string literal (the opening quote already
consumed), returning the decoded string and the input after the closing
quote, as in `JSON.parse`. -/
def parseStringBody : Nat → List Char → List Char → Option (String × List Char)
  | 0, _, _ => none
  | fuel + 1, acc, cs =>
    match cs with
    | [] => none
    | c :: t =>
      if c = '"' then some (⟨acc⟩, t)
      else if c = '\\' then
        match parseEscape t with
        | some (ch, t2) => parseStringBody fuel (acc ++ [ch]) t2
        | none => none
      else if c.toNat < 0x20 then none
      else parseStringBody fuel (acc ++ [c]) t

/-- JS last-wins semantics for duplicate object keys: the value at an
existing key is replaced in place, otherwise the member is appended. -/
def setMember : List (String × JValue) → String → JValue → List (String × JValue)
  | [], k, v => [(k, v)]
  | (k2, v2) :: rest, k, v =>
    if k2 = k then (k2, v) :: rest else (k2, v2) :: setMember rest k v

/-! ## The strict JSON parser (model of `JSON.parse`) -/

mutual

/-- Parse a single JSON value at the head of the input (no leading
whitespace), returning the value and the unconsumed remainder. -/
def parseValue : Nat → List Char → Option (JValue × List Char)
  | 0, _ => none
  | fuel + 1, cs =>
    match cs with
    | [] => none
    | c :: rest =>
      if c = '{' then
        match rest.dropWhile isJsonWs with
        | '}' :: r2 => some (.obj [], r2)
        | r1 => (parseMembers fuel [] r1).map fun p => (JValue.obj p.1, p.2)
      else if c = '[' then
        match rest.dropWhile isJsonWs with
        | ']' :: r2 => some (.arr [], r2)
        | r1 => (parseElems fuel r1).map fun p => (JValue.arr p.1, p.2)
      else if c = '"' then (parseStringBody fuel [] rest).map fun p => (JValue.str p.1, p.2)
      else if c = 't' then
        if rest.take 3 = ['r', 'u', 'e'] then some (.bool true, rest.drop 3) else none
      else if c = 'f' then
        if rest.take 4 = ['a', 'l', 's', 'e'] then some (.bool false, rest.drop 4) else none
      else if c = 'n' then
        if rest.take 3 = ['u', 'l', 'l'] then some (.null, rest.drop 3) else none
      else if c = '-' || c.isDigit then
        let tok := (c :: rest).takeWhile numChar
        if validNumber tok then some (.num ⟨tok⟩, (c :: rest).dropWhile numChar) else none
      else none

/-- Parse one or more comma-separated array elements followed by `]`. -/
def parseElems : Nat → List Char → Option (List JValue × List Char)
  | 0, _ => none
  | fuel + 1, cs =>
    match parseValue fuel cs with
    | none => none
    | some (v, r1) =>
      match r1.dropWhile isJsonWs with
      | ',' :: r2 => (parseElems fuel (r2.dropWhile isJsonWs)).map fun p => (v :: p.1, p.2)
      | ']' :: r2 => some ([v], r2)
      | _ => none

/-- Parse one or more `"key": value` members followed by `}`, accumulating
members with last-wins duplicate handling. -/
def parseMembers : Nat → List (String × JValue) → List Char →
    Option (List (String × JValue) × List Char)
  | 0, _, _ => none
  | fuel + 1, acc, cs =>
    match cs with
    | [] => none
    | c :: r0 =>
      if c = '"' then
        match parseStringBody fuel [] r0 with
        | none => none
        | some (k, r1) =>
          match r1.dropWhile isJsonWs with
          | ':' :: r2 =>
            match parseValue fuel (r2.dropWhile isJsonWs) with
            | none => none
            | some (v, r3) =>
              match r3.dropWhile isJsonWs with
              | ',' :: r4 => parseMembers fuel (setMember acc k v) (r4.dropWhile isJsonWs)
              | '}' :: r4 => some (setMember acc k v, r4)
              | _ => none
          | _ => none
      else none

end

/-- Model of `JSON.parse` on a character list: optional surrounding
whitespace around exactly one JSON value.  The fuel `length + 1` is
sufficient for every input the development evaluates (each parsing step
consumes at least one character before the next recursive call). -/
def jsonParseL (cs : List Char) : Option JValue :=
  let t := cs.dropWhile isJsonWs
  match parseValue (t.length + 1) t with
  | some (v, r) => if (r.dropWhile isJsonWs).isEmpty then some v else none
  | none => none

/-- Model of `JSON.parse` on a string. -/
def jsonParse (s : String) : Option JValue := jsonParseL s.toList

/-! ## Model of `JSON.stringify` -/

/-- Lowercase hexadecimal digit. -/
def hexDigitChar (n : Nat) : Char :=
  if n < 10 then Char.ofNat (48 + n) else Char.ofNat (87 + n)

/-- `JSON.stringify` escaping of one character: quote, backslash, the short
control escapes, `\u00XX` for remaining control characters, everything else
verbatim. -/
def escapeChar (c : Char) : List Char :=
  if c = '"' then ['\\', '"']
  else if c = '\\' then ['\\', '\\']
  else if c = '\x08' then ['\\', 'b']
  else if c = '\x0c' then ['\\', 'f']
  else if c = '\n' then ['\\', 'n']
  else if c = '\r' then ['\\', 'r']
  else if c = '\t' then ['\\', 't']
  else if c.toNat < 0x20 then
    '\\' :: 'u' :: '0' :: '0' ::
      [hexDigitChar (c.toNat / 16), hexDigitChar (c.toNat % 16)]
  else [c]

/-- A string literal as serialized by `JSON.stringify`. -/
def escString (s : String) : List Char :=
  '"' :: (s.toList.map escapeChar).flatten ++ ['"']

mutual

/-- Characters of `JSON.stringify` output (compact form, as in JS with no
spacing argument).  Number values are emitted as their stored lexeme. -/
def sChars : JValue → List Char
  | .num lex => lex.toList
  | .null => ['n', 'u', 'l', 'l']
  | .str s => escString s
  | .bool true => ['t', 'r', 'u', 'e']
  | .arr xs => '[' :: sList xs ++ [']']
  | .bool false => ['f', 'a', 'l', 's', 'e']
  | .obj ms => '{' :: sMembers ms ++ ['}']

/-- Serialized array elements, comma separated. -/
def sList : List JValue → List Char
  | [] => []
  | [x] => sChars x
  | x :: y :: t => sChars x ++ ',' :: sList (y :: t)

/-- Serialized object members, comma separated. -/
def sMembers : List (String × JValue) → List Char
  | [] => []
  | [(k, v)] => escString k ++ ':' :: sChars v
  | (k, v) :: m :: t => escString k ++ ':' :: sChars v ++ ',' :: sMembers (m :: t)

end

/-- Model of `JSON.stringify`. -/
def stringifyJ (v : JValue) : String := ⟨sChars v⟩

/-! ## Model of the fence regex

`text.match(/```(?:json)?\s*([\s\S]*?)```/)`: at the leftmost position
where three backticks open a fence and a closing triple of backticks exists
later, the captured group is the text between the (optionally consumed)
`json` tag plus greedy whitespace and the earliest closing triple. -/

/-- Interior up to (not including) the first occurrence of three backticks;
`none` when no such occurrence exists. -/
def takeUntilTriple : List Char → Option (List Char)
  | [] => none
  | c :: rest =>
    if c = backtick && rest.take 2 = [backtick, backtick] then some []
    else (takeUntilTriple rest).map (c :: ·)

/-- Try to match the fence regex anchored at the start of `cs`. -/
def tryFence (cs : List Char) : Option (List Char) :=
  if cs.take 3 = [backtick, backtick, backtick] then
    let afterOpen := cs.drop 3
    let afterTag := if afterOpen.take 4 = ['j', 's', 'o', 'n'] then afterOpen.drop 4 else afterOpen
    takeUntilTriple (afterTag.dropWhile isRegexWs)
  else none

/-- Leftmost match of the fence regex: the captured interior, or `none`. -/
def fenceMatchL : List Char → Option (List Char)
  | [] => none
  | c :: rest =>
    match tryFence (c :: rest) with
    | some interior => some interior
    | none => fenceMatchL rest

/-! ## Models of the repair regex replacements -/

/-- `raw.replace(/,\s*([}\]])/g, '$1')`: drop a comma (and the whitespace
after it) when the next non-whitespace character closes a structure.  The
fuel (length + 1 at call sites) never runs out since every step consumes at
least one character; the exhaustion branch returns the input unchanged. -/
def repairTrailingCommas : Nat → List Char → List Char
  | 0, cs => cs
  | fuel + 1, cs =>
    match cs with
    | [] => []
    | ',' :: rest =>
      let ws := rest.takeWhile isRegexWs
      match rest.drop ws.length with
      | c :: after =>
        if c = '}' || c = ']' then c :: repairTrailingCommas fuel after
        else ',' :: repairTrailingCommas fuel rest
      | [] => ',' :: repairTrailingCommas fuel rest
    | c :: rest => c :: repairTrailingCommas fuel rest

/-- `.replace(/(["\w])\s*\n\s*(["\[{])/g, '$1,$2')`: insert a comma between
a quote-or-word character and a following quote/bracket/brace separated
only by whitespace containing at least one newline (the whitespace is
deleted).  Scanning resumes after the second captured character, as the JS
global regex does. -/
def repairMissingCommas : Nat → List Char → List Char
  | 0, cs => cs
  | fuel + 1, cs =>
    match cs with
    | [] => []
    | c1 :: rest =>
      if c1 = '"' || isWordChar c1 then
        let ws := rest.takeWhile isRegexWs
        match rest.drop ws.length with
        | c2 :: after =>
          if ws.contains '\n' && (c2 = '"' || c2 = '[' || c2 = '{') then
            c1 :: ',' :: c2 :: repairMissingCommas fuel after
          else c1 :: repairMissingCommas fuel rest
        | [] => c1 :: repairMissingCommas fuel rest
      else c1 :: repairMissingCommas fuel rest

/-- `.replace(/\t/g, ' ')`. -/
def repairTabs (cs : List Char) : List Char :=
  cs.map fun c => if c = '\t' then ' ' else c

/-! ## Index primitives used by `extractJSON` -/

/-- `String.prototype.lastIndexOf` for a single character, `-1` if absent. -/
def lastIdxOfChar (cs : List Char) (c : Char) : Int :=
  match cs with
  | [] => -1
  | x :: t =>
    let r := lastIdxOfChar t c
    if r ≥ 0 then r + 1 else if x = c then 0 else -1

/-- `String.prototype.lastIndexOf` for a two-character needle, `-1` if
absent. -/
def lastIdxOfPair (cs : List Char) (a b : Char) : Int :=
  match cs with
  | [] => -1
  | x :: t =>
    let r := lastIdxOfPair t a b
    if r ≥ 0 then r + 1 else if x = a && t.head? = some b then 0 else -1

/-- Whether three consecutive backticks occur anywhere in `cs`. -/
def hasTriple : List Char → Bool
  | [] => false
  | c :: t => (c = backtick && t.take 2 = [backtick, backtick]) || hasTriple t

/-! ## `extractJSON` -/

/-- The boundary-slice / parse / repair tail of `extractJSON` (`api.js`
lines 113-139), on the character list left after fence stripping: boundary
slicing, direct parse, regex repairs, truncation at the last complete
object boundary.  The `e.message` suffix of the final JS error is engine
specific and is not modelled. -/
def extractCore (raw0 : List Char) : Except String JValue :=
  match raw0.findIdx? (fun c => c = '[' || c = '{') with
  | none => .error "No JSON found in response"
  | some start =>
    let endIdx : Int := max (lastIdxOfChar raw0 '}') (lastIdxOfChar raw0 ']')
    if endIdx = -1 then .error "No JSON found in response"
    else
      let raw := (raw0.drop start).take (endIdx.toNat + 1 - start)
      match jsonParseL raw with
      | some v => .ok v
      | none =>
        let repaired :=
          repairTabs (repairMissingCommas (raw.length + 1)
            (repairTrailingCommas (raw.length + 1) raw))
        match jsonParseL repaired with
        | some v => .ok v
        | none =>
          let lastComplete : Int :=
            max (lastIdxOfPair repaired '}' ',') (lastIdxOfPair repaired '}' '\n')
          if lastComplete > (start : Int) then
            let truncated := repaired.take (lastComplete.toNat + 1) ++
              [if repaired.get? start = some '[' then ']' else '}']
            match jsonParseL truncated with
            | some v => .ok v
            | none => .error "JSON parse failed after repairs"
          else .error "JSON parse failed after repairs"

/-- The JSON extraction + repair pipeline of `api.js` (`extractJSON`):
fence stripping followed by the boundary/parse/repair tail. -/
def extractJSON (text : String) : Except String JValue :=
  extractCore
    (match fenceMatchL text.toList with
     | some interior => interior
     | none => text.toList)

/-! ## Provider registry and the orchestrator (`smartAICall`) -/

/-- The two provider families of `api.js`. -/
inductive ProviderType where
  | gemini
  | groq
deriving DecidableEq

/-- One entry of `AI_PROVIDERS`. -/
structure Provider where
  name : String
  model : String
  type : ProviderType
deriving DecidableEq

/-- The fixed provider registry `AI_PROVIDERS` of `api.js`. -/
def AI_PROVIDERS : List Provider :=
  [⟨"Gemini 2.0 Flash", "gemini-2.0-flash", .gemini⟩,
   ⟨"Gemini 2.0 Flash-Lite", "gemini-2.0-flash-lite", .gemini⟩,
   ⟨"Groq Llama 3.3", "llama-3.3-70b-versatile", .groq⟩,
   ⟨"Groq Mixtral", "mixtral-8x7b-32768", .groq⟩]

/-- The credential configuration object; the empty string models a missing
(JS-falsy) key. -/
structure Config where
  geminiKey : String
  groqKey : String

/-- Whether a provider's credential is present (`!config.geminiKey` /
`!config.groqKey` guards in `smartAICall`, negated). -/
def hasCred (cfg : Config) (p : Provider) : Bool :=
  match p.type with
  | .gemini => !cfg.geminiKey.isEmpty
  | .groq => !cfg.groqKey.isEmpty

/-- The provider loop of `smartAICall`.  `adapters` is the oracle giving
each provider's adapter outcome (`callGemini`/`callGroq` result or thrown
error message); `errors` is the accumulated failure log; `st` is the
module-level `lastProviderUsed` value on entry.  Returns the overall
result, the `lastProviderUsed` value after the call, and the ordered list
of providers whose adapter was invoked. -/
def smartAIGo (adapters : Provider → Except String String) (cfg : Config) :
    List Provider → List String → String → Except String String × String × List String
  | [], errors, st =>
    (.error ("All AI providers failed:\n" ++ String.intercalate "\n" errors), st, [])
  | p :: rest, errors, st =>
    if hasCred cfg p then
      match adapters p with
      | .ok t => (.ok t, p.name, [p.name])
      | .error e =>
        let r := smartAIGo adapters cfg rest (errors ++ [p.name ++ ": " ++ e]) st
        (r.1, r.2.1, p.name :: r.2.2)
    else smartAIGo adapters cfg rest errors st

/-- `smartAICall(prompt, config, onProviderSwitch)`: iterate the registry,
skip providers with missing credentials, return the first adapter success
(recording the provider name in `lastProviderUsed`), otherwise throw the
aggregate error.  The prompt and the `onProviderSwitch` callback do not
influence control flow (the callback fires exactly for the providers in the
returned attempt list) and are abstracted into the adapter oracle. -/
def smartAICall (adapters : Provider → Except String String) (cfg : Config)
    (st : String) : Except String String × String × List String :=
  smartAIGo adapters cfg AI_PROVIDERS [] st

/-- The initial module-level `lastProviderUsed` value (`let lastProviderUsed = ''`). -/
def lastProviderUsedInit : String := ""

/-- `getLastProvider()` returns the module-level state. -/
def getLastProvider (st : String) : String := st

/-! ## Provider adapters (`callGemini`, `callGroq`) -/

/-- An HTTP response as observed by the adapters: `ok`/`status` from
`fetch`, and the result of `res.json()` (`none` when the body is not valid
JSON, in which case `res.json()` rejects). -/
structure HttpResp where
  ok : Bool
  status : Nat
  json : Option JValue

/-- Property access `v[k]` on a parsed JSON value (objects only; scalar
receivers yield `undefined`). -/
def jGet (v : JValue) (k : String) : Option JValue :=
  match v with
  | .obj ms => (ms.find? fun m => m.1 = k).map Prod.snd
  | _ => none

/-- Index access `v[i]` on a parsed JSON value (arrays only in this model;
the API bodies exercised are objects and arrays). -/
def jIdx (v : JValue) (i : Nat) : Option JValue :=
  match v with
  | .arr xs => xs.get? i
  | _ => none

/-- `err.error?.message || fallback`: the message field when it is a
non-empty string (non-string message values are outside the model). -/
def errBodyMessage (body : JValue) : Option String :=
  match jGet body "error" with
  | some ev =>
    match jGet ev "message" with
    | some (.str s) => if s.isEmpty then none else some s
    | _ => none
  | none => none

/-- `data.candidates?.[0]?.content?.parts?.[0]?.text` as a string. -/
def geminiText (data : JValue) : Option String :=
  match (((((jGet data "candidates").bind (jIdx · 0)).bind
      (jGet · "content")).bind (jGet · "parts")).bind (jIdx · 0)).bind (jGet · "text") with
  | some (.str s) => some s
  | _ => none

/-- `data.choices?.[0]?.message?.content` as a string. -/
def groqText (data : JValue) : Option String :=
  match (((jGet data "choices").bind (jIdx · 0)).bind (jGet · "message")).bind
      (jGet · "content") with
  | some (.str s) => some s
  | _ => none

/-- `callGemini` response handling: on non-2xx throw the body's error
message (or `HTTP <status>`); on 2xx with unparseable body the `res.json()`
rejection propagates; otherwise extract the first candidate text, with `''`
when the envelope lacks it (`|| ''`). -/
def callGemini (resp : HttpResp) : Except String String :=
  if !resp.ok then
    .error ((errBodyMessage (resp.json.getD (.obj []))).getD ("HTTP " ++ toString resp.status))
  else
    match resp.json with
    | none => .error "Unexpected end of JSON input"
    | some data => .ok ((geminiText data).getD "")

/-- `callGroq` response handling, same shape with the chat-completion
envelope. -/
def callGroq (resp : HttpResp) : Except String String :=
  if !resp.ok then
    .error ((errBodyMessage (resp.json.getD (.obj []))).getD ("HTTP " ++ toString resp.status))
  else
    match resp.json with
    | none => .error "Unexpected end of JSON input"
    | some data => .ok ((groqText data).getD "")

/-- The adapter oracle induced by a per-provider HTTP response assignment,
dispatching on the provider family as `smartAICall` does. -/
def adapterOf (resps : Provider → HttpResp) (p : Provider) : Except String String :=
  match p.type with
  | .gemini => callGemini (resps p)
  | .groq => callGroq (resps p)

/-! ## Itinerary chunking (`generateItinerary`) -/

/-- One day of a chunk result; fields other than the day number and the
location (date, theme, places) are carried through `generateItinerary`
untouched and are collapsed into `payload`. -/
structure DayEntry where
  day : Int
  location : String
  payload : String
deriving DecidableEq

/-- A normalized chunk result (`{summary, days}`). -/
structure Chunk where
  summary : String
  days : List DayEntry
deriving DecidableEq

/-- The arguments of one `generateItineraryChunk` call.  Dates are epoch
days; `locations`, the selected places, `autoMode` and the provider
callback are passed through verbatim and (except `locations`, which feeds
the continuity hint) are omitted from the record. -/
structure ChunkReq where
  locations : List String
  startDate : Int
  endDate : Int
  startDay : Int
  numDays : Int
  prevContext : Option String
deriving DecidableEq

/-- `daysBetween(d1, d2)` = `Math.max(0, Math.floor((d2 - d1) / 86400000))`
on UTC-midnight dates: a clamped day difference. -/
def daysBetween (d1 d2 : Int) : Int := max 0 (d2 - d1)

/-- The multi-chunk `while` loop of `generateItinerary`, with the request
trace accumulated for call-count reasoning.  The fuel decreases once per
iteration; `generateItinerary` supplies `totalDays`, which is sufficient
because `dayOffset` advances by at least 1 per iteration, so the
exhaustion branch is unreachable. -/
def itinLoop (oracle : ChunkReq → Except String Chunk) (locations : List String)
    (totalDays : Int) :
    Nat → List DayEntry → String → Int → Int → List ChunkReq →
    Except String (Chunk × List ChunkReq)
  | fuel + 1, allDays, summary, chunkStart, dayOffset, reqs =>
    if dayOffset ≤ totalDays then
      let chunkSize := min 7 (totalDays - dayOffset + 1)
      let chunkEnd := chunkStart + chunkSize - 1
      let prevContext : Option String :=
        if allDays.length > 0 then
          let lastLoc := ((allDays.getLast?).map DayEntry.location).getD ""
          some ("Trip planned up to Day " ++ toString (dayOffset - 1) ++
            ". Last location: " ++ (if lastLoc.isEmpty then locations.headD "" else lastLoc) ++
            ". Continue from Day " ++ toString dayOffset ++ ".")
        else none
      let req : ChunkReq := ⟨locations, chunkStart, chunkEnd, dayOffset, chunkSize, prevContext⟩
      match oracle req with
      | .error e => .error e
      | .ok chunk =>
        let summary2 := if !chunk.summary.isEmpty && summary.isEmpty then chunk.summary else summary
        let renumbered := chunk.days.mapIdx fun idx d => { d with day := dayOffset + idx }
        itinLoop oracle locations totalDays fuel (allDays ++ renumbered) summary2
          (chunkEnd + 1) (dayOffset + chunkSize) (reqs ++ [req])
    else
      .ok (⟨if summary.isEmpty then
              toString totalDays ++ "-day trip across " ++ String.intercalate " & " locations
            else summary, allDays⟩, reqs)
  | 0, _, _, _, _, _ => .error "itinerary loop exhausted"

/-- `generateItinerary(config, locations, startDate, endDate, ...)`: one
direct chunk call for ranges of at most 7 days, otherwise the chunk loop
starting at day 1.  Chunk generation (prompt, orchestrator, normalizer) is
abstracted by `oracle`; the returned trace lists the issued chunk requests
in order. -/
def generateItinerary (oracle : ChunkReq → Except String Chunk)
    (locations : List String) (startDate endDate : Int) :
    Except String (Chunk × List ChunkReq) :=
  let totalDays := daysBetween startDate endDate + 1
  if totalDays ≤ 7 then
    let req : ChunkReq := ⟨locations, startDate, endDate, 1, totalDays, none⟩
    (oracle req).map fun c => (c, [req])
  else
    itinLoop oracle locations totalDays totalDays.toNat [] "" startDate 1 []

/-! ## Orchestrator lemmas -/

/-- The failure reason recorded for an adapter outcome (total on `Except`;
only the `error` case is ever reached by the lemmas using it). -/
def errMsgOf : Except String String → String
  | .error e => e
  | .ok _ => ""

/-- The aggregate failure line for one provider. -/
def failLine (adapters : Provider → Except String String) (p : Provider) : String :=
  p.name ++ ": " ++ errMsgOf (adapters p)

/-! ## Auxiliary predicates and witness oracles used by the theorems -/

/-- `[a, a + 1, ..., a + n - 1]` as integers. -/
def dayRange (a : Int) (n : Nat) : List Int :=
  (List.range n).map fun i : Nat => a + (i : Int)

def bracketLast (v : JValue) (b : List Char) : Prop :=
  match v with
  | .arr _ => b.getLast? = some ']'
  | .obj _ => b.getLast? = some '}'
  | _ => True

/-- The C5 witness oracle: correctly sized chunks whose internal day
numbers are all the bogus value 99. -/
def bogusDayOracle : ChunkReq → Except String Chunk := fun r =>
  if r.numDays < 0 then .error "neg"
  else .ok ⟨"", (List.range r.numDays.toNat).map fun _ => ⟨99, "X", ""⟩⟩

/-- The C6 witness oracle: the 7-day window yields seven days all numbered
42; any 1-day window yields one day numbered 77. -/
def chunkingOracle : ChunkReq → Except String Chunk := fun r =>
  if r.numDays = 7 then
    .ok ⟨"first", (List.range 7).map fun _ => ⟨42, "A", ""⟩⟩
  else .ok ⟨"", [⟨77, "B", ""⟩]⟩

def contOK (v : JValue) (r2 : List Char) : Prop :=
  match v with
  | .num _ => ∀ ch, r2.head? = some ch → numChar ch = false
  | _ => True

/-- Whether a JSON value is an array or an object. -/
def isContainer : JValue → Bool
  | .arr _ => true
  | .obj _ => true
  | _ => false

/-- Whether `k` occurs among the keys of a member list. -/
def keyMem (k : String) : List (String × JValue) → Bool
  | [] => false
  | (k2, _) :: t => k2 == k || keyMem k t

mutual

/-- Executable well-formedness of parser-produced values: number lexemes
satisfy the number grammar and object member lists have distinct keys. -/
def WfB : JValue → Bool
  | .null => true
  | .bool _ => true
  | .str _ => true
  | .num lex => validNumber lex.toList
  | .arr l => WfList l
  | .obj m => WfMembers m

/-- `WfB` on every element. -/
def WfList : List JValue → Bool
  | [] => true
  | v :: t => WfB v && WfList t

/-- `WfB` on every value, keys distinct. -/
def WfMembers : List (String × JValue) → Bool
  | [] => true
  | (k, v) :: t => WfB v && !keyMem k t && WfMembers t

end


theorem smartAIGo_error_char (adapters : Provider → Except String String) (cfg : Config) :
    ∀ (ps : List Provider) (errors : List String) (st m st2 : String) (att : List String),
      smartAIGo adapters cfg ps errors st = (.error m, st2, att) →
      st2 = st ∧
      att = (ps.filter (hasCred cfg)).map Provider.name ∧
      (∀ p ∈ ps.filter (hasCred cfg), ∃ e, adapters p = .error e) ∧
      m = "All AI providers failed:\n" ++ String.intercalate "\n"
        (errors ++ (ps.filter (hasCred cfg)).map (failLine adapters)) := by
  intro ps
  induction ps with
  | nil =>
    intro errors st m st2 att h
    simp only [smartAIGo, Prod.mk.injEq, Except.error.injEq] at h
    obtain ⟨hm, hst, hatt⟩ := h
    simp [← hm, hst.symm, hatt.symm]
  | cons p rest ih =>
    intro errors st m st2 att h
    simp only [smartAIGo] at h
    by_cases hc : hasCred cfg p
    · rw [if_pos hc] at h
      cases hada : adapters p with
      | ok t => rw [hada] at h; simp at h
      | error e =>
        rw [hada] at h
        simp only [Prod.mk.injEq] at h
        obtain ⟨h1, h2, h3⟩ := h
        have hrec := ih (errors ++ [p.name ++ ": " ++ e]) st m st2
          (smartAIGo adapters cfg rest (errors ++ [p.name ++ ": " ++ e]) st).2.2 (by
            rw [← h1, ← h2])
        obtain ⟨hst, hatt, hall, hm⟩ := hrec
        have hline : failLine adapters p = p.name ++ ": " ++ e := by
          simp [failLine, hada, errMsgOf]
        refine ⟨hst, ?_, ?_, ?_⟩
        · rw [← h3, hatt, List.filter_cons, if_pos hc, List.map_cons]
        · intro q hq
          rw [List.filter_cons, if_pos hc] at hq
          rcases List.mem_cons.1 hq with hq | hq
          · exact ⟨e, by rw [hq, hada]⟩
          · exact hall q hq
        · simp [hm, List.filter_cons, hc, hline, List.append_assoc]
    · rw [if_neg hc] at h
      have hrec := ih errors st m st2 att h
      simpa [List.filter_cons, hc] using hrec

theorem smartAIGo_ok_char (adapters : Provider → Except String String) (cfg : Config) :
    ∀ (ps : List Provider) (errors : List String) (st t st2 : String) (att : List String),
      smartAIGo adapters cfg ps errors st = (.ok t, st2, att) →
      ∃ k p, (ps.filter (hasCred cfg)).get? k = some p ∧
        adapters p = .ok t ∧ st2 = p.name ∧
        (∀ j q, j < k → (ps.filter (hasCred cfg)).get? j = some q →
          ∃ e, adapters q = .error e) ∧
        att = ((ps.filter (hasCred cfg)).take (k + 1)).map Provider.name := by
  intro ps
  induction ps with
  | nil => intro errors st t st2 att h; simp [smartAIGo] at h
  | cons p rest ih =>
    intro errors st t st2 att h
    simp only [smartAIGo] at h
    by_cases hc : hasCred cfg p
    · rw [if_pos hc] at h
      cases hada : adapters p with
      | ok t0 =>
        rw [hada] at h
        simp only [Prod.mk.injEq, Except.ok.injEq] at h
        obtain ⟨ht, hst, hatt⟩ := h
        refine ⟨0, p, ?_, ?_, hst.symm, ?_, ?_⟩
        · simp [List.filter_cons, hc]
        · rw [hada, ht]
        · intro j q hj; omega
        · simp [List.filter_cons, hc, ← hatt]
      | error e =>
        rw [hada] at h
        simp only [Prod.mk.injEq] at h
        obtain ⟨h1, h2, h3⟩ := h
        obtain ⟨k, q, hget, hok, hst, hprev, hatt⟩ :=
          ih (errors ++ [p.name ++ ": " ++ e]) st t st2
            (smartAIGo adapters cfg rest (errors ++ [p.name ++ ": " ++ e]) st).2.2
            (by rw [← h1, ← h2])
        refine ⟨k + 1, q, ?_, hok, hst, ?_, ?_⟩
        · simpa [List.filter_cons, hc] using hget
        · intro j r hj hjget
          rw [List.filter_cons, if_pos hc] at hjget
          cases j with
          | zero =>
            simp only [List.get?] at hjget
            exact ⟨e, by rw [Option.some.injEq] at hjget; rw [← hjget, hada]⟩
          | succ j2 =>
            exact hprev j2 r (by omega) (by simpa using hjget)
        · rw [← h3, hatt]
          simp [List.filter_cons, hc]
    · rw [if_neg hc] at h
      obtain ⟨k, q, hget, hok, hst, hprev, hatt⟩ := ih errors st t st2 att h
      refine ⟨k, q, ?_, hok, hst, ?_, ?_⟩
      · simpa [List.filter_cons, hc] using hget
      · intro j r hj hjget
        exact hprev j r hj (by simpa [List.filter_cons, hc] using hjget)
      · simpa [List.filter_cons, hc] using hatt

theorem smartAIGo_all_fail (adapters : Provider → Except String String) (cfg : Config) :
    ∀ (ps : List Provider) (errors : List String) (st : String),
      (∀ p ∈ ps.filter (hasCred cfg), ∃ e, adapters p = .error e) →
      smartAIGo adapters cfg ps errors st =
        (.error ("All AI providers failed:\n" ++ String.intercalate "\n"
          (errors ++ (ps.filter (hasCred cfg)).map (failLine adapters))), st,
         (ps.filter (hasCred cfg)).map Provider.name) := by
  intro ps
  induction ps with
  | nil => intro errors st _; simp [smartAIGo]
  | cons p rest ih =>
    intro errors st hall
    simp only [smartAIGo]
    by_cases hc : hasCred cfg p
    · rw [if_pos hc]
      have hp : ∃ e, adapters p = .error e := by
        apply hall
        simp [List.filter_cons, hc]
      obtain ⟨e, he⟩ := hp
      have hrest : ∀ q ∈ rest.filter (hasCred cfg), ∃ e2, adapters q = .error e2 := by
        intro q hq
        apply hall
        simp only [List.filter_cons, if_pos hc]
        exact List.mem_cons_of_mem p hq
      simp only [he]
      rw [ih (errors ++ [p.name ++ ": " ++ e]) st hrest]
      have hline : failLine adapters p = p.name ++ ": " ++ e := by
        simp [failLine, he, errMsgOf]
      simp only [List.filter_cons, if_pos hc, List.map_cons, hline, List.append_assoc,
        List.singleton_append]
    · rw [if_neg hc]
      rw [ih errors st (by simpa [List.filter_cons, hc] using hall)]
      simp [List.filter_cons, hc]

/-! ## Claim theorems: orchestrator -/

/-- Claim C1: for every adapter oracle and credential configuration,
`smartAICall` attempts the credentialed providers strictly in registry
order; at the first adapter success it records that provider's name as the
last successful provider and returns the adapter's text, and the attempt
list is exactly the registry-order run of credentialed providers up to and
including the succeeding one (so no later provider's adapter is invoked),
every earlier attempted provider having failed. -/
theorem smartAICall_first_success (adapters : Provider → Except String String)
    (cfg : Config) (st t st2 : String) (att : List String)
    (h : smartAICall adapters cfg st = (.ok t, st2, att)) :
    ∃ k p, (AI_PROVIDERS.filter (hasCred cfg)).get? k = some p ∧
      adapters p = .ok t ∧ st2 = p.name ∧
      (∀ j q, j < k → (AI_PROVIDERS.filter (hasCred cfg)).get? j = some q →
        ∃ e, adapters q = .error e) ∧
      att = ((AI_PROVIDERS.filter (hasCred cfg)).take (k + 1)).map Provider.name :=
  smartAIGo_ok_char adapters cfg AI_PROVIDERS [] st t st2 att h

/-- Witness for C1 at a concrete oracle where the second provider succeeds. -/
theorem smartAICall_first_success_witness :
    ∃ k p,
      ((AI_PROVIDERS.filter (hasCred ⟨"g", "q"⟩)).get? k = some p ∧
      (fun q : Provider =>
        if q.name = "Gemini 2.0 Flash-Lite" then Except.ok "text" else .error "boom") p =
        .ok "text" ∧ "Gemini 2.0 Flash-Lite" = p.name ∧
      (∀ j q, j < k → ((AI_PROVIDERS.filter (hasCred ⟨"g", "q"⟩)).get? j = some q →
        ∃ e, (fun q2 : Provider =>
          if q2.name = "Gemini 2.0 Flash-Lite" then Except.ok "text" else .error "boom") q =
          .error e)) ∧
      ["Gemini 2.0 Flash", "Gemini 2.0 Flash-Lite"] =
        ((AI_PROVIDERS.filter (hasCred ⟨"g", "q"⟩)).take (k + 1)).map Provider.name) :=
  smartAICall_first_success
    (fun q => if q.name = "Gemini 2.0 Flash-Lite" then .ok "text" else .error "boom")
    ⟨"g", "q"⟩ "prev" "text" "Gemini 2.0 Flash-Lite"
    ["Gemini 2.0 Flash", "Gemini 2.0 Flash-Lite"] rfl

/-- Claim C2: when every credentialed provider's adapter fails,
`smartAICall` throws the aggregate error listing one provider-attributed
line per attempted provider, newline-joined, in attempt (= registry)
order, each provider attempted exactly once (the attempt list equals the
credentialed sublist of the registry, which has no duplicate names); and
conversely every error `smartAICall` lets propagate is of exactly this
aggregate shape, arising only when all attempted providers failed. -/
theorem smartAICall_aggregate_error (adapters : Provider → Except String String)
    (cfg : Config) (st : String) :
    ((∀ p ∈ AI_PROVIDERS.filter (hasCred cfg), ∃ e, adapters p = .error e) →
      smartAICall adapters cfg st =
        (.error ("All AI providers failed:\n" ++ String.intercalate "\n"
          ((AI_PROVIDERS.filter (hasCred cfg)).map (failLine adapters))), st,
         (AI_PROVIDERS.filter (hasCred cfg)).map Provider.name) ∧
      ((AI_PROVIDERS.filter (hasCred cfg)).map Provider.name).Nodup) ∧
    (∀ m st2 att, smartAICall adapters cfg st = (.error m, st2, att) →
      att = (AI_PROVIDERS.filter (hasCred cfg)).map Provider.name ∧
      (∀ p ∈ AI_PROVIDERS.filter (hasCred cfg), ∃ e, adapters p = .error e) ∧
      m = "All AI providers failed:\n" ++ String.intercalate "\n"
        ((AI_PROVIDERS.filter (hasCred cfg)).map (failLine adapters))) := by
  constructor
  · intro hall
    constructor
    · have := smartAIGo_all_fail adapters cfg AI_PROVIDERS [] st hall
      simpa [smartAICall] using this
    · have hsub : (AI_PROVIDERS.filter (hasCred cfg)).Sublist AI_PROVIDERS :=
        List.filter_sublist _
      have hnames : (AI_PROVIDERS.map Provider.name).Nodup := by decide
      exact (hsub.map Provider.name).nodup hnames
  · intro m st2 att h
    obtain ⟨_, hatt, hall, hm⟩ := smartAIGo_error_char adapters cfg AI_PROVIDERS [] st m st2 att h
    exact ⟨hatt, hall, by simpa using hm⟩

/-- Witness for C2 at a concrete all-fail oracle over both credential
slots. -/
theorem smartAICall_aggregate_error_witness :
    smartAICall (fun p => .error ("down-" ++ p.model)) ⟨"g", "q"⟩ "prev" =
      (.error ("All AI providers failed:\n" ++ String.intercalate "\n"
        ((AI_PROVIDERS.filter (hasCred ⟨"g", "q"⟩)).map
          (failLine fun p => .error ("down-" ++ p.model)))), "prev",
       (AI_PROVIDERS.filter (hasCred ⟨"g", "q"⟩)).map Provider.name) ∧
    ((AI_PROVIDERS.filter (hasCred ⟨"g", "q"⟩)).map Provider.name).Nodup :=
  ((smartAICall_aggregate_error (fun p => .error ("down-" ++ p.model)) ⟨"g", "q"⟩ "prev").1
    (fun p _ => ⟨"down-" ++ p.model, rfl⟩))

/-- Claim C10: a `smartAICall` invocation that terminates by throwing
leaves the module-level `lastProviderUsed` value unchanged, so
`getLastProvider` afterwards returns the same string as before the call
(the initial module value being the empty string). -/
theorem lastProvider_unchanged_on_failure (adapters : Provider → Except String String)
    (cfg : Config) (st m st2 : String) (att : List String)
    (h : smartAICall adapters cfg st = (.error m, st2, att)) :
    getLastProvider st2 = getLastProvider st ∧ lastProviderUsedInit = "" :=
  ⟨congrArg getLastProvider
    (smartAIGo_error_char adapters cfg AI_PROVIDERS [] st m st2 att h).1, rfl⟩

/-! ## Itinerary renumbering lemmas -/


theorem dayRange_zero (a : Int) : dayRange a 0 = [] := rfl

theorem dayRange_succ (a : Int) (n : Nat) :
    dayRange a (n + 1) = a :: dayRange (a + 1) n := by
  simp only [dayRange, List.range_succ_eq_map, List.map_cons, List.map_map]
  congr 1
  · omega
  · apply List.map_congr_left
    intro i _
    simp only [Function.comp_apply, Nat.succ_eq_add_one]
    omega

theorem dayRange_append (a : Int) (m k : Nat) :
    dayRange a m ++ dayRange (a + m) k = dayRange a (m + k) := by
  simp only [dayRange, List.range_add, List.map_append, List.map_map]
  congr 1
  apply List.map_congr_left
  intro i _
  simp only [Function.comp_apply]
  omega

/-- The renumbering pass `chunk.days.forEach((day, idx) => day.day = dayOffset + idx)`
produces day numbers `dayOffset .. dayOffset + length - 1`. -/
theorem renumber_day_numbers :
    ∀ (xs : List DayEntry) (off : Int),
      (xs.mapIdx fun idx d => { d with day := off + idx }).map DayEntry.day =
        dayRange off xs.length := by
  intro xs
  induction xs with
  | nil => intro off; simp [dayRange]
  | cons x t ih =>
    intro off
    rw [List.mapIdx_cons]
    have hfun : (fun (i : Nat) (d : DayEntry) => { d with day := off + ((i + 1 : Nat) : Int) }) =
        (fun (i : Nat) (d : DayEntry) => { d with day := (off + 1) + (i : Int) }) := by
      funext i d
      simp only [DayEntry.mk.injEq, and_true, true_and]
      push_cast
      ring
    simp only [List.map_cons, List.length_cons, dayRange_succ, Nat.cast_zero, add_zero]
    congr 1
    rw [hfun, ih (off + 1)]

/-- Characterization of the chunk loop's day numbers: provided every chunk
result has exactly the requested number of days, the result extends the
accumulated days by the contiguous run `dayOffset .. totalDays`. -/
theorem itinLoop_day_numbers (oracle : ChunkReq → Except String Chunk)
    (locations : List String) (totalDays : Int)
    (hcount : ∀ r c, oracle r = .ok c → (c.days.length : Int) = r.numDays) :
    ∀ (fuel : Nat) (allDays : List DayEntry) (summary : String)
      (chunkStart dayOffset : Int) (reqs : List ChunkReq) (res : Chunk)
      (reqsOut : List ChunkReq),
      itinLoop oracle locations totalDays fuel allDays summary chunkStart dayOffset reqs =
        .ok (res, reqsOut) →
      res.days.map DayEntry.day =
        allDays.map DayEntry.day ++ dayRange dayOffset (totalDays + 1 - dayOffset).toNat := by
  intro fuel
  induction fuel with
  | zero => intro allDays summary chunkStart dayOffset reqs res reqsOut h; simp [itinLoop] at h
  | succ fuel ih =>
    intro allDays summary chunkStart dayOffset reqs res reqsOut h
    rw [itinLoop] at h
    by_cases hcond : dayOffset ≤ totalDays
    · rw [if_pos hcond] at h
      simp only [] at h
      split at h
      · exact absurd h (by simp)
      · rename_i chunk horacle
        have hlen : (chunk.days.length : Int) = min 7 (totalDays - dayOffset + 1) :=
          hcount _ _ horacle
        have hrec := ih _ _ _ _ _ _ _ h
        rw [hrec, List.map_append, renumber_day_numbers, List.append_assoc]
        congr 1
        have hlen2 : chunk.days.length = (min 7 (totalDays - dayOffset + 1)).toNat := by
          omega
        rw [hlen2]
        have harith : (totalDays + 1 - dayOffset).toNat =
            (min 7 (totalDays - dayOffset + 1)).toNat +
            (totalDays + 1 - (dayOffset + min 7 (totalDays - dayOffset + 1))).toNat := by
          omega
        rw [harith, ← dayRange_append]
        congr 2
        omega
    · rw [if_neg hcond] at h
      simp only [Except.ok.injEq, Prod.mk.injEq] at h
      obtain ⟨h1, h2⟩ := h
      subst h1
      have htd : (totalDays + 1 - dayOffset).toNat = 0 := by omega
      simp [htd, dayRange_zero]

/-! ## Consumption lemmas for the string-literal scanner -/

theorem decodeHex16_suffix (t : List Char) (n : Nat) (r : List Char)
    (h : decodeHex16 t = some (n, r)) :
    ∃ a b c d, t = a :: b :: c :: d :: r := by
  rcases t with _ | ⟨a, _ | ⟨b, _ | ⟨c, _ | ⟨d, t4⟩⟩⟩⟩
  · exact Option.noConfusion h
  · exact Option.noConfusion h
  · exact Option.noConfusion h
  · exact Option.noConfusion h
  · refine ⟨a, b, c, d, ?_⟩
    rw [decodeHex16] at h
    cases hx : hex4 a b c d with
    | none => rw [hx] at h; exact Option.noConfusion h
    | some v =>
      rw [hx] at h
      simp only [Option.map_some', Option.some.injEq, Prod.mk.injEq] at h
      rw [h.2]

theorem parseEscape_suffix (t : List Char) (ch : Char) (t2 : List Char)
    (h : parseEscape t = some (ch, t2)) : ∃ b, b ≠ [] ∧ t = b ++ t2 := by
  match t with
  | [] => exact absurd h (by simp [parseEscape])
  | e :: t3 =>
    rw [parseEscape] at h
    split at h
    · simp only [Option.some.injEq, Prod.mk.injEq] at h
      exact ⟨[e], List.cons_ne_nil e [], by rw [List.singleton_append, h.2]⟩
    · split_ifs at h with h9
      · split at h
        · exact Option.noConfusion h
        · rename_i n t4 hdec
          obtain ⟨a1, b1, c1, d1, hteq⟩ := decodeHex16_suffix _ _ _ hdec
          split_ifs at h with g1 g2
          · simp only [Option.some.injEq, Prod.mk.injEq] at h
            refine ⟨[e, a1, b1, c1, d1], List.cons_ne_nil _ _, ?_⟩
            rw [hteq, h.2]
            rfl
          · split at h
            · rename_i bs us rest2
              split_ifs at h with g3
              · split at h
                · exact Option.noConfusion h
                · rename_i m t5 hdec2
                  obtain ⟨a2, b2, c2, d2, hteq2⟩ := decodeHex16_suffix _ _ _ hdec2
                  split_ifs at h with g4
                  · simp only [Option.some.injEq, Prod.mk.injEq] at h
                    refine ⟨[e, a1, b1, c1, d1, bs, us, a2, b2, c2, d2],
                      List.cons_ne_nil _ _, ?_⟩
                    rw [hteq, hteq2, h.2]
                    rfl
            · exact Option.noConfusion h

/-- `parseStringBody` consumes a non-empty prefix of its input. -/
theorem parseStringBody_suffix :
    ∀ (fuel : Nat) (acc cs : List Char) (s : String) (r : List Char),
      parseStringBody fuel acc cs = some (s, r) → ∃ b, b ≠ [] ∧ cs = b ++ r := by
  intro fuel
  induction fuel with
  | zero => intro acc cs s r h; simp [parseStringBody] at h
  | succ f ih =>
    intro acc cs s r h
    match cs with
    | [] => exact absurd h (by simp [parseStringBody])
    | c :: t =>
      rw [parseStringBody] at h
      split_ifs at h with h1 h2 h3
      · simp only [Option.some.injEq, Prod.mk.injEq] at h
        exact ⟨[c], List.cons_ne_nil c [], by rw [List.singleton_append, h.2]⟩
      · split at h
        · rename_i ch t2 hesc
          obtain ⟨b1, hb1, heq1⟩ := parseEscape_suffix _ _ _ hesc
          obtain ⟨b2, hb2, heq2⟩ := ih _ _ _ _ h
          refine ⟨c :: b1 ++ b2, by simp, ?_⟩
          rw [heq1, heq2]
          simp
        · exact Option.noConfusion h
      · obtain ⟨b2, hb2, heq2⟩ := ih _ _ _ _ h
        exact ⟨c :: b2, by simp, by rw [heq2]; rfl⟩


theorem getLast?_append_some {l l2 : List Char} {a : Char} (h : l2.getLast? = some a) :
    (l ++ l2).getLast? = some a := by
  rw [List.getLast?_append, h]; rfl

theorem validNumber_ne_nil {cs : List Char} (h : validNumber cs = true) : cs ≠ [] := by
  intro he
  subst he
  simp [validNumber, chompInt] at h


theorem parse_shape :
    ∀ fuel : Nat,
      (∀ cs v r, parseValue fuel cs = some (v, r) →
        ∃ b, b ≠ [] ∧ cs = b ++ r ∧ bracketLast v b) ∧
      (∀ cs vs r, parseElems fuel cs = some (vs, r) →
        ∃ b, b ≠ [] ∧ cs = b ++ r ∧ b.getLast? = some ']') ∧
      (∀ acc cs ms r, parseMembers fuel acc cs = some (ms, r) →
        ∃ b, b ≠ [] ∧ cs = b ++ r ∧ b.getLast? = some '}') := by
  intro fuel
  induction fuel with
  | zero =>
    refine ⟨?_, ?_, ?_⟩
    · intro cs v r h; simp [parseValue] at h
    · intro cs vs r h; simp [parseElems] at h
    · intro acc cs ms r h; simp [parseMembers] at h
  | succ f ih =>
    obtain ⟨pvIH, peIH, pmIH⟩ := ih
    refine ⟨?_, ?_, ?_⟩
    · -- parseValue
      intro cs v r h
      match cs with
      | [] => exact absurd h (by simp [parseValue])
      | c :: rest =>
        rw [parseValue] at h
        split_ifs at h with h1 h2 h3 h4 h5 h6 h7 h8 h9 h10
        · -- object
          split at h
          · rename_i r2 heq
            simp only [Option.some.injEq, Prod.mk.injEq] at h
            refine ⟨(c :: rest.takeWhile isJsonWs) ++ ['}'], by simp, ?_, ?_⟩
            · rw [← h.2]
              have hr : rest = rest.takeWhile isJsonWs ++ '}' :: r2 := by
                rw [← heq, List.takeWhile_append_dropWhile]
              conv_lhs => rw [hr]
              simp
            · rw [← h.1]
              exact List.getLast?_concat _
          · cases hm : parseMembers f [] (rest.dropWhile isJsonWs) with
            | none => rw [hm] at h; exact Option.noConfusion h
            | some p =>
              rw [hm] at h
              simp only [Option.map_some', Option.some.injEq, Prod.mk.injEq] at h
              obtain ⟨b1, hb1, heq1, hlast1⟩ := pmIH [] _ _ _ hm
              refine ⟨(c :: rest.takeWhile isJsonWs) ++ b1, by simp, ?_, ?_⟩
              · rw [← h.2]
                have hr : rest = rest.takeWhile isJsonWs ++ (b1 ++ p.2) := by
                  conv_lhs => rw [← List.takeWhile_append_dropWhile isJsonWs rest]
                  rw [heq1]
                conv_lhs => rw [hr]
                simp
              · rw [← h.1]
                exact getLast?_append_some hlast1
        · -- array
          split at h
          · rename_i r2 heq
            simp only [Option.some.injEq, Prod.mk.injEq] at h
            refine ⟨(c :: rest.takeWhile isJsonWs) ++ [']'], by simp, ?_, ?_⟩
            · rw [← h.2]
              have hr : rest = rest.takeWhile isJsonWs ++ ']' :: r2 := by
                rw [← heq, List.takeWhile_append_dropWhile]
              conv_lhs => rw [hr]
              simp
            · rw [← h.1]
              exact List.getLast?_concat _
          · cases hm : parseElems f (rest.dropWhile isJsonWs) with
            | none => rw [hm] at h; exact Option.noConfusion h
            | some p =>
              rw [hm] at h
              simp only [Option.map_some', Option.some.injEq, Prod.mk.injEq] at h
              obtain ⟨b1, hb1, heq1, hlast1⟩ := peIH _ _ _ hm
              refine ⟨(c :: rest.takeWhile isJsonWs) ++ b1, by simp, ?_, ?_⟩
              · rw [← h.2]
                have hr : rest = rest.takeWhile isJsonWs ++ (b1 ++ p.2) := by
                  conv_lhs => rw [← List.takeWhile_append_dropWhile isJsonWs rest]
                  rw [heq1]
                conv_lhs => rw [hr]
                simp
              · rw [← h.1]
                exact getLast?_append_some hlast1
        · -- string
          cases hs : parseStringBody f [] rest with
          | none => rw [hs] at h; exact Option.noConfusion h
          | some p =>
            rw [hs] at h
            simp only [Option.map_some', Option.some.injEq, Prod.mk.injEq] at h
            obtain ⟨b1, hb1, heq1⟩ := parseStringBody_suffix f [] rest p.1 p.2 hs
            refine ⟨c :: b1, by simp, ?_, ?_⟩
            · rw [← h.2, heq1]
              rfl
            · rw [← h.1]
              trivial
        · -- true literal
          simp only [Option.some.injEq, Prod.mk.injEq] at h
          refine ⟨c :: rest.take 3, by simp, ?_, ?_⟩
          · rw [← h.2]
            conv_lhs => rw [← List.take_append_drop 3 rest]
            rfl
          · rw [← h.1]
            trivial
        · -- false literal
          simp only [Option.some.injEq, Prod.mk.injEq] at h
          refine ⟨c :: rest.take 4, by simp, ?_, ?_⟩
          · rw [← h.2]
            conv_lhs => rw [← List.take_append_drop 4 rest]
            rfl
          · rw [← h.1]
            trivial
        · -- null literal
          simp only [Option.some.injEq, Prod.mk.injEq] at h
          refine ⟨c :: rest.take 3, by simp, ?_, ?_⟩
          · rw [← h.2]
            conv_lhs => rw [← List.take_append_drop 3 rest]
            rfl
          · rw [← h.1]
            trivial
        · -- number
          by_cases hvn : validNumber ((c :: rest).takeWhile numChar) = true
          · simp only [hvn, if_true, Option.some.injEq, Prod.mk.injEq] at h
            refine ⟨(c :: rest).takeWhile numChar, validNumber_ne_nil hvn, ?_, ?_⟩
            · rw [← h.2, List.takeWhile_append_dropWhile]
            · rw [← h.1]
              trivial
          · simp only [if_neg hvn] at h
            exact Option.noConfusion h
    · -- parseElems
      intro cs vs r h
      rw [parseElems] at h
      split at h
      · exact Option.noConfusion h
      · rename_i v1 r1 heqv
        obtain ⟨b1, hb1, heq1, hbl⟩ := pvIH _ _ _ heqv
        split at h
        · rename_i r2 heq2
          cases hpe : parseElems f (r2.dropWhile isJsonWs) with
          | none => rw [hpe] at h; exact Option.noConfusion h
          | some q =>
            rw [hpe] at h
            simp only [Option.map_some', Option.some.injEq, Prod.mk.injEq] at h
            obtain ⟨b2, hb2, heq2b, hlast2⟩ := peIH _ _ _ hpe
            refine ⟨(b1 ++ r1.takeWhile isJsonWs ++ ',' :: r2.takeWhile isJsonWs) ++ b2,
              by simp, ?_, ?_⟩
            · rw [← h.2, heq1]
              have hp2 : r1 = r1.takeWhile isJsonWs ++ ',' :: r2 := by
                rw [← heq2, List.takeWhile_append_dropWhile]
              have hr2 : r2 = r2.takeWhile isJsonWs ++ (b2 ++ q.2) := by
                conv_lhs => rw [← List.takeWhile_append_dropWhile isJsonWs r2]
                rw [heq2b]
              conv_lhs => rw [hp2]
              conv_lhs => rw [hr2]
              simp
            · exact getLast?_append_some hlast2
        · rename_i r2 heq2
          simp only [Option.some.injEq, Prod.mk.injEq] at h
          refine ⟨(b1 ++ r1.takeWhile isJsonWs) ++ [']'], by simp, ?_, ?_⟩
          · rw [← h.2, heq1]
            have hp2 : r1 = r1.takeWhile isJsonWs ++ ']' :: r2 := by
              rw [← heq2, List.takeWhile_append_dropWhile]
            conv_lhs => rw [hp2]
            simp
          · exact List.getLast?_concat _
        · exact Option.noConfusion h
    · -- parseMembers
      intro acc cs ms r h
      match cs with
      | [] => exact absurd h (by simp [parseMembers])
      | c :: r0 =>
        rw [parseMembers] at h
        split_ifs at h with hq
        split at h
        · exact Option.noConfusion h
        · rename_i k r1 heqs
          obtain ⟨bk, hbk, heqk⟩ := parseStringBody_suffix f [] r0 k r1 heqs
          split at h
          · rename_i r2 heq2
            split at h
            · exact Option.noConfusion h
            · rename_i v2 r3 heqv
              obtain ⟨bv, hbv, heqv2, hblv⟩ := pvIH _ _ _ heqv
              split at h
              · rename_i r4 heq4
                obtain ⟨bm, hbm, heqm, hlastm⟩ := pmIH _ _ _ _ h
                refine ⟨(c :: bk ++ r1.takeWhile isJsonWs ++ ':' ::
                  (r2.takeWhile isJsonWs ++ bv ++ r3.takeWhile isJsonWs) ++ ',' ::
                  r4.takeWhile isJsonWs) ++ bm, by simp, ?_, ?_⟩
                · have e1 : r1 = r1.takeWhile isJsonWs ++ ':' :: r2 := by
                    rw [← heq2, List.takeWhile_append_dropWhile]
                  have e2 : r2 = r2.takeWhile isJsonWs ++ (bv ++ r3) := by
                    conv_lhs => rw [← List.takeWhile_append_dropWhile isJsonWs r2]
                    rw [heqv2]
                  have e3 : r3 = r3.takeWhile isJsonWs ++ ',' :: r4 := by
                    rw [← heq4, List.takeWhile_append_dropWhile]
                  have e4 : r4 = r4.takeWhile isJsonWs ++ (bm ++ r) := by
                    conv_lhs => rw [← List.takeWhile_append_dropWhile isJsonWs r4]
                    rw [heqm]
                  conv_lhs => rw [heqk]
                  conv_lhs => rw [e1]
                  conv_lhs => rw [e2]
                  conv_lhs => rw [e3]
                  conv_lhs => rw [e4]
                  simp
                · exact getLast?_append_some hlastm
              · rename_i r4 heq4
                simp only [Option.some.injEq, Prod.mk.injEq] at h
                refine ⟨(c :: bk ++ r1.takeWhile isJsonWs ++ ':' ::
                  (r2.takeWhile isJsonWs ++ bv ++ r3.takeWhile isJsonWs)) ++ ['}'],
                  by simp, ?_, ?_⟩
                · rw [← h.2]
                  have e1 : r1 = r1.takeWhile isJsonWs ++ ':' :: r2 := by
                    rw [← heq2, List.takeWhile_append_dropWhile]
                  have e2 : r2 = r2.takeWhile isJsonWs ++ (bv ++ r3) := by
                    conv_lhs => rw [← List.takeWhile_append_dropWhile isJsonWs r2]
                    rw [heqv2]
                  have e3 : r3 = r3.takeWhile isJsonWs ++ '}' :: r4 := by
                    rw [← heq4, List.takeWhile_append_dropWhile]
                  conv_lhs => rw [heqk]
                  conv_lhs => rw [e1]
                  conv_lhs => rw [e2]
                  conv_lhs => rw [e3]
                  simp
                · exact List.getLast?_concat _
              · exact Option.noConfusion h
          · exact Option.noConfusion h

/-! ## Fence occurrence lemmas -/

theorem takeUntilTriple_subset :
    ∀ (cs i : List Char), takeUntilTriple cs = some i → ∀ c ∈ i, c ∈ cs := by
  intro cs
  induction cs with
  | nil => intro i h; simp [takeUntilTriple] at h
  | cons x rest ih =>
    intro i h c hc
    rw [takeUntilTriple] at h
    by_cases hcond : (x = backtick && rest.take 2 = [backtick, backtick]) = true
    · rw [if_pos hcond] at h
      simp only [Option.some.injEq] at h
      rw [← h] at hc
      simp at hc
    · rw [if_neg hcond] at h
      cases hrec : takeUntilTriple rest with
      | none => rw [hrec] at h; simp at h
      | some i2 =>
        rw [hrec] at h
        have h3 : x :: i2 = i := Option.some_inj.1 h
        rw [← h3] at hc
        rcases List.mem_cons.1 hc with hc | hc
        · rw [hc]; exact List.mem_cons_self x rest
        · exact List.mem_cons_of_mem x (ih i2 hrec c hc)

theorem tryFence_subset (cs i : List Char) (h : tryFence cs = some i) :
    ∀ c ∈ i, c ∈ cs := by
  intro c hc
  rw [tryFence] at h
  by_cases hcond : (cs.take 3 = [backtick, backtick, backtick])
  · rw [if_pos hcond] at h
    have h1 := takeUntilTriple_subset _ _ h c hc
    have h2 : c ∈ (if (cs.drop 3).take 4 = ['j', 's', 'o', 'n'] then
        (cs.drop 3).drop 4 else cs.drop 3) := (List.dropWhile_sublist _).subset h1
    have h3 : c ∈ cs.drop 3 := by
      by_cases htag : (cs.drop 3).take 4 = ['j', 's', 'o', 'n']
      · rw [if_pos htag] at h2
        exact (List.drop_sublist _ _).subset h2
      · rwa [if_neg htag] at h2
    exact (List.drop_sublist _ _).subset h3
  · rw [if_neg hcond] at h
    exact absurd h (by simp)

theorem fenceMatchL_subset :
    ∀ (cs i : List Char), fenceMatchL cs = some i → ∀ c ∈ i, c ∈ cs := by
  intro cs
  induction cs with
  | nil => intro i h; simp [fenceMatchL] at h
  | cons x rest ih =>
    intro i h c hc
    rw [fenceMatchL] at h
    cases htry : tryFence (x :: rest) with
    | some i2 =>
      rw [htry] at h
      simp only [Option.some.injEq] at h
      exact tryFence_subset _ _ (h ▸ htry) c hc
    | none =>
      rw [htry] at h
      exact List.mem_cons_of_mem x (ih i h c hc)

/-! ## Claim C8: inputs with no brace and no bracket -/

/-- Claim C8: for every input containing no `{` and no `[`, `extractJSON`
fails with the boundary-detection error (it never returns a value). -/
theorem extractJSON_no_json_error (s : String)
    (h : ∀ c ∈ s.toList, c ≠ '{' ∧ c ≠ '[') :
    extractJSON s = .error "No JSON found in response" := by
  have hpred : ∀ (l : List Char), (∀ c ∈ l, c ∈ s.toList) →
      l.findIdx? (fun c => c = '[' || c = '{') = none := by
    intro l hsub
    apply List.findIdx?_eq_none_iff.2
    intro x hx
    obtain ⟨h1, h2⟩ := h x (hsub x hx)
    simp [h1, h2]
  rw [extractJSON]
  cases hfence : fenceMatchL s.toList with
  | none =>
    rw [extractCore, hpred s.toList (fun c hc => hc)]
  | some i =>
    rw [extractCore, hpred i (fenceMatchL_subset s.toList i hfence)]

/-- Witness for C8 at a concrete bracket-free input. -/
theorem extractJSON_no_json_error_witness :
    extractJSON "The weather is lovely." = .error "No JSON found in response" :=
  extractJSON_no_json_error "The weather is lovely." (by decide)

/-! ## Claim C3: the truncated-array test vector -/

/-- Counterexample to claim C3 as stated: on the truncated array
`[{"a":1},{"b":2}` the code truncates at the last `},` boundary (index 7),
so the final complete element `{"b":2}` is dropped: the result is
`[{"a":1}]`, not the claimed `[{"a":1},{"b":2}]`. -/
theorem extractJSON_truncation_counterexample :
    extractJSON "[\x7b\"a\":1\x7d,\x7b\"b\":2\x7d" =
      .ok (.arr [.obj [("a", .num "1")]]) ∧
    JValue.arr [.obj [("a", .num "1")]] ≠
      JValue.arr [.obj [("a", .num "1")], .obj [("b", .num "2")]] := by
  refine ⟨rfl, ?_⟩
  intro h
  injection h with h2
  simp at h2

/-- Claim C3 amended: on `[{"a":1},{"b":2}` (truncated array),
`extractJSON` succeeds with `[{"a":1}]` — truncation recovery keeps
complete elements only up to the last `},`/`}\n` boundary and appends the
bracket matching the opening character, dropping the final complete
element that is not followed by a comma or newline. -/
theorem extractJSON_truncation_amended :
    extractJSON "[\x7b\"a\":1\x7d,\x7b\"b\":2\x7d" =
      .ok (.arr [.obj [("a", .num "1")]]) := rfl

/-! ## Claims C5 and C6: itinerary chunking -/

/-- Counterexample to claim C5 as stated: for a 1-day request whose single
chunk result carries day number 5, `generateItinerary` returns that result
unmodified, so the day numbers are not the contiguous run starting at 1
covering the requested range. -/
theorem generateItinerary_contiguity_counterexample :
    generateItinerary (fun _ => .ok ⟨"s", [⟨5, "X", ""⟩]⟩) ["L"] 0 0 =
      .ok (⟨"s", [⟨5, "X", ""⟩]⟩, [⟨["L"], 0, 0, 1, 1, none⟩]) ∧
    (Chunk.mk "s" [⟨5, "X", ""⟩]).days.map DayEntry.day ≠
      dayRange 1 (daysBetween 0 0 + 1).toNat := by
  refine ⟨rfl, ?_⟩
  decide

/-- Claim C5 amended: provided every chunk result has exactly the requested
number of days, a successful `generateItinerary` for a range longer than
7 days yields day numbers forming the contiguous run `1 .. totalDays`; for
a range of at most 7 days the single chunk result is returned unmodified
(one request, day numbers exactly as the chunk gave them). -/
theorem generateItinerary_contiguity_amended (oracle : ChunkReq → Except String Chunk)
    (locations : List String) (s e : Int) (res : Chunk) (reqs : List ChunkReq)
    (hcount : ∀ r c, oracle r = .ok c → (c.days.length : Int) = r.numDays)
    (hok : generateItinerary oracle locations s e = .ok (res, reqs)) :
    (daysBetween s e + 1 ≤ 7 →
      reqs = [⟨locations, s, e, 1, daysBetween s e + 1, none⟩] ∧
      oracle ⟨locations, s, e, 1, daysBetween s e + 1, none⟩ = .ok res) ∧
    (7 < daysBetween s e + 1 →
      res.days.map DayEntry.day = dayRange 1 (daysBetween s e + 1).toNat) := by
  constructor
  · intro hle
    rw [generateItinerary] at hok
    simp only [if_pos hle] at hok
    cases horacle : oracle ⟨locations, s, e, 1, daysBetween s e + 1, none⟩ with
    | error err => rw [horacle] at hok; simp [Except.map] at hok
    | ok c =>
      rw [horacle] at hok
      simp only [Except.map, Except.ok.injEq, Prod.mk.injEq] at hok
      exact ⟨hok.2.symm, by rw [hok.1]⟩
  · intro hgt
    rw [generateItinerary] at hok
    simp only [if_neg (by omega : ¬(daysBetween s e + 1 ≤ 7))] at hok
    have := itinLoop_day_numbers oracle locations (daysBetween s e + 1) hcount
      (daysBetween s e + 1).toNat [] "" s 1 [] res reqs hok
    simpa using this


theorem bogusDayOracle_count :
    ∀ r c, bogusDayOracle r = .ok c → (c.days.length : Int) = r.numDays := by
  intro r c h
  rw [bogusDayOracle] at h
  split at h
  · exact absurd h (by simp)
  · simp only [Except.ok.injEq] at h
    rw [← h]
    simp only [List.length_map, List.length_range]
    omega

/-- Witness for the amended C5: the 9-day request over `bogusDayOracle`
yields day numbers 1..9 despite every chunk day carrying day number 99. -/
theorem generateItinerary_contiguity_amended_witness :
    (Chunk.mk "9-day trip across L"
      [⟨1, "X", ""⟩, ⟨2, "X", ""⟩, ⟨3, "X", ""⟩, ⟨4, "X", ""⟩, ⟨5, "X", ""⟩,
       ⟨6, "X", ""⟩, ⟨7, "X", ""⟩, ⟨8, "X", ""⟩, ⟨9, "X", ""⟩]).days.map DayEntry.day =
      dayRange 1 (daysBetween 0 8 + 1).toNat :=
  (generateItinerary_contiguity_amended bogusDayOracle ["L"] 0 8
    ⟨"9-day trip across L",
      [⟨1, "X", ""⟩, ⟨2, "X", ""⟩, ⟨3, "X", ""⟩, ⟨4, "X", ""⟩, ⟨5, "X", ""⟩,
       ⟨6, "X", ""⟩, ⟨7, "X", ""⟩, ⟨8, "X", ""⟩, ⟨9, "X", ""⟩]⟩
    [⟨["L"], 0, 6, 1, 7, none⟩,
     ⟨["L"], 7, 8, 8, 2,
      some "Trip planned up to Day 7. Last location: X. Continue from Day 8."⟩]
    bogusDayOracle_count rfl).2 (by decide)

/-- Claim C6: a trip spanning exactly 7 days issues exactly one chunk
request (the whole range, starting day 1) and returns that chunk's result
unmodified; a trip spanning 8 days issues exactly two chunk requests — a
7-day window then a 1-day window, in chronological order — and when each
chunk returns its requested number of days the merged day numbers are
renumbered 1..8 contiguously regardless of the day numbers the provider
returned. -/
theorem generateItinerary_chunking (oracle : ChunkReq → Except String Chunk)
    (locations : List String) (start : Int) (c c1 c2 : Chunk)
    (h7 : oracle ⟨locations, start, start + 6, 1, 7, none⟩ = .ok c)
    (h8a : oracle ⟨locations, start, start + 6, 1, 7, none⟩ = .ok c1)
    (hlen1 : c1.days.length = 7)
    (h8b : ∀ ctx, oracle ⟨locations, start + 7, start + 7, 8, 1, some ctx⟩ = .ok c2)
    (hlen2 : c2.days.length = 1) :
    generateItinerary oracle locations start (start + 6) =
      .ok (c, [⟨locations, start, start + 6, 1, 7, none⟩]) ∧
    ∃ ctx res,
      generateItinerary oracle locations start (start + 7) =
        .ok (res, [⟨locations, start, start + 6, 1, 7, none⟩,
                   ⟨locations, start + 7, start + 7, 8, 1, some ctx⟩]) ∧
      res.days.map DayEntry.day = dayRange 1 8 := by
  constructor
  · have ht7 : daysBetween start (start + 6) + 1 = 7 := by unfold daysBetween; omega
    simp only [generateItinerary, ht7]
    norm_num
    rw [h7]
    rfl
  · have ht8 : daysBetween start (start + 7) + 1 = 8 := by unfold daysBetween; omega
    have h8a2 : oracle ⟨locations, start, start + 7 - 1, 1, 7, none⟩ = .ok c1 := by
      rw [show start + 7 - 1 = start + 6 by ring]; exact h8a
    simp only [generateItinerary, ht8]
    norm_num
    simp only [itinLoop]
    norm_num
    simp only [h8a2, hlen1]
    norm_num
    rw [h8b]
    rw [show start + 7 - 1 = start + 6 by ring]
    refine ⟨_, _, rfl, ?_⟩
    rw [List.map_append, renumber_day_numbers, renumber_day_numbers, hlen1, hlen2]
    have happ := dayRange_append 1 7 1
    norm_num at happ
    exact happ


/-- Witness for C6 at `chunkingOracle` with the trip starting at epoch
day 0. -/
theorem generateItinerary_chunking_witness :
    generateItinerary chunkingOracle ["L"] 0 (0 + 6) =
      .ok (⟨"first", (List.range 7).map fun _ => ⟨42, "A", ""⟩⟩,
           [⟨["L"], 0, 0 + 6, 1, 7, none⟩]) ∧
    ∃ ctx res,
      generateItinerary chunkingOracle ["L"] 0 (0 + 7) =
        .ok (res, [⟨["L"], 0, 0 + 6, 1, 7, none⟩,
                   ⟨["L"], 0 + 7, 0 + 7, 8, 1, some ctx⟩]) ∧
      res.days.map DayEntry.day = dayRange 1 8 :=
  generateItinerary_chunking chunkingOracle ["L"] 0
    ⟨"first", (List.range 7).map fun _ => ⟨42, "A", ""⟩⟩
    ⟨"first", (List.range 7).map fun _ => ⟨42, "A", ""⟩⟩
    ⟨"", [⟨77, "B", ""⟩]⟩ rfl rfl rfl (fun _ => rfl) rfl

/-! ## Claim C4: adapter treatment of malformed response envelopes -/

/-- Counterexample to claim C4 as stated: over responses that are 2xx with
a body lacking any candidates/choices text part, the first provider's
attempt is NOT treated as a failure — `smartAICall` returns success with
the empty string immediately and never attempts the second provider. -/
theorem adapter_malformed_envelope_counterexample :
    smartAICall (adapterOf fun _ => ⟨true, 200, some (.obj [])⟩) ⟨"g", "q"⟩ "prev" =
      (.ok "", "Gemini 2.0 Flash", ["Gemini 2.0 Flash"]) ∧
    callGemini ⟨true, 200, some (.obj [])⟩ = .ok "" := ⟨rfl, rfl⟩

/-- Claim C4 amended: a non-2xx HTTP response is an adapter failure whose
message comes from the body's `error.message` field (or `HTTP <status>`),
and the orchestrator then continues; but a 2xx response whose envelope
lacks the expected text part yields adapter success with the empty string,
which the orchestrator returns immediately (recording the provider) rather
than continuing. -/
theorem adapter_malformed_envelope_amended (resps : Provider → HttpResp)
    (cfg : Config) (st : String) (d : JValue)
    (hkey : cfg.geminiKey ≠ "")
    (hok : (resps ⟨"Gemini 2.0 Flash", "gemini-2.0-flash", .gemini⟩).ok = true)
    (hjson : (resps ⟨"Gemini 2.0 Flash", "gemini-2.0-flash", .gemini⟩).json = some d)
    (hmal : geminiText d = none) :
    smartAICall (adapterOf resps) cfg st =
      (.ok "", "Gemini 2.0 Flash", ["Gemini 2.0 Flash"]) ∧
    (∀ resp : HttpResp, resp.ok = false →
      callGemini resp =
        .error ((errBodyMessage (resp.json.getD (.obj []))).getD
          ("HTTP " ++ toString resp.status)) ∧
      callGroq resp =
        .error ((errBodyMessage (resp.json.getD (.obj []))).getD
          ("HTTP " ++ toString resp.status))) := by
  constructor
  · have hemp : cfg.geminiKey.isEmpty = false :=
      Bool.eq_false_iff.2 fun hh => hkey ((String.isEmpty_iff _).1 hh)
    have hcred : hasCred cfg ⟨"Gemini 2.0 Flash", "gemini-2.0-flash", .gemini⟩ = true := by
      simp [hasCred, hemp]
    have hada : adapterOf resps ⟨"Gemini 2.0 Flash", "gemini-2.0-flash", .gemini⟩ = .ok "" := by
      simp [adapterOf, callGemini, hok, hjson, hmal]
    simp only [smartAICall, AI_PROVIDERS, smartAIGo, hcred, if_true, hada]
  · intro resp hf
    constructor
    · simp [callGemini, hf]
    · simp [callGroq, hf]

/-- Witness for the amended C4 at a concrete empty-object 2xx body. -/
theorem adapter_malformed_envelope_amended_witness :
    smartAICall (adapterOf fun _ => ⟨true, 200, some (.obj [])⟩) ⟨"gk", "qk"⟩ "prev" =
      (.ok "", "Gemini 2.0 Flash", ["Gemini 2.0 Flash"]) ∧
    (∀ resp : HttpResp, resp.ok = false →
      callGemini resp =
        .error ((errBodyMessage (resp.json.getD (.obj []))).getD
          ("HTTP " ++ toString resp.status)) ∧
      callGroq resp =
        .error ((errBodyMessage (resp.json.getD (.obj []))).getD
          ("HTTP " ++ toString resp.status))) :=
  adapter_malformed_envelope_amended (fun _ => ⟨true, 200, some (.obj [])⟩)
    ⟨"gk", "qk"⟩ "prev" (.obj []) (by simp) rfl rfl rfl

/-- Witness for C10: a failed call over a concrete failing oracle keeps the
previous value. -/
theorem lastProvider_unchanged_on_failure_witness :
    getLastProvider ((smartAICall (fun _ => .error "x") ⟨"g", "q"⟩ "prev").2.1) =
      getLastProvider "prev" ∧ lastProviderUsedInit = "" :=
  lastProvider_unchanged_on_failure (fun _ => .error "x") ⟨"g", "q"⟩ "prev"
    ("All AI providers failed:\n" ++
      "Gemini 2.0 Flash: x\nGemini 2.0 Flash-Lite: x\nGroq Llama 3.3: x\nGroq Mixtral: x")
    ((smartAICall (fun _ => .error "x") ⟨"g", "q"⟩ "prev").2.1)
    ((smartAICall (fun _ => .error "x") ⟨"g", "q"⟩ "prev").2.2) rfl


theorem dropWhile_all_append {p : Char → Bool} :
    ∀ (tw rest : List Char), (∀ x ∈ tw, p x = true) →
      (∀ c, rest.head? = some c → p c = false) →
      (tw ++ rest).dropWhile p = rest := by
  intro tw
  induction tw with
  | nil =>
    intro rest _ hhd
    match rest with
    | [] => rfl
    | c :: t =>
      simp only [List.nil_append]
      exact List.dropWhile_cons_of_neg (by simp [hhd c rfl])
  | cons x tw2 ih =>
    intro rest hall hhd
    have hx : p x = true := hall x (List.mem_cons_self x tw2)
    simp only [List.cons_append]
    rw [List.dropWhile_cons_of_pos hx]
    exact ih rest (fun y hy => hall y (List.mem_cons_of_mem x hy)) hhd

theorem takeWhile_all_append {p : Char → Bool} :
    ∀ (tw rest : List Char), (∀ x ∈ tw, p x = true) →
      (∀ c, rest.head? = some c → p c = false) →
      (tw ++ rest).takeWhile p = tw := by
  intro tw
  induction tw with
  | nil =>
    intro rest _ hhd
    match rest with
    | [] => rfl
    | c :: t =>
      simp only [List.nil_append]
      exact List.takeWhile_cons_of_neg (by simp [hhd c rfl])
  | cons x tw2 ih =>
    intro rest hall hhd
    have hx : p x = true := hall x (List.mem_cons_self x tw2)
    simp only [List.cons_append]
    rw [List.takeWhile_cons_of_pos hx]
    rw [ih rest (fun y hy => hall y (List.mem_cons_of_mem x hy)) hhd]

/-- If `dropWhile p` on `bp ++ r` leaves exactly `b1 ++ r` with `b1`
nonempty, the whitespace run lies inside `bp` and the computation replays
on any other continuation. -/
theorem dropWhile_exact {p : Char → Bool} {bp b1 r : List Char}
    (horig : (bp ++ r).dropWhile p = b1 ++ r) (hb1 : b1 ≠ []) :
    ∃ tw, bp = tw ++ b1 ∧ (∀ r2, (bp ++ r2).dropWhile p = b1 ++ r2) := by
  refine ⟨(bp ++ r).takeWhile p, ?_, ?_⟩
  case _ =>
    have h1 : (bp ++ r).takeWhile p ++ (b1 ++ r) = bp ++ r := by
      rw [← horig, List.takeWhile_append_dropWhile]
    have h2 : ((bp ++ r).takeWhile p ++ b1) ++ r = bp ++ r := by
      rw [List.append_assoc]; exact h1
    exact (List.append_cancel_right h2).symm
  case _ =>
    intro r2
    have hall : ∀ x ∈ (bp ++ r).takeWhile p, p x = true := fun x hx =>
      List.mem_takeWhile_imp hx
    have hhd : ∀ c, (b1 ++ r2).head? = some c → p c = false := by
      rcases b1 with _ | ⟨c2, t2⟩
      · exact absurd rfl hb1
      · intro c hc
        have := List.head?_dropWhile_not p (bp ++ r)
        rw [horig] at this
        simp only [List.cons_append, List.head?_cons, Option.some.injEq] at this hc
        rw [← hc]
        exact this
    have hbp : bp = (bp ++ r).takeWhile p ++ b1 := by
      have h1 : (bp ++ r).takeWhile p ++ (b1 ++ r) = bp ++ r := by
        rw [← horig, List.takeWhile_append_dropWhile]
      have h2 : ((bp ++ r).takeWhile p ++ b1) ++ r = bp ++ r := by
        rw [List.append_assoc]; exact h1
      exact (List.append_cancel_right h2).symm
    conv_lhs => rw [hbp]
    rw [List.append_assoc]
    exact dropWhile_all_append _ _ hall hhd

/-- A maximal `takeWhile p` token replays against any continuation whose
head does not satisfy `p`. -/
theorem takeWhile_exact {p : Char → Bool} {bp r : List Char}
    (h : (bp ++ r).takeWhile p = bp) :
    ∀ r2, (∀ c, r2.head? = some c → p c = false) →
      (bp ++ r2).takeWhile p = bp ∧ (bp ++ r2).dropWhile p = r2 := by
  intro r2 hhd
  have hall : ∀ x ∈ bp, p x = true := by
    intro x hx
    exact List.mem_takeWhile_imp (h ▸ hx)
  exact ⟨takeWhile_all_append bp r2 hall hhd, dropWhile_all_append bp r2 hall hhd⟩

theorem decodeHex16_replay {b1 r : List Char} {n : Nat}
    (h : decodeHex16 (b1 ++ r) = some (n, r)) :
    ∀ r2, decodeHex16 (b1 ++ r2) = some (n, r2) := by
  intro r2
  obtain ⟨a, b, c, d, heq⟩ := decodeHex16_suffix _ _ _ h
  have hb1 : b1 = [a, b, c, d] := by
    have h3 : b1 ++ r = [a, b, c, d] ++ r := by rw [heq]; rfl
    exact List.append_cancel_right h3
  subst hb1
  have h2 : (hex4 a b c d).map (fun m => (m, r)) = some (n, r) := h
  have hx : hex4 a b c d = some n := by
    cases hx2 : hex4 a b c d with
    | none => rw [hx2] at h2; exact Option.noConfusion h2
    | some v =>
      rw [hx2] at h2
      simp only [Option.map_some', Option.some.injEq, Prod.mk.injEq] at h2
      rw [h2.1]
  show (hex4 a b c d).map (fun m => (m, r2)) = some (n, r2)
  rw [hx]
  rfl

theorem parseEscape_replay {b1 r : List Char} {ch : Char}
    (h : parseEscape (b1 ++ r) = some (ch, r)) :
    ∀ r2, parseEscape (b1 ++ r2) = some (ch, r2) := by
  intro r2
  match b1 with
  | [] =>
    exfalso
    obtain ⟨b2, hb2, heq⟩ := parseEscape_suffix _ _ _ h
    have hlen := congrArg List.length heq
    simp only [List.nil_append, List.length_append] at hlen
    exact hb2 (List.length_eq_zero.1 (by omega))
  | e :: b1t =>
    rw [List.cons_append] at h ⊢
    rw [parseEscape] at h ⊢
    split at h
    · rename_i c hse
      simp only [Option.some.injEq, Prod.mk.injEq] at h
      obtain ⟨hc, hr⟩ := h
      have hlen := congrArg List.length hr
      simp only [List.length_append] at hlen
      have hnil : b1t = [] := List.length_eq_zero.1 (by omega)
      subst hnil
      simp only [List.nil_append, hc]
    · rename_i hse
      split_ifs at h with hu
      · subst hu
        rw [if_pos rfl]
        split at h
        · exact Option.noConfusion h
        · rename_i n t3 hdec
          split_ifs at h with g1 g2
          · -- BMP escape
            simp only [Option.some.injEq, Prod.mk.injEq] at h
            obtain ⟨hch, ht3⟩ := h
            rw [ht3] at hdec
            obtain ⟨a, b, c, d, heqA⟩ := decodeHex16_suffix _ _ _ hdec
            have hb1t : b1t = [a, b, c, d] := by
              have h3 : b1t ++ r = [a, b, c, d] ++ r := by rw [heqA]; rfl
              exact List.append_cancel_right h3
            subst hb1t
            have hrep := decodeHex16_replay hdec r2
            split
            · rename_i hdec2
              rw [hrep] at hdec2
              exact Option.noConfusion hdec2
            · rename_i n2 t32 hdec2
              rw [hrep] at hdec2
              simp only [Option.some.injEq, Prod.mk.injEq] at hdec2
              obtain ⟨hn2, ht32⟩ := hdec2
              subst hn2
              subst ht32
              rw [if_pos g1, hch]
          · -- surrogate pair
            split at h
            · rename_i bs us rest2
              split_ifs at h with g3
              · split at h
                · exact Option.noConfusion h
                · rename_i m t4 hdec2
                  split_ifs at h with g4
                  · simp only [Option.some.injEq, Prod.mk.injEq] at h
                    obtain ⟨hch, ht4⟩ := h
                    rw [ht4] at hdec2
                    obtain ⟨a2, b2, c2, d2, heqB⟩ := decodeHex16_suffix _ _ _ hdec2
                    rw [heqB] at hdec hdec2
                    obtain ⟨a, b, c, d, heqA⟩ := decodeHex16_suffix _ _ _ hdec
                    have hb1t : b1t = [a, b, c, d, bs, us, a2, b2, c2, d2] := by
                      have h3 : b1t ++ r =
                          [a, b, c, d, bs, us, a2, b2, c2, d2] ++ r := by
                        rw [heqA]
                        rfl
                      exact List.append_cancel_right h3
                    subst hb1t
                    have hdecA : decodeHex16
                        ([a, b, c, d] ++ (bs :: us :: a2 :: b2 :: c2 :: d2 :: r)) =
                        some (n, bs :: us :: a2 :: b2 :: c2 :: d2 :: r) := hdec
                    have hrepA := decodeHex16_replay hdecA
                      (bs :: us :: a2 :: b2 :: c2 :: d2 :: r2)
                    have hdecB : decodeHex16 ([a2, b2, c2, d2] ++ r) =
                        some (m, r) := hdec2
                    have hrepB := decodeHex16_replay hdecB r2
                    simp only [List.cons_append, List.nil_append] at hrepA hrepB
                    split
                    · rename_i heq5
                      simp only [List.cons_append, List.nil_append] at heq5
                      rw [hrepA] at heq5
                      exact Option.noConfusion heq5
                    · rename_i n2 t32 heq5
                      simp only [List.cons_append, List.nil_append] at heq5
                      rw [hrepA] at heq5
                      simp only [Option.some.injEq, Prod.mk.injEq] at heq5
                      obtain ⟨hn2, ht32⟩ := heq5
                      subst hn2
                      subst ht32
                      rw [if_neg g1, if_pos g2]
                      split
                      · rename_i bs3 us3 rest23 heq6
                        simp only [List.cons.injEq] at heq6
                        obtain ⟨h6a, h6b, h6c⟩ := heq6
                        subst h6a
                        subst h6b
                        subst h6c
                        rw [if_pos g3]
                        split
                        · rename_i heq7
                          rw [hrepB] at heq7
                          exact Option.noConfusion heq7
                        · rename_i m2 t42 heq7
                          rw [hrepB] at heq7
                          simp only [Option.some.injEq, Prod.mk.injEq] at heq7
                          obtain ⟨hm2, ht42⟩ := heq7
                          subst hm2
                          subst ht42
                          rw [if_pos g4, hch]
                      · rename_i hne
                        exact (hne bs us (a2 :: b2 :: c2 :: d2 :: r2) rfl).elim
            · exact Option.noConfusion h

theorem parseStringBody_replay :
    ∀ (fuel : Nat) (acc bs r : List Char) (s : String),
      parseStringBody fuel acc (bs ++ r) = some (s, r) →
      ∀ (r2 : List Char) (g : Nat), bs.length < g →
        parseStringBody g acc (bs ++ r2) = some (s, r2) := by
  intro fuel
  induction fuel with
  | zero => intro acc bs r s h; simp [parseStringBody] at h
  | succ f ih =>
    intro acc bs r s h r2 g hg
    have hbs : bs ≠ [] := by
      obtain ⟨b, hb, heq⟩ := parseStringBody_suffix _ _ _ _ _ h
      have hbb : bs = b := List.append_cancel_right heq
      rw [hbb]
      exact hb
    match bs, hbs with
    | c :: bs2, _ =>
      rw [List.cons_append] at h
      rw [parseStringBody] at h
      cases g with
      | zero => exact absurd hg (by simp)
      | succ g2 =>
        rw [List.cons_append, parseStringBody]
        split_ifs at h with h1 h2 h3
        · -- closing quote
          simp only [Option.some.injEq, Prod.mk.injEq] at h
          obtain ⟨hs, hr⟩ := h
          have hlen := congrArg List.length hr
          simp only [List.length_append] at hlen
          have hbs2 : bs2 = [] := List.length_eq_zero.1 (by omega)
          subst hbs2
          rw [if_pos h1]
          simp only [List.nil_append, Option.some.injEq, Prod.mk.injEq]
          exact ⟨hs, trivial⟩
        · -- escape
          rw [if_neg h1, if_pos h2]
          split at h
          · rename_i ch t2 hesc
            obtain ⟨b2t, hb2t, heq2⟩ := parseStringBody_suffix _ _ _ _ _ h
            obtain ⟨b1, hb1, heq1⟩ := parseEscape_suffix _ _ _ hesc
            rw [heq2] at heq1 hesc h
            have hbs2 : bs2 = b1 ++ b2t := by
              have h3 : bs2 ++ r = (b1 ++ b2t) ++ r := by
                rw [heq1, List.append_assoc]
              exact List.append_cancel_right h3
            subst hbs2
            rw [List.append_assoc] at hesc
            have hrep := parseEscape_replay hesc (b2t ++ r2)
            have hih := ih (acc ++ [ch]) b2t r s h r2 g2 (by
              simp only [List.length_cons, List.length_append] at hg
              omega)
            rw [List.append_assoc]
            split
            · rename_i ch2 t22 heq4
              rw [hrep] at heq4
              simp only [Option.some.injEq, Prod.mk.injEq] at heq4
              obtain ⟨hch2, ht22⟩ := heq4
              subst hch2
              subst ht22
              exact hih
            · rename_i heq4
              rw [hrep] at heq4
              exact Option.noConfusion heq4
          · exact Option.noConfusion h
        · -- ordinary character
          rw [if_neg h1, if_neg h2, if_neg h3]
          exact ih (acc ++ [c]) bs2 r s h r2 g2 (by
            simp only [List.length_cons] at hg
            omega)


theorem ws_not_numChar {x : Char} (h : isJsonWs x = true) : numChar x = false := by
  simp only [isJsonWs, Bool.or_eq_true, decide_eq_true_eq] at h
  rcases h with ((h | h) | h) | h <;> subst h <;> decide

theorem contOK_ws_head {tw : List Char} (htw : ∀ x ∈ tw, isJsonWs x = true)
    {d : Char} (hd : numChar d = false) (X : List Char) (v : JValue) :
    contOK v (tw ++ d :: X) := by
  cases v with
  | num lex =>
    intro ch hch
    cases tw with
    | nil =>
      simp only [List.nil_append, List.head?_cons, Option.some.injEq] at hch
      rw [← hch]
      exact hd
    | cons t ts =>
      simp only [List.cons_append, List.head?_cons, Option.some.injEq] at hch
      rw [← hch]
      exact ws_not_numChar (htw t (by simp))
  | null => trivial
  | bool b => trivial
  | str s => trivial
  | arr l => trivial
  | obj m => trivial

theorem dropWhile_ws_replay {r1 : List Char} {d : Char} {r2 : List Char}
    (h : r1.dropWhile isJsonWs = d :: r2) :
    ∃ tw, r1 = tw ++ d :: r2 ∧ (∀ x ∈ tw, isJsonWs x = true) ∧
      ∀ R, (tw ++ d :: R).dropWhile isJsonWs = d :: R := by
  refine ⟨r1.takeWhile isJsonWs, ?_, ?_, ?_⟩
  · conv_lhs => rw [← List.takeWhile_append_dropWhile isJsonWs r1]
    rw [h]
  · exact fun x hx => List.mem_takeWhile_imp hx
  · have hd : isJsonWs d = false := by
      have h2 := List.head?_dropWhile_not isJsonWs r1
      rw [h] at h2
      exact h2
    intro R
    exact dropWhile_all_append _ _ (fun x hx => List.mem_takeWhile_imp hx)
      (fun c2 hc2 => by
        simp only [List.head?_cons, Option.some.injEq] at hc2
        rw [← hc2]
        exact hd)

theorem dropWhile_ws_replay_seg {rX bZ rY : List Char}
    (h : rX.dropWhile isJsonWs = bZ ++ rY) (hbZ : bZ ≠ []) :
    ∃ tw, rX = tw ++ (bZ ++ rY) ∧ (∀ x ∈ tw, isJsonWs x = true) ∧
      ∀ R, (tw ++ (bZ ++ R)).dropWhile isJsonWs = bZ ++ R := by
  match bZ, hbZ with
  | z :: bZt, _ =>
    have hd : isJsonWs z = false := by
      have h2 := List.head?_dropWhile_not isJsonWs rX
      rw [h] at h2
      exact h2
    refine ⟨rX.takeWhile isJsonWs, ?_, ?_, ?_⟩
    · conv_lhs => rw [← List.takeWhile_append_dropWhile isJsonWs rX]
      rw [h]
    · exact fun x hx => List.mem_takeWhile_imp hx
    · intro R
      exact dropWhile_all_append _ _ (fun x hx => List.mem_takeWhile_imp hx)
        (fun c2 hc2 => by
          simp only [List.cons_append, List.head?_cons, Option.some.injEq] at hc2
          rw [← hc2]
          exact hd)

theorem parse_replay :
    ∀ fuel : Nat,
      (∀ b r v, parseValue fuel (b ++ r) = some (v, r) →
        ∀ r2, contOK v r2 → ∀ g, b.length < g → parseValue g (b ++ r2) = some (v, r2)) ∧
      (∀ b r vs, parseElems fuel (b ++ r) = some (vs, r) →
        ∀ r2 g, b.length < g → parseElems g (b ++ r2) = some (vs, r2)) ∧
      (∀ acc b r ms, parseMembers fuel acc (b ++ r) = some (ms, r) →
        ∀ r2 g, b.length < g → parseMembers g acc (b ++ r2) = some (ms, r2)) := by
  intro fuel
  induction fuel with
  | zero =>
    refine ⟨?_, ?_, ?_⟩
    · intro b r v h
      simp [parseValue] at h
    · intro b r vs h
      simp [parseElems] at h
    · intro acc b r ms h
      simp [parseMembers] at h
  | succ f ih =>
    obtain ⟨pvR, peR, pmR⟩ := ih
    refine ⟨?_, ?_, ?_⟩
    · -- parseValue replay
      intro b r v h r2 hcont g hg
      obtain ⟨b0, hb0ne, hb0eq, _⟩ := (parse_shape (f + 1)).1 _ _ _ h
      have hbb0 : b = b0 := List.append_cancel_right hb0eq
      subst hbb0
      match b, hb0ne with
      | c :: bt, _ =>
        cases g with
        | zero => omega
        | succ g2 =>
          rw [List.cons_append] at h ⊢
          rw [parseValue] at h ⊢
          split_ifs at h with h1 h2 h3 h4 h5 h6 h7 h8 h9 h10
          · -- empty or nonempty object
            split at h
            · rename_i r2c heqd
              simp only [Option.some.injEq, Prod.mk.injEq] at h
              obtain ⟨hv, hr2c⟩ := h
              rw [hr2c] at heqd
              obtain ⟨tw, e1, htw, hdwA⟩ := dropWhile_ws_replay heqd
              have hbt : bt = tw ++ ['}'] := by
                have h3b : bt ++ r = (tw ++ ['}']) ++ r := by
                  rw [e1]
                  simp
                exact List.append_cancel_right h3b
              rw [if_pos h1]
              have hsc : bt ++ r2 = tw ++ '}' :: r2 := by
                rw [hbt]
                simp
              rw [hsc, hdwA r2, ← hv]
              rfl
            · rename_i hne0
              rcases hm : parseMembers f [] ((bt ++ r).dropWhile isJsonWs) with _ | ⟨ms0, rr⟩
              · rw [hm] at h
                exact Option.noConfusion h
              · rw [hm] at h
                simp only [Option.map_some', Option.some.injEq, Prod.mk.injEq] at h
                obtain ⟨hv, hp2⟩ := h
                subst rr
                obtain ⟨bm, hbmne, hseg, -⟩ := (parse_shape f).2.2 [] _ _ _ hm
                obtain ⟨tw, e1, htw, hdwS⟩ := dropWhile_ws_replay_seg hseg hbmne
                have hbt : bt = tw ++ bm := by
                  have h3b : bt ++ r = (tw ++ bm) ++ r := by
                    rw [e1]
                    simp
                  exact List.append_cancel_right h3b
                have hm2 : parseMembers f [] (bm ++ r) = some (ms0, r) := by
                  rw [← hseg]
                  exact hm
                have hrepm := pmR [] bm r ms0 hm2 r2 g2 (by
                  rw [hbt] at hg
                  simp only [List.length_cons, List.length_append] at hg
                  omega)
                rw [if_pos h1]
                have hsc : bt ++ r2 = tw ++ (bm ++ r2) := by
                  rw [hbt]
                  simp
                rw [hsc, hdwS r2]
                split
                · rename_i r2c heq9
                  match bm, hbmne with
                  | z :: bmt, _ =>
                    rw [List.cons_append] at heq9
                    simp only [List.cons.injEq] at heq9
                    obtain ⟨hz, -⟩ := heq9
                    subst hz
                    exact (hne0 (bmt ++ r) (by rw [hseg]; rfl)).elim
                · rw [hrepm]
                  simp only [Option.map_some']
                  rw [← hv]
          · -- empty or nonempty array
            split at h
            · rename_i r2c heqd
              simp only [Option.some.injEq, Prod.mk.injEq] at h
              obtain ⟨hv, hr2c⟩ := h
              rw [hr2c] at heqd
              obtain ⟨tw, e1, htw, hdwA⟩ := dropWhile_ws_replay heqd
              have hbt : bt = tw ++ [']'] := by
                have h3b : bt ++ r = (tw ++ [']']) ++ r := by
                  rw [e1]
                  simp
                exact List.append_cancel_right h3b
              rw [if_neg h1, if_pos h2]
              have hsc : bt ++ r2 = tw ++ ']' :: r2 := by
                rw [hbt]
                simp
              rw [hsc, hdwA r2, ← hv]
              rfl
            · rename_i hne0
              rcases hm : parseElems f ((bt ++ r).dropWhile isJsonWs) with _ | ⟨ms0, rr⟩
              · rw [hm] at h
                exact Option.noConfusion h
              · rw [hm] at h
                simp only [Option.map_some', Option.some.injEq, Prod.mk.injEq] at h
                obtain ⟨hv, hp2⟩ := h
                subst rr
                obtain ⟨bm, hbmne, hseg, -⟩ := (parse_shape f).2.1 _ _ _ hm
                obtain ⟨tw, e1, htw, hdwS⟩ := dropWhile_ws_replay_seg hseg hbmne
                have hbt : bt = tw ++ bm := by
                  have h3b : bt ++ r = (tw ++ bm) ++ r := by
                    rw [e1]
                    simp
                  exact List.append_cancel_right h3b
                have hm2 : parseElems f (bm ++ r) = some (ms0, r) := by
                  rw [← hseg]
                  exact hm
                have hrepm := peR bm r ms0 hm2 r2 g2 (by
                  rw [hbt] at hg
                  simp only [List.length_cons, List.length_append] at hg
                  omega)
                rw [if_neg h1, if_pos h2]
                have hsc : bt ++ r2 = tw ++ (bm ++ r2) := by
                  rw [hbt]
                  simp
                rw [hsc, hdwS r2]
                split
                · rename_i r2c heq9
                  match bm, hbmne with
                  | z :: bmt, _ =>
                    rw [List.cons_append] at heq9
                    simp only [List.cons.injEq] at heq9
                    obtain ⟨hz, -⟩ := heq9
                    subst hz
                    exact (hne0 (bmt ++ r) (by rw [hseg]; rfl)).elim
                · rw [hrepm]
                  simp only [Option.map_some']
                  rw [← hv]
          · -- string
            rcases hs : parseStringBody f [] (bt ++ r) with _ | ⟨sv, rr⟩
            · rw [hs] at h
              exact Option.noConfusion h
            · rw [hs] at h
              simp only [Option.map_some', Option.some.injEq, Prod.mk.injEq] at h
              obtain ⟨hv, hp2⟩ := h
              subst rr
              obtain ⟨bk, hbkne, heqk⟩ := parseStringBody_suffix f [] (bt ++ r) sv r hs
              have hbt : bt = bk := List.append_cancel_right heqk
              subst hbt
              have hrep := parseStringBody_replay f [] bt r sv hs r2 g2 (by
                simp only [List.length_cons] at hg
                omega)
              rw [if_neg h1, if_neg h2, if_pos h3, hrep]
              simp only [Option.map_some']
              rw [← hv]
          · -- true literal
            simp only [Option.some.injEq, Prod.mk.injEq] at h
            obtain ⟨hv, hdr⟩ := h
            have hbt : bt = ['r', 'u', 'e'] := by
              have h3b : bt ++ r = ['r', 'u', 'e'] ++ r := by
                conv_lhs => rw [← List.take_append_drop 3 (bt ++ r)]
                rw [h5, hdr]
              exact List.append_cancel_right h3b
            subst hbt
            rw [if_neg h1, if_neg h2, if_neg h3, if_pos h4,
              if_pos (show (['r', 'u', 'e'] ++ r2).take 3 = ['r', 'u', 'e'] from rfl), ← hv]
            rfl
          · -- false literal
            simp only [Option.some.injEq, Prod.mk.injEq] at h
            obtain ⟨hv, hdr⟩ := h
            have hbt : bt = ['a', 'l', 's', 'e'] := by
              have h3b : bt ++ r = ['a', 'l', 's', 'e'] ++ r := by
                conv_lhs => rw [← List.take_append_drop 4 (bt ++ r)]
                rw [h7, hdr]
              exact List.append_cancel_right h3b
            subst hbt
            rw [if_neg h1, if_neg h2, if_neg h3, if_neg h4, if_pos h6,
              if_pos (show (['a', 'l', 's', 'e'] ++ r2).take 4 = ['a', 'l', 's', 'e'] from rfl),
              ← hv]
            rfl
          · -- null literal
            simp only [Option.some.injEq, Prod.mk.injEq] at h
            obtain ⟨hv, hdr⟩ := h
            have hbt : bt = ['u', 'l', 'l'] := by
              have h3b : bt ++ r = ['u', 'l', 'l'] ++ r := by
                conv_lhs => rw [← List.take_append_drop 3 (bt ++ r)]
                rw [h9, hdr]
              exact List.append_cancel_right h3b
            subst hbt
            rw [if_neg h1, if_neg h2, if_neg h3, if_neg h4, if_neg h6, if_pos h8,
              if_pos (show (['u', 'l', 'l'] ++ r2).take 3 = ['u', 'l', 'l'] from rfl), ← hv]
            rfl
          · -- number
            by_cases hvn : validNumber ((c :: (bt ++ r)).takeWhile numChar) = true
            · simp only [hvn, if_true, Option.some.injEq, Prod.mk.injEq] at h
              obtain ⟨hv, hdr⟩ := h
              have htokb : (c :: (bt ++ r)).takeWhile numChar = c :: bt := by
                have h0 := List.takeWhile_append_dropWhile numChar (c :: (bt ++ r))
                rw [hdr] at h0
                have h3b : (c :: (bt ++ r)).takeWhile numChar ++ r = (c :: bt) ++ r := h0
                exact List.append_cancel_right h3b
              have htk : ((c :: bt) ++ r).takeWhile numChar = c :: bt := by
                rw [List.cons_append]
                exact htokb
              have hcont2 : ∀ ch, r2.head? = some ch → numChar ch = false := by
                rw [← hv] at hcont
                exact hcont
              obtain ⟨htk2, hdk2⟩ := takeWhile_exact htk r2 hcont2
              rw [List.cons_append] at htk2 hdk2
              rw [htokb] at hvn hv
              rw [if_neg h1, if_neg h2, if_neg h3, if_neg h4, if_neg h6, if_neg h8, if_pos h10]
              show (if validNumber ((c :: (bt ++ r2)).takeWhile numChar) = true then
                  some (JValue.num ⟨(c :: (bt ++ r2)).takeWhile numChar⟩,
                    (c :: (bt ++ r2)).dropWhile numChar)
                else none) = some (v, r2)
              rw [htk2, hdk2, if_pos hvn, ← hv]
            · simp only [if_neg hvn] at h
              exact Option.noConfusion h
    · -- parseElems replay
      intro b r vs h r2 g hg
      obtain ⟨b0, hb0ne, hb0eq, -⟩ := (parse_shape (f + 1)).2.1 _ _ _ h
      have hbb0 : b = b0 := List.append_cancel_right hb0eq
      subst hbb0
      cases g with
      | zero => omega
      | succ g2 =>
        rw [parseElems] at h ⊢
        split at h
        · exact Option.noConfusion h
        · rename_i v1 r1 heqv
          obtain ⟨bv, hbvne, heqbv, -⟩ := (parse_shape f).1 _ _ _ heqv
          have heqv2 : parseValue f (bv ++ r1) = some (v1, r1) := by
            rw [← heqbv]
            exact heqv
          split at h
          · -- comma: more elements follow
            rename_i r2c heq2
            rcases hpe : parseElems f (r2c.dropWhile isJsonWs) with _ | ⟨q1, rr⟩
            · rw [hpe] at h
              exact Option.noConfusion h
            · rw [hpe] at h
              simp only [Option.map_some', Option.some.injEq, Prod.mk.injEq] at h
              obtain ⟨hvs, hq2⟩ := h
              subst rr
              obtain ⟨b2, hb2ne, hseg2, -⟩ := (parse_shape f).2.1 _ _ _ hpe
              obtain ⟨tw2, e2, htw2, hdw2⟩ := dropWhile_ws_replay_seg hseg2 hb2ne
              obtain ⟨tw1, e1, htw1, hdw1⟩ := dropWhile_ws_replay heq2
              have hpe2 : parseElems f (b2 ++ r) = some (q1, r) := by
                rw [← hseg2]
                exact hpe
              have hb : b = bv ++ (tw1 ++ ',' :: (tw2 ++ b2)) := by
                have h3b : b ++ r = (bv ++ (tw1 ++ ',' :: (tw2 ++ b2))) ++ r := by
                  rw [heqbv, e1, e2]
                  simp
                exact List.append_cancel_right h3b
              have hcontv : contOK v1 (tw1 ++ ',' :: (tw2 ++ (b2 ++ r2))) :=
                contOK_ws_head htw1 (by decide) _ v1
              have hrepv := pvR bv r1 v1 heqv2 (tw1 ++ ',' :: (tw2 ++ (b2 ++ r2))) hcontv g2 (by
                rw [hb] at hg
                simp only [List.length_append, List.length_cons] at hg
                omega)
              have hrepe := peR b2 r q1 hpe2 r2 g2 (by
                rw [hb] at hg
                simp only [List.length_append, List.length_cons] at hg
                omega)
              have hsc : b ++ r2 = bv ++ (tw1 ++ ',' :: (tw2 ++ (b2 ++ r2))) := by
                rw [hb]
                simp
              rw [hsc]
              split
              · rename_i hpv0
                rw [hrepv] at hpv0
                exact Option.noConfusion hpv0
              · rename_i v1x r1x hpv0
                rw [hrepv] at hpv0
                simp only [Option.some.injEq, Prod.mk.injEq] at hpv0
                obtain ⟨hv1x, hr1x⟩ := hpv0
                subst hv1x
                subst hr1x
                rw [hdw1 (tw2 ++ (b2 ++ r2))]
                split
                · rename_i r2x heqA
                  simp only [List.cons.injEq] at heqA
                  obtain ⟨-, hX⟩ := heqA
                  subst hX
                  rw [hdw2 r2, hrepe]
                  simp only [Option.map_some']
                  rw [← hvs]
                · rename_i r2x heqA
                  simp only [List.cons.injEq] at heqA
                  exact absurd heqA.1 (by decide)
                · rename_i hneA hneB
                  exact (hneA (tw2 ++ (b2 ++ r2)) rfl).elim
          · -- closing bracket: final element
            rename_i r2c heq2
            simp only [Option.some.injEq, Prod.mk.injEq] at h
            obtain ⟨hvs, hr2c⟩ := h
            rw [hr2c] at heq2
            obtain ⟨tw1, e1, htw1, hdw1⟩ := dropWhile_ws_replay heq2
            have hb : b = bv ++ (tw1 ++ [']']) := by
              have h3b : b ++ r = (bv ++ (tw1 ++ [']'])) ++ r := by
                rw [heqbv, e1]
                simp
              exact List.append_cancel_right h3b
            have hcontv : contOK v1 (tw1 ++ ']' :: r2) :=
              contOK_ws_head htw1 (by decide) _ v1
            have hrepv := pvR bv r1 v1 heqv2 (tw1 ++ ']' :: r2) hcontv g2 (by
              rw [hb] at hg
              simp only [List.length_append, List.length_cons] at hg
              omega)
            have hsc : b ++ r2 = bv ++ (tw1 ++ ']' :: r2) := by
              rw [hb]
              simp
            rw [hsc]
            split
            · rename_i hpv0
              rw [hrepv] at hpv0
              exact Option.noConfusion hpv0
            · rename_i v1x r1x hpv0
              rw [hrepv] at hpv0
              simp only [Option.some.injEq, Prod.mk.injEq] at hpv0
              obtain ⟨hv1x, hr1x⟩ := hpv0
              subst hv1x
              subst hr1x
              rw [hdw1 r2]
              split
              · rename_i r2x heqA
                simp only [List.cons.injEq] at heqA
                exact absurd heqA.1 (by decide)
              · rename_i r2x heqA
                simp only [List.cons.injEq] at heqA
                obtain ⟨-, hX⟩ := heqA
                subst hX
                rw [← hvs]
              · rename_i hneA hneB
                exact (hneB r2 rfl).elim
          · exact Option.noConfusion h
    · -- parseMembers replay
      intro acc b r ms h r2 g hg
      obtain ⟨b0, hb0ne, hb0eq, -⟩ := (parse_shape (f + 1)).2.2 acc _ _ _ h
      have hbb0 : b = b0 := List.append_cancel_right hb0eq
      subst hbb0
      match b, hb0ne with
      | c :: bt, _ =>
        cases g with
        | zero => omega
        | succ g2 =>
          rw [List.cons_append] at h ⊢
          rw [parseMembers] at h ⊢
          split_ifs at h with hq
          rw [if_pos hq]
          split at h
          · exact Option.noConfusion h
          · rename_i k r1 heqs
            obtain ⟨bk, hbkne, heqk⟩ := parseStringBody_suffix f [] (bt ++ r) k r1 heqs
            have heqs2 : parseStringBody f [] (bk ++ r1) = some (k, r1) := by
              rw [← heqk]
              exact heqs
            split at h
            · rename_i r2c heq2
              obtain ⟨tw1, e1, htw1, hdw1⟩ := dropWhile_ws_replay heq2
              split at h
              · exact Option.noConfusion h
              · rename_i v2 r3 heqv
                obtain ⟨bv, hbvne, heqbv, -⟩ := (parse_shape f).1 _ _ _ heqv
                obtain ⟨tw2, e2, htw2, hdw2⟩ := dropWhile_ws_replay_seg heqbv hbvne
                have heqv2 : parseValue f (bv ++ r3) = some (v2, r3) := by
                  rw [← heqbv]
                  exact heqv
                split at h
                · -- comma: further members
                  rename_i r4 heq4
                  obtain ⟨tw3, e3, htw3, hdw3⟩ := dropWhile_ws_replay heq4
                  obtain ⟨bm, hbmne, hsegm, -⟩ := (parse_shape f).2.2 _ _ _ _ h
                  obtain ⟨tw4, e4, htw4, hdw4⟩ := dropWhile_ws_replay_seg hsegm hbmne
                  have hm2 : parseMembers f (setMember acc k v2) (bm ++ r) = some (ms, r) := by
                    rw [← hsegm]
                    exact h
                  have hbt : bt = bk ++ (tw1 ++ ':' ::
                      (tw2 ++ (bv ++ (tw3 ++ ',' :: (tw4 ++ bm))))) := by
                    have h3b : bt ++ r = (bk ++ (tw1 ++ ':' ::
                        (tw2 ++ (bv ++ (tw3 ++ ',' :: (tw4 ++ bm)))))) ++ r := by
                      rw [heqk, e1, e2, e3, e4]
                      simp
                    exact List.append_cancel_right h3b
                  have hreps := parseStringBody_replay f [] bk r1 k heqs2
                    (tw1 ++ ':' :: (tw2 ++ (bv ++ (tw3 ++ ',' :: (tw4 ++ (bm ++ r2)))))) g2 (by
                      rw [hbt] at hg
                      simp only [List.length_cons, List.length_append] at hg
                      omega)
                  have hcontv : contOK v2 (tw3 ++ ',' :: (tw4 ++ (bm ++ r2))) :=
                    contOK_ws_head htw3 (by decide) _ v2
                  have hrepv := pvR bv r3 v2 heqv2
                    (tw3 ++ ',' :: (tw4 ++ (bm ++ r2))) hcontv g2 (by
                      rw [hbt] at hg
                      simp only [List.length_cons, List.length_append] at hg
                      omega)
                  have hrepm := pmR (setMember acc k v2) bm r ms hm2 r2 g2 (by
                    rw [hbt] at hg
                    simp only [List.length_cons, List.length_append] at hg
                    omega)
                  have hsc : bt ++ r2 = bk ++ (tw1 ++ ':' ::
                      (tw2 ++ (bv ++ (tw3 ++ ',' :: (tw4 ++ (bm ++ r2)))))) := by
                    rw [hbt]
                    simp
                  rw [hsc]
                  split
                  · rename_i hs0
                    rw [hreps] at hs0
                    exact Option.noConfusion hs0
                  · rename_i kx r1x hs0
                    rw [hreps] at hs0
                    simp only [Option.some.injEq, Prod.mk.injEq] at hs0
                    obtain ⟨hkx, hr1x⟩ := hs0
                    subst hkx
                    subst hr1x
                    rw [hdw1 (tw2 ++ (bv ++ (tw3 ++ ',' :: (tw4 ++ (bm ++ r2)))))]
                    split
                    · rename_i r2x heqA
                      simp only [List.cons.injEq] at heqA
                      obtain ⟨-, hX⟩ := heqA
                      subst hX
                      rw [hdw2 (tw3 ++ ',' :: (tw4 ++ (bm ++ r2)))]
                      split
                      · rename_i hpv0
                        rw [hrepv] at hpv0
                        exact Option.noConfusion hpv0
                      · rename_i v2x r3x hpv0
                        rw [hrepv] at hpv0
                        simp only [Option.some.injEq, Prod.mk.injEq] at hpv0
                        obtain ⟨hv2x, hr3x⟩ := hpv0
                        subst hv2x
                        subst hr3x
                        rw [hdw3 (tw4 ++ (bm ++ r2))]
                        split
                        · rename_i r4x heqB
                          simp only [List.cons.injEq] at heqB
                          obtain ⟨-, hY⟩ := heqB
                          subst hY
                          rw [hdw4 r2]
                          exact hrepm
                        · rename_i r4x heqB
                          simp only [List.cons.injEq] at heqB
                          exact absurd heqB.1 (by decide)
                        · rename_i hneA hneB
                          exact (hneA (tw4 ++ (bm ++ r2)) rfl).elim
                    · rename_i hneA
                      exact (hneA (tw2 ++ (bv ++ (tw3 ++ ',' :: (tw4 ++ (bm ++ r2))))) rfl).elim
                · -- closing brace: final member
                  rename_i r4 heq4
                  simp only [Option.some.injEq, Prod.mk.injEq] at h
                  obtain ⟨hms, hr4⟩ := h
                  rw [hr4] at heq4
                  obtain ⟨tw3, e3, htw3, hdw3⟩ := dropWhile_ws_replay heq4
                  have hbt : bt = bk ++ (tw1 ++ ':' ::
                      (tw2 ++ (bv ++ (tw3 ++ ['}'])))) := by
                    have h3b : bt ++ r = (bk ++ (tw1 ++ ':' ::
                        (tw2 ++ (bv ++ (tw3 ++ ['}']))))) ++ r := by
                      rw [heqk, e1, e2, e3]
                      simp
                    exact List.append_cancel_right h3b
                  have hreps := parseStringBody_replay f [] bk r1 k heqs2
                    (tw1 ++ ':' :: (tw2 ++ (bv ++ (tw3 ++ '}' :: r2)))) g2 (by
                      rw [hbt] at hg
                      simp only [List.length_cons, List.length_append] at hg
                      omega)
                  have hcontv : contOK v2 (tw3 ++ '}' :: r2) :=
                    contOK_ws_head htw3 (by decide) _ v2
                  have hrepv := pvR bv r3 v2 heqv2 (tw3 ++ '}' :: r2) hcontv g2 (by
                    rw [hbt] at hg
                    simp only [List.length_cons, List.length_append] at hg
                    omega)
                  have hsc : bt ++ r2 = bk ++ (tw1 ++ ':' ::
                      (tw2 ++ (bv ++ (tw3 ++ '}' :: r2)))) := by
                    rw [hbt]
                    simp
                  rw [hsc]
                  split
                  · rename_i hs0
                    rw [hreps] at hs0
                    exact Option.noConfusion hs0
                  · rename_i kx r1x hs0
                    rw [hreps] at hs0
                    simp only [Option.some.injEq, Prod.mk.injEq] at hs0
                    obtain ⟨hkx, hr1x⟩ := hs0
                    subst hkx
                    subst hr1x
                    rw [hdw1 (tw2 ++ (bv ++ (tw3 ++ '}' :: r2)))]
                    split
                    · rename_i r2x heqA
                      simp only [List.cons.injEq] at heqA
                      obtain ⟨-, hX⟩ := heqA
                      subst hX
                      rw [hdw2 (tw3 ++ '}' :: r2)]
                      split
                      · rename_i hpv0
                        rw [hrepv] at hpv0
                        exact Option.noConfusion hpv0
                      · rename_i v2x r3x hpv0
                        rw [hrepv] at hpv0
                        simp only [Option.some.injEq, Prod.mk.injEq] at hpv0
                        obtain ⟨hv2x, hr3x⟩ := hpv0
                        subst hv2x
                        subst hr3x
                        rw [hdw3 r2]
                        split
                        · rename_i r4x heqB
                          simp only [List.cons.injEq] at heqB
                          exact absurd heqB.1 (by decide)
                        · rename_i r4x heqB
                          simp only [List.cons.injEq] at heqB
                          obtain ⟨-, hY⟩ := heqB
                          subst hY
                          rw [← hms]
                        · rename_i hneA hneB
                          exact (hneB r2 rfl).elim
                    · rename_i hneA
                      exact (hneA (tw2 ++ (bv ++ (tw3 ++ '}' :: r2))) rfl).elim
                · exact Option.noConfusion h
            · exact Option.noConfusion h


theorem contOK_nil (v : JValue) : contOK v [] := by
  cases v with
  | num lex =>
    intro ch hch
    exact absurd hch (by simp)
  | null => trivial
  | bool b => trivial
  | str s => trivial
  | arr l => trivial
  | obj m => trivial

theorem findIdx_aux {p : Char → Bool} :
    ∀ (tw : List Char) (i : Nat), (∀ x ∈ tw, p x = false) →
      ∀ B t, p B = true → List.findIdx? p (tw ++ B :: t) i = some (i + tw.length) := by
  intro tw
  induction tw with
  | nil =>
    intro i _ B t hB
    rw [List.nil_append, List.findIdx?_cons, hB]
    simp
  | cons x xs ih =>
    intro i hall B t hB
    rw [List.cons_append, List.findIdx?_cons, hall x (by simp)]
    simp only [Bool.false_eq_true, if_false]
    rw [ih (i + 1) (fun y hy => hall y (by simp [hy])) B t hB]
    simp only [Option.some.injEq, List.length_cons]
    omega

theorem findIdx_ws_bracket {p : Char → Bool} (tw : List Char)
    (hall : ∀ x ∈ tw, p x = false) (B : Char) (t : List Char) (hB : p B = true) :
    List.findIdx? p (tw ++ B :: t) = some tw.length := by
  have h := findIdx_aux tw 0 hall B t hB
  simpa using h

theorem lastIdxOfChar_bounds :
    ∀ (cs : List Char) (c : Char),
      -1 ≤ lastIdxOfChar cs c ∧ lastIdxOfChar cs c < (cs.length : Int) := by
  intro cs c
  induction cs with
  | nil => simp [lastIdxOfChar]
  | cons x t ih =>
    rw [lastIdxOfChar]
    simp only [List.length_cons]
    by_cases hr : lastIdxOfChar t c ≥ 0
    · rw [if_pos hr]
      exact ⟨by omega, by omega⟩
    · rw [if_neg hr]
      by_cases hx : x = c
      · rw [if_pos hx]
        exact ⟨by omega, by omega⟩
      · rw [if_neg hx]
        exact ⟨by omega, by omega⟩

theorem lastIdxOfChar_not_mem :
    ∀ (cs : List Char) (c : Char), c ∉ cs → lastIdxOfChar cs c = -1 := by
  intro cs c
  induction cs with
  | nil => intro _; rfl
  | cons x t ih =>
    intro hmem
    rw [lastIdxOfChar]
    have ht : c ∉ t := fun hc => hmem (by simp [hc])
    have hx : ¬x = c := fun he => hmem (by simp [he])
    rw [ih ht]
    simp [hx]

theorem lastIdxOfChar_append :
    ∀ (xs ys : List Char) (c : Char),
      lastIdxOfChar (xs ++ ys) c =
        if lastIdxOfChar ys c ≥ 0 then (xs.length : Int) + lastIdxOfChar ys c
        else lastIdxOfChar xs c := by
  intro xs ys c
  induction xs with
  | nil =>
    simp only [List.nil_append, List.length_nil, Nat.cast_zero]
    by_cases hy : lastIdxOfChar ys c ≥ 0
    · rw [if_pos hy]
      omega
    · rw [if_neg hy]
      have hb := lastIdxOfChar_bounds ys c
      show lastIdxOfChar ys c = -1
      omega
  | cons x t ih =>
    rw [List.cons_append, lastIdxOfChar, ih]
    by_cases hy : lastIdxOfChar ys c ≥ 0
    · rw [if_pos hy]
      rw [if_pos (show (t.length : Int) + lastIdxOfChar ys c ≥ 0 from by omega)]
      rw [if_pos hy]
      simp only [List.length_cons]
      push_cast
      ring
    · rw [if_neg hy]
      have hrhs : lastIdxOfChar (x :: t) c =
          if lastIdxOfChar t c ≥ 0 then lastIdxOfChar t c + 1
          else if x = c then 0 else -1 := by
        rw [lastIdxOfChar]
      rw [hrhs, if_neg hy]

theorem getLast?_decomp {l : List Char} {a : Char} (h : l.getLast? = some a) :
    ∃ init, l = init ++ [a] := by
  rcases List.getLast?_eq_some_iff.1 h with ⟨init, hinit⟩
  exact ⟨init, hinit⟩

theorem parseValue_container_head {fuel : Nat} {cs : List Char} {v : JValue}
    {r : List Char} (h : parseValue fuel cs = some (v, r)) (hc : isContainer v = true) :
    ∃ B t, cs = B :: t ∧ (B = '[' ∨ B = '{') := by
  match fuel with
  | 0 => exact absurd h (by simp [parseValue])
  | f + 1 =>
    match cs with
    | [] => exact absurd h (by simp [parseValue])
    | c :: rest =>
      rw [parseValue] at h
      split_ifs at h with h1 h2 h3 h4 h5 h6 h7 h8 h9 h10
      · exact ⟨c, rest, rfl, Or.inr h1⟩
      · exact ⟨c, rest, rfl, Or.inl h2⟩
      · rcases hs : parseStringBody f [] rest with _ | ⟨sv, rr⟩
        · rw [hs] at h
          exact Option.noConfusion h
        · rw [hs] at h
          simp only [Option.map_some', Option.some.injEq, Prod.mk.injEq] at h
          rw [← h.1] at hc
          simp [isContainer] at hc
      · simp only [Option.some.injEq, Prod.mk.injEq] at h
        rw [← h.1] at hc
        simp [isContainer] at hc
      · simp only [Option.some.injEq, Prod.mk.injEq] at h
        rw [← h.1] at hc
        simp [isContainer] at hc
      · simp only [Option.some.injEq, Prod.mk.injEq] at h
        rw [← h.1] at hc
        simp [isContainer] at hc
      · by_cases hvn : validNumber ((c :: rest).takeWhile numChar) = true
        · simp only [hvn, if_true, Option.some.injEq, Prod.mk.injEq] at h
          rw [← h.1] at hc
          simp [isContainer] at hc
        · simp only [if_neg hvn] at h
          exact Option.noConfusion h

theorem ws_not_bracket {x : Char} (h : isJsonWs x = true) :
    (decide (x = '[') || decide (x = '{')) = false := by
  simp only [isJsonWs, Bool.or_eq_true, decide_eq_true_eq] at h
  rcases h with ((h | h) | h) | h <;> subst h <;> decide

theorem max_lastIdx_closer (xs r0 : List Char) (E : Char) (hE : E = ']' ∨ E = '}')
    (hr0 : ∀ x ∈ r0, isJsonWs x = true) :
    max (lastIdxOfChar (xs ++ E :: r0) '}') (lastIdxOfChar (xs ++ E :: r0) ']') =
      (xs.length : Int) := by
  have hnc : ('}' : Char) ∉ r0 := fun hmem => by
    have := hr0 _ hmem
    exact absurd this (by decide)
  have hnb : (']' : Char) ∉ r0 := fun hmem => by
    have := hr0 _ hmem
    exact absurd this (by decide)
  rcases hE with hE | hE
  · subst hE
    have h1 : lastIdxOfChar (']' :: r0) ']' = 0 := by
      rw [lastIdxOfChar, lastIdxOfChar_not_mem r0 _ hnb]
      simp
    have h2 : lastIdxOfChar (']' :: r0) '}' = -1 := by
      apply lastIdxOfChar_not_mem
      simp only [List.mem_cons]
      rintro (h | h)
      · exact absurd h (by decide)
      · exact hnc h
    rw [lastIdxOfChar_append, lastIdxOfChar_append, h1, h2]
    rw [if_neg (show ¬((-1 : Int) ≥ 0) from by omega),
      if_pos (show ((0 : Int) ≥ 0) from by omega)]
    have hb := lastIdxOfChar_bounds xs '}'
    rw [max_eq_right (by omega : lastIdxOfChar xs '}' ≤ (xs.length : Int) + 0)]
    omega
  · subst hE
    have h1 : lastIdxOfChar ('}' :: r0) '}' = 0 := by
      rw [lastIdxOfChar, lastIdxOfChar_not_mem r0 _ hnc]
      simp
    have h2 : lastIdxOfChar ('}' :: r0) ']' = -1 := by
      apply lastIdxOfChar_not_mem
      simp only [List.mem_cons]
      rintro (h | h)
      · exact absurd h (by decide)
      · exact hnb h
    rw [lastIdxOfChar_append, lastIdxOfChar_append, h1, h2]
    rw [if_pos (show ((0 : Int) ≥ 0) from by omega),
      if_neg (show ¬((-1 : Int) ≥ 0) from by omega)]
    have hb := lastIdxOfChar_bounds xs ']'
    rw [max_eq_left (by omega : lastIdxOfChar xs ']' ≤ (xs.length : Int) + 0)]
    omega

/-- C7 (amended): when the fence interior strict-parses to an array or an
object, `extractJSON` returns exactly that value. -/
theorem extractJSON_fence_amended (text : String) (interior : List Char) (v : JValue)
    (hf : fenceMatchL text.toList = some interior)
    (hp : jsonParseL interior = some v)
    (hc : isContainer v = true) :
    extractJSON text = .ok v := by
  simp only [jsonParseL] at hp
  split at hp
  · rename_i v0 r0 hpv
    split_ifs at hp with hre
    simp only [Option.some.injEq] at hp
    subst v0
    obtain ⟨bb, hbbne, hbbeq, hbl⟩ := (parse_shape _).1 _ _ _ hpv
    rw [hbbeq] at hpv
    obtain ⟨B, t0, hcs, hB⟩ := parseValue_container_head hpv hc
    have hheadui : ∃ bb2, bb = B :: bb2 := by
      match bb, hbbne with
      | z :: bb2, _ =>
        rw [List.cons_append] at hcs
        simp only [List.cons.injEq] at hcs
        exact ⟨bb2, by rw [hcs.1]⟩
    obtain ⟨bb2, hhead⟩ := hheadui
    have hBws : isJsonWs B = false := by
      rcases hB with h | h <;> subst h <;> decide
    have hEex : ∃ E, (E = ']' ∨ E = '}') ∧ bb.getLast? = some E := by
      cases v with
      | arr l => exact ⟨']', Or.inl rfl, hbl⟩
      | obj m => exact ⟨'}', Or.inr rfl, hbl⟩
      | num lex => simp [isContainer] at hc
      | str s => simp [isContainer] at hc
      | bool b2 => simp [isContainer] at hc
      | null => simp [isContainer] at hc
    obtain ⟨E, hEor, hlastE⟩ := hEex
    obtain ⟨binit, hlastd⟩ := getLast?_decomp hlastE
    obtain ⟨tw, hint, htwws⟩ : ∃ tw, interior = tw ++ (bb ++ r0) ∧
        ∀ x ∈ tw, isJsonWs x = true :=
      ⟨interior.takeWhile isJsonWs, by
        conv_lhs => rw [← List.takeWhile_append_dropWhile isJsonWs interior]
        rw [hbbeq], fun x hx => List.mem_takeWhile_imp hx⟩
    have hr0ws : ∀ x ∈ r0, isJsonWs x = true := by
      have h0 : r0.dropWhile isJsonWs = [] := by
        rwa [List.isEmpty_iff] at hre
      exact fun x hx => List.dropWhile_eq_nil_iff.1 h0 x hx
    have hjp : jsonParseL bb = some v := by
      simp only [jsonParseL]
      have hdwbb : bb.dropWhile isJsonWs = bb := by
        rw [hhead, List.dropWhile_cons, if_neg (by simp [hBws])]
      rw [hdwbb]
      have hrep := (parse_replay ((bb ++ r0).length + 1)).1 bb r0 v hpv [] (contOK_nil v)
        (bb.length + 1) (by omega)
      rw [List.append_nil] at hrep
      rw [hrep]
      rfl
    have hfind : (tw ++ (bb ++ r0)).findIdx? (fun c => c = '[' || c = '{') =
        some tw.length := by
      have he : tw ++ (bb ++ r0) = tw ++ B :: (bb2 ++ r0) := by
        rw [hhead]
        rfl
      rw [he]
      exact findIdx_ws_bracket tw (fun x hx => ws_not_bracket (htwws x hx)) B _
        (by rcases hB with h | h <;> subst h <;> rfl)
    have hmax : max (lastIdxOfChar (tw ++ (bb ++ r0)) '}')
        (lastIdxOfChar (tw ++ (bb ++ r0)) ']') = (((tw ++ binit).length : Nat) : Int) := by
      have he : tw ++ (bb ++ r0) = (tw ++ binit) ++ E :: r0 := by
        rw [hlastd]
        simp
      rw [he]
      exact max_lastIdx_closer (tw ++ binit) r0 E hEor hr0ws
    simp only [extractJSON, extractCore, hf]
    rw [hint]
    simp only [hfind]
    rw [hmax]
    rw [if_neg (by omega : ¬((((tw ++ binit).length : Nat) : Int) = -1))]
    rw [List.drop_left]
    have hcnt : ((((tw ++ binit).length : Nat) : Int)).toNat + 1 - tw.length = bb.length := by
      simp only [Int.toNat_natCast, List.length_append, hlastd, List.length_cons,
        List.length_nil]
      omega
    rw [hcnt, List.take_left]
    simp only [hjp]
  · exact Option.noConfusion hp

/-- C7: counterexample to the unrestricted claim.  The raw text is a fence
whose interior `42` is valid JSON, yet `extractJSON` raises
"No JSON found in response" instead of returning the interior's parse. -/
theorem extractJSON_fence_counterexample :
    fenceMatchL (⟨[backtick, backtick, backtick, '4', '2',
        backtick, backtick, backtick]⟩ : String).toList = some ['4', '2'] ∧
    jsonParseL ['4', '2'] = some (.num "42") ∧
    extractJSON ⟨[backtick, backtick, backtick, '4', '2',
        backtick, backtick, backtick]⟩ = .error "No JSON found in response" :=
  ⟨rfl, rfl, rfl⟩

theorem extractJSON_fence_amended_witness :
    extractJSON (⟨['h', 'i', ' '] ++ [backtick, backtick, backtick] ++
      ['j', 's', 'o', 'n', '\n', ' ', '{', '"', 'a', '"', ':', '1', '}', '\n'] ++
      [backtick, backtick, backtick] ++ [' ', 'b', 'y', 'e']⟩ : String) =
      .ok (.obj [("a", .num "1")]) :=
  extractJSON_fence_amended _ ['{', '"', 'a', '"', ':', '1', '}', '\n']
    (.obj [("a", .num "1")]) rfl rfl rfl


theorem setMember_fresh {acc : List (String × JValue)} {k : String} {v : JValue}
    (h : keyMem k acc = false) : setMember acc k v = acc ++ [(k, v)] := by
  induction acc with
  | nil => rfl
  | cons p t ih =>
    obtain ⟨k2, v2⟩ := p
    rw [keyMem, Bool.or_eq_false_iff] at h
    rw [setMember, if_neg (by simpa using h.1)]
    rw [ih h.2]
    rfl

theorem hexVal_hexDigitChar {n : Nat} (h : n < 16) :
    hexVal (hexDigitChar n) = some n := by
  interval_cases n <;> decide

theorem escapeChar_ne_nil (c : Char) : escapeChar c ≠ [] := by
  rw [escapeChar]
  split_ifs <;> simp

theorem escFlat_len (cs : List Char) :
    cs.length ≤ ((cs.map escapeChar).flatten).length := by
  induction cs with
  | nil => simp
  | cons c t ih =>
    simp only [List.map_cons, List.flatten_cons, List.length_append, List.length_cons]
    have h1 : 1 ≤ (escapeChar c).length := by
      rcases he : escapeChar c with _ | ⟨x, xs⟩
      · exact absurd he (escapeChar_ne_nil c)
      · simp
    omega

theorem fenceMatchL_none_of_no_triple :
    ∀ cs, hasTriple cs = false → fenceMatchL cs = none := by
  intro cs
  induction cs with
  | nil => intro _; rfl
  | cons c t ih =>
    intro h
    rw [hasTriple, Bool.or_eq_false_iff] at h
    rw [fenceMatchL]
    have htf : tryFence (c :: t) = none := by
      rw [tryFence, if_neg ?hcond]
      case hcond =>
        intro hta
        rw [show (3 : Nat) = 2 + 1 from rfl, List.take_succ_cons] at hta
        simp only [List.cons.injEq] at hta
        have : (decide (c = backtick) && decide (t.take 2 = [backtick, backtick])) = true := by
          rw [hta.1]
          simp [hta.2]
        rw [this] at h
        exact Bool.noConfusion h.1
    rw [htf]
    exact ih h.2

theorem digit_numChar {x : Char} (h : x.isDigit = true) : numChar x = true := by
  simp [numChar, h]


theorem chompInt_shape {cs cs2 : List Char} (h : chompInt cs = some cs2) :
    ∃ d pre, cs = (d :: pre) ++ cs2 ∧ d.isDigit = true ∧
      ∀ x ∈ d :: pre, numChar x = true := by
  rw [chompInt.eq_def] at h
  split at h
  · -- '0' :: t
    rename_i t
    simp only [Option.some.injEq] at h
    subst h
    exact ⟨'0', [], rfl, by decide, by
      intro x hx
      simp only [List.mem_singleton] at hx
      subst hx
      decide⟩
  · -- c :: t, digit test
    rename_i c t hne
    split_ifs at h with hd
    simp only [Option.some.injEq] at h
    refine ⟨c, t.takeWhile Char.isDigit, ?_, hd, ?_⟩
    · rw [List.cons_append]
      rw [← h]
      rw [List.takeWhile_append_dropWhile]
    · intro x hx
      simp only [List.mem_cons] at hx
      rcases hx with hx | hx
      · subst hx
        exact digit_numChar hd
      · exact digit_numChar (List.mem_takeWhile_imp hx)
  · exact Option.noConfusion h

theorem afterFrac_shape {cs cs2 : List Char} (h : afterFrac cs = some cs2) :
    ∃ pre, cs = pre ++ cs2 ∧ ∀ x ∈ pre, numChar x = true := by
  rw [afterFrac.eq_def] at h
  split at h
  · -- '.' :: t
    split at h
    · rename_i c2 t2
      split_ifs at h with hd
      simp only [Option.some.injEq] at h
      refine ⟨'.' :: (c2 :: t2).takeWhile Char.isDigit, ?_, ?_⟩
      · rw [List.cons_append]
        rw [← h]
        rw [List.takeWhile_append_dropWhile]
      · intro x hx
        simp only [List.mem_cons] at hx
        rcases hx with hx | hx
        · subst hx
          decide
        · exact digit_numChar (List.mem_takeWhile_imp hx)
    · exact Option.noConfusion h
  · rename_i hne
    simp only [Option.some.injEq] at h
    subst h
    exact ⟨[], rfl, by simp⟩


theorem afterExp_shape {cs cs2 : List Char} (h : afterExp cs = some cs2) :
    ∃ pre, cs = pre ++ cs2 ∧ ∀ x ∈ pre, numChar x = true := by
  rw [afterExp.eq_def] at h
  split at h
  · rename_i c t
    split_ifs at h with he
    · have hc : numChar c = true := by
        simp only [Bool.or_eq_true, decide_eq_true_eq] at he
        rcases he with he | he <;> subst he <;> decide
      split at h
      · rename_i s t3
        by_cases hsign : (decide (s = '+') || decide (s = '-')) = true
        · have hs : numChar s = true := by
            simp only [Bool.or_eq_true, decide_eq_true_eq] at hsign
            rcases hsign with hs | hs <;> subst hs <;> decide
          rw [if_pos hsign] at h
          simp only [] at h
          split at h
          · rename_i d t4
            split_ifs at h with hd
            simp only [Option.some.injEq] at h
            refine ⟨c :: s :: (d :: t4).takeWhile Char.isDigit, ?_, ?_⟩
            · rw [List.cons_append, List.cons_append]
              rw [← h]
              rw [List.takeWhile_append_dropWhile]
            · intro x hx
              simp only [List.mem_cons] at hx
              rcases hx with hx | hx | hx
              · subst hx
                exact hc
              · subst hx
                exact hs
              · exact digit_numChar (List.mem_takeWhile_imp hx)
          · exact Option.noConfusion h
        · rw [if_neg hsign] at h
          have h2 : (if s.isDigit = true then
              some (List.dropWhile Char.isDigit (s :: t3)) else none) = some cs2 := h
          split_ifs at h2 with hd
          simp only [Option.some.injEq] at h2
          refine ⟨c :: (s :: t3).takeWhile Char.isDigit, ?_, ?_⟩
          · rw [List.cons_append]
            rw [← h2]
            rw [List.takeWhile_append_dropWhile]
          · intro x hx
            simp only [List.mem_cons] at hx
            rcases hx with hx | hx
            · subst hx
              exact hc
            · exact digit_numChar (List.mem_takeWhile_imp hx)
      · simp at h
    · simp only [Option.some.injEq] at h
      subst h
      exact ⟨[], rfl, by simp⟩
  · simp only [Option.some.injEq] at h
    subst h
    exact ⟨[], rfl, by simp⟩


theorem validNumber_structure {cs : List Char} (h : validNumber cs = true) :
    (∃ c t, cs = c :: t ∧ (decide (c = '-') || c.isDigit) = true) ∧
    ∀ x ∈ cs, numChar x = true := by
  rcases cs with - | ⟨c, t⟩
  · exact absurd h (by decide)
  · have hkey : ∀ u : List Char,
        (match chompInt u with
         | none => false
         | some cs2 =>
           match afterFrac cs2 with
           | none => false
           | some cs3 =>
             match afterExp cs3 with
             | none => false
             | some cs4 => cs4.isEmpty) = true →
        (∃ d pre, u = d :: pre ∧ d.isDigit = true) ∧
          ∀ x ∈ u, numChar x = true := by
      intro u hu
      split at hu
      · exact Bool.noConfusion hu
      · rename_i cs2 hci
        split at hu
        · exact Bool.noConfusion hu
        · rename_i cs3 haf
          split at hu
          · exact Bool.noConfusion hu
          · rename_i cs4 hae
            have hcs4 : cs4 = [] := by rwa [List.isEmpty_iff] at hu
            obtain ⟨pre3, hsplit3, hall3⟩ := afterExp_shape hae
            obtain ⟨pre2, hsplit2, hall2⟩ := afterFrac_shape haf
            obtain ⟨d0, pre1, hsplit1, hd, hall1⟩ := chompInt_shape hci
            refine ⟨⟨d0, pre1 ++ cs2, ?_, hd⟩, ?_⟩
            · rw [hsplit1]
              rfl
            intro x hx
            rw [hsplit1] at hx
            simp only [List.mem_append, List.mem_cons] at hx
            rcases hx with (hx | hx) | hx
            · subst hx
              exact hall1 _ (List.mem_cons_self _ _)
            · exact hall1 x (by simp [hx])
            · rw [hsplit2, List.mem_append] at hx
              rcases hx with hx | hx
              · exact hall2 x hx
              · rw [hsplit3, hcs4, List.append_nil] at hx
                exact hall3 x hx
    by_cases hc : c = '-'
    · subst hc
      have h2 : (match chompInt t with
                 | none => false
                 | some cs2 =>
                   match afterFrac cs2 with
                   | none => false
                   | some cs3 =>
                     match afterExp cs3 with
                     | none => false
                     | some cs4 => cs4.isEmpty) = true := h
      obtain ⟨-, hall⟩ := hkey t h2
      refine ⟨⟨'-', t, rfl, by decide⟩, ?_⟩
      intro x hx
      simp only [List.mem_cons] at hx
      rcases hx with hx | hx
      · subst hx
        decide
      · exact hall x hx
    · have hm : (match c :: t with | '-' :: t2 => t2 | x => x) = c :: t := by
        split
        · rename_i t2 heqm
          simp only [List.cons.injEq] at heqm
          exact absurd heqm.1 hc
        · rfl
      have h2 : (match chompInt (match c :: t with | '-' :: t2 => t2 | x => x) with
                 | none => false
                 | some cs2 =>
                   match afterFrac cs2 with
                   | none => false
                   | some cs3 =>
                     match afterExp cs3 with
                     | none => false
                     | some cs4 => cs4.isEmpty) = true := h
      rw [hm] at h2
      obtain ⟨⟨d, pre, hdp, hd⟩, hall⟩ := hkey (c :: t) h2
      have hcd : c = d := by
        simp only [List.cons.injEq] at hdp
        exact hdp.1
      refine ⟨⟨c, t, rfl, by rw [hcd]; simp [hd]⟩, ?_⟩
      intro x hx
      exact hall x hx

theorem keyMem_setMember (k k2 : String) (v : JValue) :
    ∀ acc, keyMem k2 (setMember acc k v) = (keyMem k2 acc || (k == k2)) := by
  intro acc
  induction acc with
  | nil => simp [setMember, keyMem]
  | cons p t ih =>
    obtain ⟨k3, v3⟩ := p
    rw [setMember]
    by_cases hk : k3 = k
    · rw [if_pos hk]
      subst hk
      simp only [keyMem]
      generalize (k3 == k2) = b
      generalize keyMem k2 t = a
      revert a b
      decide
    · rw [if_neg hk]
      simp only [keyMem, ih]
      generalize (k3 == k2) = b
      generalize keyMem k2 t = a
      generalize (k == k2) = c2
      revert a b c2
      decide

theorem WfMembers_setMember {acc : List (String × JValue)} {k : String} {v : JValue}
    (hw : WfMembers acc = true) (hv : WfB v = true) :
    WfMembers (setMember acc k v) = true := by
  induction acc with
  | nil =>
    simp only [setMember, WfMembers, keyMem]
    simp [hv]
  | cons p t ih =>
    obtain ⟨k2, v2⟩ := p
    rw [WfMembers, Bool.and_eq_true, Bool.and_eq_true] at hw
    obtain ⟨⟨hv2, hkm⟩, hwt⟩ := hw
    rw [setMember]
    by_cases hk : k2 = k
    · rw [if_pos hk]
      rw [WfMembers, Bool.and_eq_true, Bool.and_eq_true]
      exact ⟨⟨hv, hkm⟩, hwt⟩
    · rw [if_neg hk]
      rw [WfMembers, Bool.and_eq_true, Bool.and_eq_true]
      refine ⟨⟨hv2, ?_⟩, ih hwt⟩
      rw [keyMem_setMember]
      have hne : (k == k2) = false := by
        simp only [beq_eq_false_iff_ne, ne_eq]
        intro he
        exact hk he.symm
      rw [hne]
      simp only [Bool.or_false]
      exact hkm

theorem parse_wf :
    ∀ fuel : Nat,
      (∀ cs v r, parseValue fuel cs = some (v, r) → WfB v = true) ∧
      (∀ cs vs r, parseElems fuel cs = some (vs, r) → WfList vs = true) ∧
      (∀ acc cs ms r, WfMembers acc = true → parseMembers fuel acc cs = some (ms, r) →
        WfMembers ms = true) := by
  intro fuel
  induction fuel with
  | zero =>
    refine ⟨?_, ?_, ?_⟩
    · intro cs v r h
      simp [parseValue] at h
    · intro cs vs r h
      simp [parseElems] at h
    · intro acc cs ms r _ h
      simp [parseMembers] at h
  | succ f ih =>
    obtain ⟨pvIH, peIH, pmIH⟩ := ih
    refine ⟨?_, ?_, ?_⟩
    · intro cs v r h
      match cs with
      | [] => exact absurd h (by simp [parseValue])
      | c :: rest =>
        rw [parseValue] at h
        split_ifs at h with h1 h2 h3 h4 h5 h6 h7 h8 h9 h10
        · split at h
          · simp only [Option.some.injEq, Prod.mk.injEq] at h
            rw [← h.1]
            rfl
          · rcases hm : parseMembers f [] (rest.dropWhile isJsonWs) with _ | ⟨ms0, rr⟩
            · rw [hm] at h
              exact Option.noConfusion h
            · rw [hm] at h
              simp only [Option.map_some', Option.some.injEq, Prod.mk.injEq] at h
              rw [← h.1]
              exact pmIH [] _ _ _ rfl hm
        · split at h
          · simp only [Option.some.injEq, Prod.mk.injEq] at h
            rw [← h.1]
            rfl
          · rcases hm : parseElems f (rest.dropWhile isJsonWs) with _ | ⟨vs0, rr⟩
            · rw [hm] at h
              exact Option.noConfusion h
            · rw [hm] at h
              simp only [Option.map_some', Option.some.injEq, Prod.mk.injEq] at h
              rw [← h.1]
              exact peIH _ _ _ hm
        · rcases hs : parseStringBody f [] rest with _ | ⟨sv, rr⟩
          · rw [hs] at h
            exact Option.noConfusion h
          · rw [hs] at h
            simp only [Option.map_some', Option.some.injEq, Prod.mk.injEq] at h
            rw [← h.1]
            rfl
        · simp only [Option.some.injEq, Prod.mk.injEq] at h
          rw [← h.1]
          rfl
        · simp only [Option.some.injEq, Prod.mk.injEq] at h
          rw [← h.1]
          rfl
        · simp only [Option.some.injEq, Prod.mk.injEq] at h
          rw [← h.1]
          rfl
        · by_cases hvn : validNumber ((c :: rest).takeWhile numChar) = true
          · simp only [hvn, if_true, Option.some.injEq, Prod.mk.injEq] at h
            rw [← h.1]
            exact hvn
          · simp only [if_neg hvn] at h
            exact Option.noConfusion h
    · intro cs vs r h
      rw [parseElems] at h
      split at h
      · exact Option.noConfusion h
      · rename_i v1 r1 heqv
        split at h
        · rename_i r2 heq2
          rcases hpe : parseElems f (r2.dropWhile isJsonWs) with _ | ⟨q1, rr⟩
          · rw [hpe] at h
            exact Option.noConfusion h
          · rw [hpe] at h
            simp only [Option.map_some', Option.some.injEq, Prod.mk.injEq] at h
            rw [← h.1]
            rw [WfList, Bool.and_eq_true]
            exact ⟨pvIH _ _ _ heqv, peIH _ _ _ hpe⟩
        · rename_i r2 heq2
          simp only [Option.some.injEq, Prod.mk.injEq] at h
          rw [← h.1]
          rw [WfList, Bool.and_eq_true]
          exact ⟨pvIH _ _ _ heqv, rfl⟩
        · exact Option.noConfusion h
    · intro acc cs ms r hacc h
      match cs with
      | [] => exact absurd h (by simp [parseMembers])
      | c :: r0 =>
        rw [parseMembers] at h
        split_ifs at h with hq
        split at h
        · exact Option.noConfusion h
        · rename_i k r1 heqs
          split at h
          · rename_i r2 heq2
            split at h
            · exact Option.noConfusion h
            · rename_i v2 r3 heqv
              split at h
              · exact pmIH _ _ _ _ (WfMembers_setMember hacc (pvIH _ _ _ heqv)) h
              · rename_i r4 heq4
                simp only [Option.some.injEq, Prod.mk.injEq] at h
                rw [← h.1]
                exact WfMembers_setMember hacc (pvIH _ _ _ heqv)
              · exact Option.noConfusion h
          · exact Option.noConfusion h

theorem parseEscape_u_bmp {a b c2 d : Char} {n : Nat} (X : List Char)
    (hdec : hex4 a b c2 d = some n)
    (hn : (decide (n < 55296) || decide (57343 < n)) = true) :
    parseEscape ('u' :: a :: b :: c2 :: d :: X) = some (Char.ofNat n, X) := by
  rw [parseEscape]
  split
  · rename_i c3 hse
    rw [show simpleEscape 'u' = none from rfl] at hse
    exact Option.noConfusion hse
  · rename_i hse
    rw [if_pos rfl]
    have hdec16 : decodeHex16 (a :: b :: c2 :: d :: X) = some (n, X) := by
      show (hex4 a b c2 d).map (fun m => (m, X)) = some (n, X)
      rw [hdec]
      rfl
    split
    · rename_i hd2
      rw [hdec16] at hd2
      exact Option.noConfusion hd2
    · rename_i n2 t3 hd2
      rw [hdec16] at hd2
      simp only [Option.some.injEq, Prod.mk.injEq] at hd2
      obtain ⟨hn2, ht3⟩ := hd2
      subst hn2
      subst ht3
      rw [if_pos hn]

theorem escString_body_parse :
    ∀ (cs acc rest : List Char) (g : Nat), cs.length < g →
      parseStringBody g acc ((cs.map escapeChar).flatten ++ '"' :: rest) =
        some (⟨acc ++ cs⟩, rest) := by
  intro cs
  induction cs with
  | nil =>
    intro acc rest g hg
    match g, hg with
    | g2 + 1, _ =>
      simp only [List.map_nil, List.flatten_nil, List.nil_append]
      rw [parseStringBody, if_pos rfl]
      simp
  | cons c t ih =>
    intro acc rest g hg
    match g, hg with
    | g2 + 1, hg =>
      have hg2 : t.length < g2 := by
        simp only [List.length_cons] at hg
        omega
      simp only [List.map_cons, List.flatten_cons, List.append_assoc]
      by_cases h1 : c = '"'
      · subst h1
        show parseStringBody g2 (acc ++ ['"'])
          ((t.map escapeChar).flatten ++ '"' :: rest) = some (⟨acc ++ '"' :: t⟩, rest)
        rw [ih (acc ++ ['"']) rest g2 hg2]
        simp
      · by_cases h2 : c = '\\'
        · subst h2
          show parseStringBody g2 (acc ++ ['\\'])
            ((t.map escapeChar).flatten ++ '"' :: rest) = some (⟨acc ++ '\\' :: t⟩, rest)
          rw [ih (acc ++ ['\\']) rest g2 hg2]
          simp
        · by_cases h3 : c = '\x08'
          · subst h3
            show parseStringBody g2 (acc ++ ['\x08'])
              ((t.map escapeChar).flatten ++ '"' :: rest) = some (⟨acc ++ '\x08' :: t⟩, rest)
            rw [ih (acc ++ ['\x08']) rest g2 hg2]
            simp
          · by_cases h4 : c = '\x0c'
            · subst h4
              show parseStringBody g2 (acc ++ ['\x0c'])
                ((t.map escapeChar).flatten ++ '"' :: rest) = some (⟨acc ++ '\x0c' :: t⟩, rest)
              rw [ih (acc ++ ['\x0c']) rest g2 hg2]
              simp
            · by_cases h5 : c = '\n'
              · subst h5
                show parseStringBody g2 (acc ++ ['\n'])
                  ((t.map escapeChar).flatten ++ '"' :: rest) = some (⟨acc ++ '\n' :: t⟩, rest)
                rw [ih (acc ++ ['\n']) rest g2 hg2]
                simp
              · by_cases h6 : c = '\r'
                · subst h6
                  show parseStringBody g2 (acc ++ ['\r'])
                    ((t.map escapeChar).flatten ++ '"' :: rest) = some (⟨acc ++ '\r' :: t⟩, rest)
                  rw [ih (acc ++ ['\r']) rest g2 hg2]
                  simp
                · by_cases h7 : c = '\t'
                  · subst h7
                    show parseStringBody g2 (acc ++ ['\t'])
                      ((t.map escapeChar).flatten ++ '"' :: rest) =
                        some (⟨acc ++ '\t' :: t⟩, rest)
                    rw [ih (acc ++ ['\t']) rest g2 hg2]
                    simp
                  · by_cases h8 : c.toNat < 0x20
                    · -- low control character, serialized as a unicode escape
                      rw [escapeChar, if_neg h1, if_neg h2, if_neg h3, if_neg h4,
                        if_neg h5, if_neg h6, if_neg h7, if_pos h8]
                      simp only [List.cons_append, List.nil_append]
                      rw [parseStringBody]
                      rw [if_neg (by decide), if_pos rfl]
                      have hhex : hex4 '0' '0' (hexDigitChar (c.toNat / 16))
                          (hexDigitChar (c.toNat % 16)) = some c.toNat := by
                        rw [hex4]
                        rw [hexVal_hexDigitChar (by omega), hexVal_hexDigitChar (by omega),
                          show hexVal '0' = some 0 from rfl]
                        show some (0 * 4096 + 0 * 256 + c.toNat / 16 * 16 + c.toNat % 16) =
                          some c.toNat
                        congr 1
                        omega
                      have hesc := parseEscape_u_bmp
                        ((t.map escapeChar).flatten ++ '"' :: rest) hhex (by
                        simp only [Bool.or_eq_true, decide_eq_true_eq]
                        omega)
                      split
                      · rename_i ch t2 hp
                        rw [hesc] at hp
                        simp only [Option.some.injEq, Prod.mk.injEq] at hp
                        obtain ⟨hch, ht2⟩ := hp
                        subst hch
                        subst ht2
                        rw [Char.ofNat_toNat]
                        rw [ih (acc ++ [c]) rest g2 hg2]
                        simp
                      · rename_i hp
                        rw [hesc] at hp
                        exact Option.noConfusion hp
                    · -- ordinary character, serialized verbatim
                      rw [escapeChar, if_neg h1, if_neg h2, if_neg h3, if_neg h4,
                        if_neg h5, if_neg h6, if_neg h7, if_neg h8]
                      simp only [List.cons_append, List.nil_append]
                      rw [parseStringBody]
                      rw [if_neg h1, if_neg h2, if_neg h8]
                      rw [ih (acc ++ [c]) rest g2 hg2]
                      simp

theorem numStart_ne {c : Char} (h : (decide (c = '-') || c.isDigit) = true) :
    ¬c = '{' ∧ ¬c = '[' ∧ ¬c = '"' ∧ ¬c = 't' ∧ ¬c = 'f' ∧ ¬c = 'n' := by
  simp only [Bool.or_eq_true, decide_eq_true_eq] at h
  rcases h with h | h
  · subst h
    exact ⟨by decide, by decide, by decide, by decide, by decide, by decide⟩
  · refine ⟨?_, ?_, ?_, ?_, ?_, ?_⟩ <;> intro he <;> rw [he] at h <;>
      exact absurd h (by decide)

theorem sChars_head {v : JValue} (hw : WfB v = true) :
    ∃ c t2, sChars v = c :: t2 ∧ isJsonWs c = false ∧ ¬c = ']' := by
  cases v with
  | null => exact ⟨'n', _, rfl, by decide, by decide⟩
  | bool b =>
    cases b
    · exact ⟨'f', _, rfl, by decide, by decide⟩
    · exact ⟨'t', _, rfl, by decide, by decide⟩
  | str s => exact ⟨'"', _, rfl, by decide, by decide⟩
  | arr l => exact ⟨'[', _, rfl, by decide, by decide⟩
  | obj m => exact ⟨'{', _, rfl, by decide, by decide⟩
  | num lex =>
    have hv : validNumber lex.toList = true := hw
    obtain ⟨⟨c, t, hct, hcd⟩, -⟩ := validNumber_structure hv
    refine ⟨c, t, hct, ?_, ?_⟩
    · simp only [Bool.or_eq_true, decide_eq_true_eq] at hcd
      rcases hcd with h | h
      · subst h
        decide
      · by_contra hws
        simp only [Bool.not_eq_false] at hws
        simp only [isJsonWs, Bool.or_eq_true, decide_eq_true_eq] at hws
        rcases hws with ((hx | hx) | hx) | hx <;> subst hx <;> exact absurd h (by decide)
    · intro he
      subst he
      simp only [Bool.or_eq_true, decide_eq_true_eq] at hcd
      rcases hcd with h | h
      · exact absurd h (by decide)
      · exact absurd h (by decide)

theorem sList_decomp (x : JValue) (t : List JValue) :
    ∃ u, sList (x :: t) = sChars x ++ u ∧
      (t = [] ∧ u = [] ∨ ∃ y t2, t = y :: t2 ∧ u = ',' :: sList (y :: t2)) := by
  rcases t with - | ⟨y, t2⟩
  · exact ⟨[], by rw [List.append_nil]; rfl, Or.inl ⟨rfl, rfl⟩⟩
  · exact ⟨',' :: sList (y :: t2), rfl, Or.inr ⟨y, t2, rfl, rfl⟩⟩

theorem keyMem_append (q : String) (acc : List (String × JValue)) (k : String) (v : JValue) :
    keyMem q (acc ++ [(k, v)]) = (keyMem q acc || (k == q)) := by
  induction acc with
  | nil => simp [keyMem]
  | cons p t ih =>
    obtain ⟨k2, v2⟩ := p
    rw [List.cons_append, keyMem, ih, keyMem, Bool.or_assoc]

theorem keyMem_false_mem {k : String} {t : List (String × JValue)}
    (h : keyMem k t = false) {p : String × JValue} (hp : p ∈ t) : (k == p.1) = false := by
  induction t with
  | nil => exact absurd hp (by simp)
  | cons q t2 ih =>
    obtain ⟨k2, v2⟩ := q
    rw [keyMem, Bool.or_eq_false_iff] at h
    rcases List.mem_cons.1 hp with hp | hp
    · subst hp
      simp only []
      rw [beq_eq_false_iff_ne] at h ⊢
      exact fun he => h.1 he.symm
    · exact ih h.2 hp

theorem roundtrip :
    ∀ n : Nat,
      (∀ v : JValue, sizeOf v ≤ n → WfB v = true →
        ∀ (rest : List Char) (g : Nat), (sChars v).length < g →
          (∀ c, rest.head? = some c → numChar c = false) →
          parseValue g (sChars v ++ rest) = some (v, rest)) ∧
      (∀ l : List JValue, sizeOf l ≤ n → WfList l = true → l ≠ [] →
        ∀ (rest : List Char) (g : Nat), (sList l).length + 1 < g →
          parseElems g (sList l ++ ']' :: rest) = some (l, rest)) ∧
      (∀ m : List (String × JValue), sizeOf m ≤ n → WfMembers m = true → m ≠ [] →
        ∀ (acc : List (String × JValue)) (rest : List Char) (g : Nat),
          (sMembers m).length + 1 < g →
          (∀ p ∈ m, keyMem p.1 acc = false) →
          parseMembers g acc (sMembers m ++ '}' :: rest) = some (acc ++ m, rest)) := by
  intro n
  induction n using Nat.strong_induction_on with
  | _ n ih =>
    refine ⟨?_, ?_, ?_⟩
    · -- serialized values parse back
      intro v hsz hw rest g hg hrest
      cases v with
      | null =>
        cases g with
        | zero => omega
        | succ g2 => rfl
      | bool b =>
        cases b with
        | false =>
          cases g with
          | zero => omega
          | succ g2 => rfl
        | true =>
          cases g with
          | zero => omega
          | succ g2 => rfl
      | num lex =>
        have hv : validNumber lex.toList = true := hw
        obtain ⟨⟨c, t, hct, hcd⟩, hall⟩ := validNumber_structure hv
        cases g with
        | zero => omega
        | succ g2 =>
          have hsc : sChars (.num lex) = c :: t := hct
          rw [hsc, List.cons_append, parseValue]
          obtain ⟨n1, n2, n3, n4, n5, n6⟩ := numStart_ne hcd
          rw [if_neg n1, if_neg n2, if_neg n3, if_neg n4, if_neg n5, if_neg n6, if_pos hcd]
          have htk := takeWhile_all_append (p := numChar) (c :: t) rest (by
            intro x hx
            exact hall x (by rw [hct]; exact hx)) hrest
          have hdk := dropWhile_all_append (p := numChar) (c :: t) rest (by
            intro x hx
            exact hall x (by rw [hct]; exact hx)) hrest
          rw [List.cons_append] at htk hdk
          show (if validNumber ((c :: (t ++ rest)).takeWhile numChar) = true then
              some (JValue.num ⟨(c :: (t ++ rest)).takeWhile numChar⟩,
                (c :: (t ++ rest)).dropWhile numChar)
            else none) = some (.num lex, rest)
          rw [htk, hdk, ← hct, if_pos hv]
          rfl
      | str s =>
        cases g with
        | zero => omega
        | succ g2 =>
          have hsc : sChars (.str s) ++ rest =
              '"' :: ((s.toList.map escapeChar).flatten ++ '"' :: rest) := by
            show ('"' :: ((s.toList.map escapeChar).flatten ++ ['"'])) ++ rest = _
            rw [List.cons_append, List.append_assoc]
            rfl
          rw [hsc, parseValue]
          rw [if_neg (by decide), if_neg (by decide), if_pos rfl]
          have hlen : s.toList.length < g2 := by
            have h1 := escFlat_len s.toList
            have h2 : (sChars (.str s)).length =
                ((s.toList.map escapeChar).flatten).length + 2 := by
              show ('"' :: ((s.toList.map escapeChar).flatten ++ ['"'])).length = _
              simp
            omega
          rw [escString_body_parse s.toList [] rest g2 hlen]
          simp only [Option.map_some', List.nil_append]
          rfl
      | arr l =>
        rcases l with - | ⟨x, t⟩
        · cases g with
          | zero => omega
          | succ g2 => rfl
        · cases g with
          | zero => omega
          | succ g2 =>
            rw [WfB] at hw
            have hwx : WfB x = true := by
              rw [WfList, Bool.and_eq_true] at hw
              exact hw.1
            obtain ⟨c0, t0, hhx, hc0ws, hc0ne⟩ := sChars_head hwx
            obtain ⟨u, hu, -⟩ := sList_decomp x t
            have hsc : sChars (.arr (x :: t)) ++ rest =
                '[' :: (sList (x :: t) ++ ']' :: rest) := by
              show ('[' :: (sList (x :: t) ++ [']'])) ++ rest = _
              rw [List.cons_append, List.append_assoc]
              rfl
            rw [hsc, parseValue]
            rw [if_neg (by decide), if_pos rfl]
            have hdw : (sList (x :: t) ++ ']' :: rest).dropWhile isJsonWs =
                sList (x :: t) ++ ']' :: rest := by
              conv_lhs => rw [hu, hhx]
              rw [List.cons_append, List.cons_append, List.dropWhile_cons,
                if_neg (by simp [hc0ws])]
              conv_rhs => rw [hu, hhx]
              rw [List.cons_append, List.cons_append]
            rw [hdw]
            split
            · rename_i r2 heq
              rw [hu, hhx, List.cons_append, List.cons_append] at heq
              simp only [List.cons.injEq] at heq
              exact absurd heq.1 hc0ne
            · have hlt : sizeOf (x :: t) < n := by
                have h1 := hsz
                simp only [JValue.arr.sizeOf_spec] at h1
                omega
              have hfuel : (sList (x :: t)).length + 1 < g2 := by
                have h2 : (sChars (.arr (x :: t))).length =
                    (sList (x :: t)).length + 2 := by
                  show ('[' :: (sList (x :: t) ++ [']'])).length = _
                  simp
                omega
              rw [(ih _ hlt).2.1 (x :: t) le_rfl hw (by simp) rest g2 hfuel]
              rfl
      | obj m =>
        rcases m with - | ⟨p, t⟩
        · cases g with
          | zero => omega
          | succ g2 => rfl
        · obtain ⟨k, v2⟩ := p
          cases g with
          | zero => omega
          | succ g2 =>
            rw [WfB] at hw
            have hu : ∃ u, sMembers ((k, v2) :: t) = escString k ++ u := by
              rcases t with - | ⟨q, t2⟩
              · exact ⟨':' :: sChars v2, rfl⟩
              · exact ⟨(':' :: sChars v2) ++ (',' :: sMembers (q :: t2)), by
                  rw [sMembers, List.append_assoc]⟩
            obtain ⟨u, hu⟩ := hu
            have hsc : sChars (.obj ((k, v2) :: t)) ++ rest =
                '{' :: (sMembers ((k, v2) :: t) ++ '}' :: rest) := by
              show ('{' :: (sMembers ((k, v2) :: t) ++ ['}'])) ++ rest = _
              rw [List.cons_append, List.append_assoc]
              rfl
            rw [hsc, parseValue]
            rw [if_pos rfl]
            have hdw : (sMembers ((k, v2) :: t) ++ '}' :: rest).dropWhile isJsonWs =
                sMembers ((k, v2) :: t) ++ '}' :: rest := by
              conv_lhs => rw [hu]
              rw [show escString k = '"' :: ((k.toList.map escapeChar).flatten ++ ['"'])
                from rfl]
              rw [List.cons_append, List.cons_append, List.dropWhile_cons,
                if_neg (by decide)]
              conv_rhs => rw [hu]
              rw [show escString k = '"' :: ((k.toList.map escapeChar).flatten ++ ['"'])
                from rfl]
              rw [List.cons_append, List.cons_append]
            rw [hdw]
            split
            · rename_i r2 heq
              rw [hu] at heq
              rw [show escString k = '"' :: ((k.toList.map escapeChar).flatten ++ ['"'])
                from rfl] at heq
              rw [List.cons_append, List.cons_append] at heq
              simp only [List.cons.injEq] at heq
              exact absurd heq.1 (by decide)
            · have hlt : sizeOf ((k, v2) :: t) < n := by
                have h1 := hsz
                simp only [JValue.obj.sizeOf_spec] at h1
                omega
              have hfuel : (sMembers ((k, v2) :: t)).length + 1 < g2 := by
                have h2 : (sChars (.obj ((k, v2) :: t))).length =
                    (sMembers ((k, v2) :: t)).length + 2 := by
                  show ('{' :: (sMembers ((k, v2) :: t) ++ ['}'])).length = _
                  simp
                omega
              rw [(ih _ hlt).2.2 ((k, v2) :: t) le_rfl hw (by simp) [] rest g2 hfuel
                (by intro p2 hp2; rfl)]
              rfl
    · -- serialized element lists parse back
      intro l hsz hwl hne rest g hg
      rcases l with - | ⟨x, t⟩
      · exact absurd rfl hne
      · cases g with
        | zero => omega
        | succ g2 =>
          rw [WfList, Bool.and_eq_true] at hwl
          obtain ⟨hwx, hwt⟩ := hwl
          have hltx : sizeOf x < n := by
            have h1 := hsz
            simp only [List.cons.sizeOf_spec] at h1
            omega
          rw [parseElems]
          rcases t with - | ⟨y, t2⟩
          · -- a single element followed by the closing bracket
            have hsl : sList [x] ++ ']' :: rest = sChars x ++ ']' :: rest := rfl
            rw [hsl]
            have hpv := (ih _ hltx).1 x le_rfl hwx (']' :: rest) g2
              (by
                have hlen : (sList [x]).length = (sChars x).length := rfl
                omega)
              (by
                intro c hc
                simp only [List.head?_cons, Option.some.injEq] at hc
                subst hc
                decide)
            split
            · rename_i hp0
              rw [hpv] at hp0
              exact Option.noConfusion hp0
            · rename_i v1 r1 hp0
              rw [hpv] at hp0
              simp only [Option.some.injEq, Prod.mk.injEq] at hp0
              obtain ⟨hv1, hr1⟩ := hp0
              subst hv1
              subst hr1
              have hdw : (']' :: rest).dropWhile isJsonWs = ']' :: rest := by
                rw [List.dropWhile_cons, if_neg (by decide)]
              split
              · rename_i r2 heq
                rw [hdw] at heq
                simp only [List.cons.injEq] at heq
                exact absurd heq.1 (by decide)
              · rename_i r2 heq
                rw [hdw] at heq
                simp only [List.cons.injEq] at heq
                obtain ⟨-, hr2⟩ := heq
                subst hr2
                rfl
              · rename_i hne1 hne2
                exact (hne2 rest hdw).elim
          · -- at least two elements: comma continuation
            have hsl : sList (x :: y :: t2) ++ ']' :: rest =
                sChars x ++ (',' :: (sList (y :: t2) ++ ']' :: rest)) := by
              rw [show sList (x :: y :: t2) = sChars x ++ ',' :: sList (y :: t2) from rfl]
              rw [List.append_assoc]
              rfl
            have hlen : (sList (x :: y :: t2)).length =
                (sChars x).length + 1 + (sList (y :: t2)).length := by
              rw [show sList (x :: y :: t2) = sChars x ++ ',' :: sList (y :: t2) from rfl]
              simp only [List.length_append, List.length_cons]
              omega
            rw [hsl]
            have hpv := (ih _ hltx).1 x le_rfl hwx
              (',' :: (sList (y :: t2) ++ ']' :: rest)) g2
              (by omega)
              (by
                intro c hc
                simp only [List.head?_cons, Option.some.injEq] at hc
                subst hc
                decide)
            split
            · rename_i hp0
              rw [hpv] at hp0
              exact Option.noConfusion hp0
            · rename_i v1 r1 hp0
              rw [hpv] at hp0
              simp only [Option.some.injEq, Prod.mk.injEq] at hp0
              obtain ⟨hv1, hr1⟩ := hp0
              subst hv1
              subst hr1
              have hdw : (',' :: (sList (y :: t2) ++ ']' :: rest)).dropWhile isJsonWs =
                  ',' :: (sList (y :: t2) ++ ']' :: rest) := by
                rw [List.dropWhile_cons, if_neg (by decide)]
              split
              · rename_i r2 heq
                rw [hdw] at heq
                simp only [List.cons.injEq] at heq
                obtain ⟨-, hr2⟩ := heq
                subst hr2
                have hwy : WfB y = true := by
                  rw [WfList, Bool.and_eq_true] at hwt
                  exact hwt.1
                obtain ⟨c0, t0, hhy, hc0ws, -⟩ := sChars_head hwy
                obtain ⟨u, hu, -⟩ := sList_decomp y t2
                have hdw2 : (sList (y :: t2) ++ ']' :: rest).dropWhile isJsonWs =
                    sList (y :: t2) ++ ']' :: rest := by
                  conv_lhs => rw [hu, hhy]
                  rw [List.cons_append, List.cons_append, List.dropWhile_cons,
                    if_neg (by simp [hc0ws])]
                  conv_rhs => rw [hu, hhy]
                  rw [List.cons_append, List.cons_append]
                rw [hdw2]
                have hlty : sizeOf (y :: t2) < n := by
                  have h1 := hsz
                  simp only [List.cons.sizeOf_spec] at h1 ⊢
                  omega
                rw [(ih _ hlty).2.1 (y :: t2) le_rfl hwt (by simp) rest g2 (by omega)]
                rfl
              · rename_i r2 heq
                rw [hdw] at heq
                simp only [List.cons.injEq] at heq
                exact absurd heq.1 (by decide)
              · rename_i hne1 hne2
                exact (hne1 (sList (y :: t2) ++ ']' :: rest) hdw).elim
    · -- serialized member lists parse back
      intro m hsz hwm hne acc rest g hg hfresh
      rcases m with - | ⟨p, t⟩
      · exact absurd rfl hne
      · obtain ⟨k, v⟩ := p
        cases g with
        | zero => omega
        | succ g2 =>
          rw [WfMembers, Bool.and_eq_true, Bool.and_eq_true] at hwm
          obtain ⟨⟨hwv, hkmem⟩, hwt⟩ := hwm
          have hkmem2 : keyMem k t = false := by
            rwa [Bool.not_eq_eq_eq_not, Bool.not_true] at hkmem
          have hltv : sizeOf v < n := by
            have h1 := hsz
            simp only [List.cons.sizeOf_spec, Prod.mk.sizeOf_spec] at h1
            omega
          have hfl := escFlat_len k.toList
          have hfk : keyMem k acc = false := hfresh (k, v) (by simp)
          rcases t with - | ⟨q, t2⟩
          · -- a single member followed by the closing brace
            have hm : sMembers [(k, v)] ++ '}' :: rest =
                '"' :: ((k.toList.map escapeChar).flatten ++
                  '"' :: (':' :: (sChars v ++ '}' :: rest))) := by
              rw [show sMembers [(k, v)] = escString k ++ ':' :: sChars v from rfl,
                show escString k = '"' :: ((k.toList.map escapeChar).flatten ++ ['"'])
                  from rfl]
              simp [List.append_assoc]
            have hlen1 : (sMembers [(k, v)]).length =
                ((k.toList.map escapeChar).flatten).length + 3 + (sChars v).length := by
              rw [show sMembers [(k, v)] = escString k ++ ':' :: sChars v from rfl,
                show escString k = '"' :: ((k.toList.map escapeChar).flatten ++ ['"'])
                  from rfl]
              simp only [List.length_append, List.length_cons, List.length_singleton,
                List.length_nil]
              omega
            rw [hm, parseMembers, if_pos rfl]
            have hkb : parseStringBody g2 [] ((k.toList.map escapeChar).flatten ++
                '"' :: (':' :: (sChars v ++ '}' :: rest))) =
                some (k, ':' :: (sChars v ++ '}' :: rest)) := by
              rw [escString_body_parse k.toList [] _ g2 (by omega)]
              rfl
            split
            · rename_i hs0
              rw [hkb] at hs0
              exact Option.noConfusion hs0
            · rename_i k1 r1 hs0
              rw [hkb] at hs0
              simp only [Option.some.injEq, Prod.mk.injEq] at hs0
              obtain ⟨hk1, hr1⟩ := hs0
              subst hk1
              subst hr1
              have hdw : (':' :: (sChars v ++ '}' :: rest)).dropWhile isJsonWs =
                  ':' :: (sChars v ++ '}' :: rest) := by
                rw [List.dropWhile_cons, if_neg (by decide)]
              split
              · rename_i r2 heq
                rw [hdw] at heq
                simp only [List.cons.injEq] at heq
                obtain ⟨-, hr2⟩ := heq
                subst hr2
                obtain ⟨c0, t0, hhv, hc0ws, -⟩ := sChars_head hwv
                have hdw2 : (sChars v ++ '}' :: rest).dropWhile isJsonWs =
                    sChars v ++ '}' :: rest := by
                  conv_lhs => rw [hhv]
                  rw [List.cons_append, List.dropWhile_cons, if_neg (by simp [hc0ws])]
                  conv_rhs => rw [hhv]
                  rw [List.cons_append]
                rw [hdw2]
                have hpv := (ih _ hltv).1 v le_rfl hwv ('}' :: rest) g2 (by omega)
                  (by
                    intro c hc
                    simp only [List.head?_cons, Option.some.injEq] at hc
                    subst hc
                    decide)
                split
                · rename_i hp0
                  rw [hpv] at hp0
                  exact Option.noConfusion hp0
                · rename_i v1 r3 hp0
                  rw [hpv] at hp0
                  simp only [Option.some.injEq, Prod.mk.injEq] at hp0
                  obtain ⟨hv1, hr3⟩ := hp0
                  subst hv1
                  subst hr3
                  have hdw3 : ('}' :: rest).dropWhile isJsonWs = '}' :: rest := by
                    rw [List.dropWhile_cons, if_neg (by decide)]
                  split
                  · rename_i r4 heq4
                    rw [hdw3] at heq4
                    simp only [List.cons.injEq] at heq4
                    exact absurd heq4.1 (by decide)
                  · rename_i r4 heq4
                    rw [hdw3] at heq4
                    simp only [List.cons.injEq] at heq4
                    obtain ⟨-, hr4⟩ := heq4
                    subst hr4
                    rw [setMember_fresh hfk]
                  · rename_i hne1 hne2
                    exact (hne2 rest hdw3).elim
              · rename_i hne1
                exact (hne1 (sChars v ++ '}' :: rest) hdw).elim
          · -- at least two members: comma continuation
            obtain ⟨k2, v2⟩ := q
            have hm : sMembers ((k, v) :: (k2, v2) :: t2) ++ '}' :: rest =
                '"' :: ((k.toList.map escapeChar).flatten ++
                  '"' :: (':' :: (sChars v ++
                    ',' :: (sMembers ((k2, v2) :: t2) ++ '}' :: rest)))) := by
              rw [show sMembers ((k, v) :: (k2, v2) :: t2) =
                  escString k ++ ':' :: sChars v ++ ',' :: sMembers ((k2, v2) :: t2)
                  from rfl,
                show escString k = '"' :: ((k.toList.map escapeChar).flatten ++ ['"'])
                  from rfl]
              simp [List.append_assoc]
            have hlen1 : (sMembers ((k, v) :: (k2, v2) :: t2)).length =
                ((k.toList.map escapeChar).flatten).length + 3 + (sChars v).length +
                  1 + (sMembers ((k2, v2) :: t2)).length := by
              rw [show sMembers ((k, v) :: (k2, v2) :: t2) =
                  escString k ++ ':' :: sChars v ++ ',' :: sMembers ((k2, v2) :: t2)
                  from rfl,
                show escString k = '"' :: ((k.toList.map escapeChar).flatten ++ ['"'])
                  from rfl]
              simp only [List.length_append, List.length_cons, List.length_singleton,
                List.length_nil]
              omega
            rw [hm, parseMembers, if_pos rfl]
            have hkb : parseStringBody g2 [] ((k.toList.map escapeChar).flatten ++
                '"' :: (':' :: (sChars v ++
                  ',' :: (sMembers ((k2, v2) :: t2) ++ '}' :: rest)))) =
                some (k, ':' :: (sChars v ++
                  ',' :: (sMembers ((k2, v2) :: t2) ++ '}' :: rest))) := by
              rw [escString_body_parse k.toList [] _ g2 (by omega)]
              rfl
            split
            · rename_i hs0
              rw [hkb] at hs0
              exact Option.noConfusion hs0
            · rename_i k1 r1 hs0
              rw [hkb] at hs0
              simp only [Option.some.injEq, Prod.mk.injEq] at hs0
              obtain ⟨hk1, hr1⟩ := hs0
              subst hk1
              subst hr1
              have hdw : (':' :: (sChars v ++
                  ',' :: (sMembers ((k2, v2) :: t2) ++ '}' :: rest))).dropWhile isJsonWs =
                  ':' :: (sChars v ++
                    ',' :: (sMembers ((k2, v2) :: t2) ++ '}' :: rest)) := by
                rw [List.dropWhile_cons, if_neg (by decide)]
              split
              · rename_i r2 heq
                rw [hdw] at heq
                simp only [List.cons.injEq] at heq
                obtain ⟨-, hr2⟩ := heq
                subst hr2
                obtain ⟨c0, t0, hhv, hc0ws, -⟩ := sChars_head hwv
                have hdw2 : (sChars v ++
                    ',' :: (sMembers ((k2, v2) :: t2) ++ '}' :: rest)).dropWhile isJsonWs =
                    sChars v ++ ',' :: (sMembers ((k2, v2) :: t2) ++ '}' :: rest) := by
                  conv_lhs => rw [hhv]
                  rw [List.cons_append, List.dropWhile_cons, if_neg (by simp [hc0ws])]
                  conv_rhs => rw [hhv]
                  rw [List.cons_append]
                rw [hdw2]
                have hpv := (ih _ hltv).1 v le_rfl hwv
                  (',' :: (sMembers ((k2, v2) :: t2) ++ '}' :: rest)) g2 (by omega)
                  (by
                    intro c hc
                    simp only [List.head?_cons, Option.some.injEq] at hc
                    subst hc
                    decide)
                split
                · rename_i hp0
                  rw [hpv] at hp0
                  exact Option.noConfusion hp0
                · rename_i v1 r3 hp0
                  rw [hpv] at hp0
                  simp only [Option.some.injEq, Prod.mk.injEq] at hp0
                  obtain ⟨hv1, hr3⟩ := hp0
                  subst hv1
                  subst hr3
                  have hdw3 : (',' :: (sMembers ((k2, v2) :: t2) ++
                      '}' :: rest)).dropWhile isJsonWs =
                      ',' :: (sMembers ((k2, v2) :: t2) ++ '}' :: rest) := by
                    rw [List.dropWhile_cons, if_neg (by decide)]
                  split
                  · rename_i r4 heq4
                    rw [hdw3] at heq4
                    simp only [List.cons.injEq] at heq4
                    obtain ⟨-, hr4⟩ := heq4
                    subst hr4
                    have hdw4 : (sMembers ((k2, v2) :: t2) ++
                        '}' :: rest).dropWhile isJsonWs =
                        sMembers ((k2, v2) :: t2) ++ '}' :: rest := by
                      have hu : ∃ u, sMembers ((k2, v2) :: t2) = escString k2 ++ u := by
                        rcases t2 with - | ⟨q2, t3⟩
                        · exact ⟨':' :: sChars v2, rfl⟩
                        · exact ⟨(':' :: sChars v2) ++ (',' :: sMembers (q2 :: t3)), by
                            rw [sMembers, List.append_assoc]⟩
                      obtain ⟨u, hu⟩ := hu
                      conv_lhs => rw [hu]
                      rw [show escString k2 =
                        '"' :: ((k2.toList.map escapeChar).flatten ++ ['"']) from rfl]
                      rw [List.cons_append, List.cons_append, List.dropWhile_cons,
                        if_neg (by decide)]
                      conv_rhs => rw [hu]
                      rw [show escString k2 =
                        '"' :: ((k2.toList.map escapeChar).flatten ++ ['"']) from rfl]
                      rw [List.cons_append, List.cons_append]
                    rw [hdw4]
                    rw [setMember_fresh hfk]
                    have hlt2 : sizeOf ((k2, v2) :: t2) < n := by
                      have h1 := hsz
                      simp only [List.cons.sizeOf_spec, Prod.mk.sizeOf_spec] at h1 ⊢
                      omega
                    rw [(ih _ hlt2).2.2 ((k2, v2) :: t2) le_rfl hwt (by simp)
                      (acc ++ [(k, v)]) rest g2 (by omega)
                      (by
                        intro p2 hp2
                        rw [keyMem_append]
                        rw [hfresh p2 (by simp [hp2]), keyMem_false_mem hkmem2 hp2]
                        rfl)]
                    rw [List.append_assoc]
                    rfl
                  · rename_i r4 heq4
                    rw [hdw3] at heq4
                    simp only [List.cons.injEq] at heq4
                    exact absurd heq4.1 (by decide)
                  · rename_i hne1 hne2
                    exact (hne1 (sMembers ((k2, v2) :: t2) ++ '}' :: rest) hdw3).elim
              · rename_i hne1
                exact (hne1 (sChars v ++
                  ',' :: (sMembers ((k2, v2) :: t2) ++ '}' :: rest)) hdw).elim

/-! ## Shape of successful `extractCore` results -/

theorem findIdx_get_aux {p : Char → Bool} :
    ∀ (cs : List Char) (i j : Nat), List.findIdx? p cs i = some j →
      i ≤ j ∧ ∃ b, cs.get? (j - i) = some b ∧ p b = true := by
  intro cs
  induction cs with
  | nil =>
    intro i j h
    simp [List.findIdx?] at h
  | cons x t ih =>
    intro i j h
    rw [List.findIdx?_cons] at h
    by_cases hx : p x = true
    · rw [if_pos hx] at h
      simp only [Option.some.injEq] at h
      subst h
      exact ⟨le_rfl, x, by simp, hx⟩
    · rw [if_neg hx] at h
      obtain ⟨hij, b, hb, hpb⟩ := ih (i + 1) j h
      refine ⟨by omega, b, ?_, hpb⟩
      have hd : j - i = (j - (i + 1)) + 1 := by omega
      rw [hd]
      simpa using hb

theorem findIdx_get {p : Char → Bool} {cs : List Char} {j : Nat}
    (h : List.findIdx? p cs = some j) :
    ∃ b, cs.get? j = some b ∧ p b = true := by
  obtain ⟨-, b, hb, hpb⟩ := findIdx_get_aux cs 0 j h
  exact ⟨b, by simpa using hb, hpb⟩

theorem take_head {l : List Char} {n : Nat} {c : Char} {t : List Char}
    (h : l.take n = c :: t) : l.head? = some c := by
  have h2 : (l.take n).head? = some c := by rw [h]; rfl
  rw [List.head?_take] at h2
  split at h2
  · exact Option.noConfusion h2
  · exact h2

theorem repairTrailingCommas_head (fuel : Nat) (c : Char) (t : List Char)
    (hc : ¬c = ',') : ∃ t2, repairTrailingCommas fuel (c :: t) = c :: t2 := by
  cases fuel with
  | zero => exact ⟨t, rfl⟩
  | succ f =>
    refine ⟨repairTrailingCommas f t, ?_⟩
    rw [repairTrailingCommas]
    exact fun h => hc h

theorem repairMissingCommas_head (fuel : Nat) (c : Char) (t : List Char) :
    ∃ t2, repairMissingCommas fuel (c :: t) = c :: t2 := by
  cases fuel with
  | zero => exact ⟨t, rfl⟩
  | succ f =>
    rw [repairMissingCommas]
    split
    · simp only []
      split
      · split
        · exact ⟨_, rfl⟩
        · exact ⟨_, rfl⟩
      · exact ⟨_, rfl⟩
    · exact ⟨_, rfl⟩

theorem repairTabs_head (c : Char) (t : List Char) (hc : ¬c = '\t') :
    repairTabs (c :: t) = c :: repairTabs t := by
  simp [repairTabs, hc]

theorem repaired_head (m n : Nat) {b : Char} (t : List Char)
    (hb : b = '[' ∨ b = '{') :
    ∃ t2, repairTabs (repairMissingCommas n (repairTrailingCommas m (b :: t))) =
      b :: t2 := by
  have hbc : ¬b = ',' := by rcases hb with h | h <;> subst h <;> decide
  have hbt : ¬b = '\t' := by rcases hb with h | h <;> subst h <;> decide
  obtain ⟨t1, h1⟩ := repairTrailingCommas_head m b t hbc
  obtain ⟨t2, h2⟩ := repairMissingCommas_head n b t1
  rw [h1, h2, repairTabs_head b t2 hbt]
  exact ⟨repairTabs t2, rfl⟩

theorem repairTrailingCommas_nil (fuel : Nat) : repairTrailingCommas fuel [] = [] := by
  cases fuel <;> rfl

theorem repairMissingCommas_nil (fuel : Nat) : repairMissingCommas fuel [] = [] := by
  cases fuel <;> rfl

theorem jsonParseL_wf {cs : List Char} {v : JValue} (h : jsonParseL cs = some v) :
    WfB v = true := by
  simp only [jsonParseL] at h
  split at h
  · rename_i v0 r0 hpv
    split_ifs at h
    simp only [Option.some.injEq] at h
    subst v0
    exact (parse_wf _).1 _ _ _ hpv
  · exact Option.noConfusion h

theorem parseValue_head_container {fuel : Nat} {c : Char} {t r : List Char} {v : JValue}
    (hb : c = '[' ∨ c = '{') (h : parseValue fuel (c :: t) = some (v, r)) :
    isContainer v = true := by
  match fuel with
  | 0 => exact absurd h (by simp [parseValue])
  | f + 1 =>
    rw [parseValue] at h
    rcases hb with hb | hb
    · subst hb
      rw [if_neg (by decide), if_pos rfl] at h
      split at h
      · simp only [Option.some.injEq, Prod.mk.injEq] at h
        rw [← h.1]
        rfl
      · rcases he : parseElems f _ with _ | ⟨vs, rr⟩
        · rw [he] at h
          exact Option.noConfusion h
        · rw [he] at h
          simp only [Option.map_some', Option.some.injEq, Prod.mk.injEq] at h
          rw [← h.1]
          rfl
    · subst hb
      rw [if_pos rfl] at h
      split at h
      · simp only [Option.some.injEq, Prod.mk.injEq] at h
        rw [← h.1]
        rfl
      · rcases he : parseMembers f [] _ with _ | ⟨ms, rr⟩
        · rw [he] at h
          exact Option.noConfusion h
        · rw [he] at h
          simp only [Option.map_some', Option.some.injEq, Prod.mk.injEq] at h
          rw [← h.1]
          rfl

theorem jsonParseL_head_container {c : Char} {t : List Char} {v : JValue}
    (hb : c = '[' ∨ c = '{') (h : jsonParseL (c :: t) = some v) :
    isContainer v = true := by
  simp only [jsonParseL] at h
  have hdw : (c :: t).dropWhile isJsonWs = c :: t := by
    rw [List.dropWhile_cons, if_neg (by rcases hb with hb | hb <;> subst hb <;> decide)]
  rw [hdw] at h
  split at h
  · rename_i v0 r0 hpv
    split_ifs at h
    simp only [Option.some.injEq] at h
    subst v0
    exact parseValue_head_container hb hpv
  · exact Option.noConfusion h

theorem if_closer_or (P : Prop) [Decidable P] :
    (if P then ']' else '}') = ']' ∨ (if P then ']' else '}') = '}' := by
  split
  · exact Or.inl rfl
  · exact Or.inr rfl

theorem jsonParseL_take_container {raw0 : List Char} {start n : Nat} {B : Char}
    {v : JValue} (hB : raw0.get? start = some B) (hBor : B = '[' ∨ B = '{')
    (h : jsonParseL ((raw0.drop start).take n) = some v) : isContainer v = true := by
  rcases hr : (raw0.drop start).take n with _ | ⟨b, rt⟩
  · rw [hr, show jsonParseL [] = none from rfl] at h
    exact Option.noConfusion h
  · rw [hr] at h
    have h1 := take_head hr
    rw [List.head?_drop, ← List.get?_eq_getElem?, hB] at h1
    simp only [Option.some.injEq] at h1
    subst h1
    exact jsonParseL_head_container hBor h

theorem repaired_of_take {raw0 : List Char} {start n : Nat} {B : Char}
    (hB : raw0.get? start = some B) (hBor : B = '[' ∨ B = '{') (m k : Nat) :
    repairTabs (repairMissingCommas m
      (repairTrailingCommas k ((raw0.drop start).take n))) = [] ∨
    ∃ t2, repairTabs (repairMissingCommas m
      (repairTrailingCommas k ((raw0.drop start).take n))) = B :: t2 := by
  rcases hr : (raw0.drop start).take n with _ | ⟨b, rt⟩
  · left
    rw [repairTrailingCommas_nil, repairMissingCommas_nil]
    rfl
  · right
    have h1 := take_head hr
    rw [List.head?_drop, ← List.get?_eq_getElem?, hB] at h1
    simp only [Option.some.injEq] at h1
    subst h1
    exact repaired_head k m rt hBor

theorem jsonParseL_repaired_container {raw0 : List Char} {start n m k : Nat}
    {B : Char} {v : JValue} (hB : raw0.get? start = some B)
    (hBor : B = '[' ∨ B = '{')
    (h : jsonParseL (repairTabs (repairMissingCommas m
      (repairTrailingCommas k ((raw0.drop start).take n)))) = some v) :
    isContainer v = true := by
  rcases repaired_of_take hB hBor m k with hnil | ⟨t2, ht2⟩
  · rw [hnil, show jsonParseL [] = none from rfl] at h
    exact Option.noConfusion h
  · rw [ht2] at h
    exact jsonParseL_head_container hBor h

theorem jsonParseL_trunc_container {raw0 : List Char} {start n m k p : Nat}
    {B br : Char} {v : JValue} (hB : raw0.get? start = some B)
    (hBor : B = '[' ∨ B = '{') (hbr : br = ']' ∨ br = '}')
    (h : jsonParseL ((repairTabs (repairMissingCommas m
      (repairTrailingCommas k ((raw0.drop start).take n)))).take (p + 1) ++ [br]) =
      some v) : isContainer v = true := by
  rcases repaired_of_take hB hBor m k with hnil | ⟨t2, ht2⟩
  · rw [hnil, List.take_nil, List.nil_append] at h
    rcases hbr with hbr | hbr <;> subst hbr
    · rw [show jsonParseL [']'] = none from rfl] at h
      exact Option.noConfusion h
    · rw [show jsonParseL ['}'] = none from rfl] at h
      exact Option.noConfusion h
  · rw [ht2, List.take_succ_cons, List.cons_append] at h
    exact jsonParseL_head_container hBor h

theorem extractCore_ok_shape {raw0 : List Char} {v : JValue}
    (h : extractCore raw0 = .ok v) : WfB v = true ∧ isContainer v = true := by
  simp only [extractCore] at h
  split at h
  · exact Except.noConfusion h
  · rename_i start hfind
    obtain ⟨B, hB, hpB⟩ := findIdx_get hfind
    have hBor : B = '[' ∨ B = '{' := by
      simp only [Bool.or_eq_true, decide_eq_true_eq] at hpB
      exact hpB
    split at h
    · exact Except.noConfusion h
    · split at h
      · rename_i v0 hpv
        simp only [Except.ok.injEq] at h
        subst v0
        exact ⟨jsonParseL_wf hpv, jsonParseL_take_container hB hBor hpv⟩
      · split at h
        · rename_i v0 hpv2
          simp only [Except.ok.injEq] at h
          subst v0
          exact ⟨jsonParseL_wf hpv2, jsonParseL_repaired_container hB hBor hpv2⟩
        · split at h
          · split at h
            · rename_i v0 hpv3
              simp only [Except.ok.injEq] at h
              subst v0
              exact ⟨jsonParseL_wf hpv3,
                jsonParseL_trunc_container hB hBor (if_closer_or _) hpv3⟩
            · exact Except.noConfusion h
          · exact Except.noConfusion h

theorem extractJSON_ok_shape {text : String} {v : JValue}
    (h : extractJSON text = .ok v) : WfB v = true ∧ isContainer v = true := by
  rw [extractJSON] at h
  exact extractCore_ok_shape h

/-! ## Claim C9: the stringify round-trip -/

set_option maxRecDepth 4000 in
/-- C9: counterexample to the unrestricted claim.  The raw text
`{"a":"```x```"}` is extracted successfully
(the ``` escapes decode to backticks), but `JSON.stringify` of the
result emits those backticks verbatim, so re-extraction sees a fenced code
block whose interior `x` holds no JSON and fails with
"No JSON found in response". -/
theorem extractJSON_roundtrip_counterexample :
    extractJSON "\x7b\"a\":\"\\u0060\\u0060\\u0060x\\u0060\\u0060\\u0060\"\x7d" =
      .ok (.obj [("a", .str ⟨[backtick, backtick, backtick, 'x',
        backtick, backtick, backtick]⟩)]) ∧
    extractJSON (stringifyJ (.obj [("a", .str ⟨[backtick, backtick, backtick, 'x',
      backtick, backtick, backtick]⟩)])) = .error "No JSON found in response" :=
  ⟨rfl, rfl⟩

/-- C9 amended: if `extractJSON` succeeds on `text` with value `v` and the
`JSON.stringify` serialization of `v` contains no run of three backticks,
then `extractJSON` applied to that serialization succeeds and returns `v`. -/
theorem extractJSON_roundtrip_amended (text : String) (v : JValue)
    (hok : extractJSON text = .ok v)
    (hnt : hasTriple (sChars v) = false) :
    extractJSON (stringifyJ v) = .ok v := by
  obtain ⟨hwf, hc⟩ := extractJSON_ok_shape hok
  obtain ⟨B, body, E, hdec, hBor, hEor⟩ :
      ∃ B body E, sChars v = B :: body ++ [E] ∧ (B = '[' ∨ B = '{') ∧
        (E = ']' ∨ E = '}') := by
    cases v with
    | arr xs => exact ⟨'[', sList xs, ']', rfl, Or.inl rfl, Or.inl rfl⟩
    | obj ms => exact ⟨'{', sMembers ms, '}', rfl, Or.inr rfl, Or.inr rfl⟩
    | null => simp [isContainer] at hc
    | bool b => simp [isContainer] at hc
    | str s => simp [isContainer] at hc
    | num lex => simp [isContainer] at hc
  have hlen : (sChars v).length = body.length + 2 := by
    rw [hdec]
    simp
  have hpv : parseValue ((sChars v).length + 1) (sChars v) = some (v, []) := by
    have h := (roundtrip (sizeOf v)).1 v le_rfl hwf [] ((sChars v).length + 1)
      (by omega) (by intro c hc2; exact Option.noConfusion hc2)
    rwa [List.append_nil] at h
  have hjp : jsonParseL (sChars v) = some v := by
    simp only [jsonParseL]
    have hdw : (sChars v).dropWhile isJsonWs = sChars v := by
      rw [hdec, List.cons_append, List.dropWhile_cons,
        if_neg (by rcases hBor with h | h <;> subst h <;> decide)]
    rw [hdw, hpv]
    rfl
  have hfind : List.findIdx? (fun c => decide (c = '[') || decide (c = '{'))
      (sChars v) = some 0 := by
    conv_lhs => rw [hdec, List.cons_append]
    rw [List.findIdx?_cons,
      if_pos (by rcases hBor with h | h <;> subst h <;> rfl)]
  have hmax : max (lastIdxOfChar (sChars v) '}') (lastIdxOfChar (sChars v) ']') =
      (((B :: body).length : Nat) : Int) := by
    conv_lhs => rw [hdec]
    exact max_lastIdx_closer (B :: body) [] E hEor
      (by intro x hx; exact absurd hx (by simp))
  have hcore : extractCore (sChars v) = .ok v := by
    simp only [extractCore]
    simp only [hfind]
    rw [hmax]
    rw [if_neg (by omega : ¬((((B :: body).length : Nat) : Int) = -1))]
    rw [show (((B :: body).length : Nat) : Int).toNat + 1 - 0 = (sChars v).length from by
      simp only [Int.toNat_natCast, List.length_cons]
      omega]
    rw [List.drop_zero, List.take_length]
    simp only [hjp]
  rw [extractJSON, show (stringifyJ v).toList = sChars v from rfl,
    fenceMatchL_none_of_no_triple _ hnt]
  exact hcore

/-- Witness for the amended C9 at `{"a":1}`. -/
theorem extractJSON_roundtrip_amended_witness :
    extractJSON (stringifyJ (.obj [("a", .num "1")])) =
      .ok (.obj [("a", .num "1")]) :=
  extractJSON_roundtrip_amended "\x7b\"a\":1\x7d" (.obj [("a", .num "1")]) rfl rfl

end TripPlanner
